import Mathlib

/-!
# Verification of the llvm-deps constraint-based information-flow analysis

This file gives a shallow embedding of the constraint subsystem of the
llvm-deps taint analysis (the `deps` C++ namespace) and proves properties of
it.  The embedding covers:

* the two-point security lattice `LHConstant` and the constraint-element
  algebra (`ConsElem`, from `LHConstraints.cpp`),
* the classical worklist solver (`LHConsSoln.cpp`: `LHConsLeastSoln`,
  `LHConsGreatestSoln`),
* the propagation solver (`PartialSolution.cpp`),
* the constraint kit (`LHConstraintKit.cpp`) and its multithreaded bulk
  solver (`MTSolve.cpp`),
* the `Infoflow` constraint-variable bookkeeping and taint API
  (`Infoflow.cpp`), and
* the control-dependence sink computation `constrainConditionalSuccessors`
  and the per-instruction dispatch (fence / unreachable).

Pointers of the C++ implementation are modelled by `Nat` identifiers
(variables by their allocation index, constraints in a solver by their
position in the constraint vector); `std::set` values by `Finset`;
maps by functions into `Option`.  Each definition carries a comment naming
the C++ entity it embeds.
-/

/-- The two lattice constants of `LHConstant` (`LHConstraints.h`):
`LOW` (untainted) and `HIGH` (tainted). -/
inductive LHConstant where
  | low
  | high
deriving DecidableEq

/-- `LHConstant::leq` restricted to two constants: `(this->level == LOW) ||
(other->level == HIGH)` (`LHConstraints.cpp`).  This is the form the solvers
use after substitution, where both sides are constants. -/
def LHConstant.leq (a b : LHConstant) : Bool :=
  a = LHConstant.low || b = LHConstant.high

/-- `LHConstant::join`: `(level == LOW) ? other : *this`. -/
def LHConstant.join (a b : LHConstant) : LHConstant :=
  match a with
  | .low => b
  | .high => .high

/-- The complement used by `LHConsSoln::subst` for changed variables:
`(defaultValue == low()) ? high() : low()`. -/
def LHConstant.other (d : LHConstant) : LHConstant :=
  match d with
  | .low => .high
  | .high => .low

/-- Constraint elements (`ConsElem` hierarchy of `LHConstraints.h`):
a lattice constant (`LHConstant`), a constraint variable (`LHConsVar`,
identified by its allocation index in the kit's `vars` vector), or a join
(`LHJoin`, holding its member set; we carry the members as a list). -/
inductive ConsElem where
  | const : LHConstant → ConsElem
  | var : Nat → ConsElem
  | join : List ConsElem → ConsElem

mutual
/-- Decidable structural equality of elements (pointer equality in the C++
implementation coincides with structural equality for the interned
representation: variables are identified by allocation index, constants by
level, joins by member set). -/
def ConsElem.decEq : (a b : ConsElem) → Decidable (a = b)
  | .const x, .const y =>
      if h : x = y then isTrue (by rw [h])
      else isFalse (fun hh => h (by cases hh; rfl))
  | .const _, .var _ => isFalse (fun h => ConsElem.noConfusion h)
  | .const _, .join _ => isFalse (fun h => ConsElem.noConfusion h)
  | .var _, .const _ => isFalse (fun h => ConsElem.noConfusion h)
  | .var x, .var y =>
      if h : x = y then isTrue (by rw [h])
      else isFalse (fun hh => h (by cases hh; rfl))
  | .var _, .join _ => isFalse (fun h => ConsElem.noConfusion h)
  | .join _, .const _ => isFalse (fun h => ConsElem.noConfusion h)
  | .join _, .var _ => isFalse (fun h => ConsElem.noConfusion h)
  | .join l, .join m =>
      match ConsElem.decEqList l m with
      | isTrue h => isTrue (by rw [h])
      | isFalse h => isFalse (fun hh => h (by cases hh; rfl))

/-- Decidable equality of member lists. -/
def ConsElem.decEqList : (l m : List ConsElem) → Decidable (l = m)
  | [], [] => isTrue rfl
  | [], _ :: _ => isFalse (fun h => List.noConfusion h)
  | _ :: _, [] => isFalse (fun h => List.noConfusion h)
  | x :: xs, y :: ys =>
      match ConsElem.decEq x y with
      | isTrue h1 =>
          match ConsElem.decEqList xs ys with
          | isTrue h2 => isTrue (by rw [h1, h2])
          | isFalse h2 => isFalse (fun hh => h2 (by cases hh; rfl))
      | isFalse h1 => isFalse (fun hh => h1 (by cases hh; rfl))
end

instance : DecidableEq ConsElem := ConsElem.decEq

mutual
/-- `ConsElem::variables` (`LHConstraints.cpp`): the set of constraint
variables occurring in an element.  `LHConstant::variables` adds nothing,
`LHConsVar::variables` adds the variable itself, `LHJoin::variables`
recurses into the members. -/
def ConsElem.variables : ConsElem → Finset Nat
  | .const _ => ∅
  | .var v => {v}
  | .join l => ConsElem.variablesList l

/-- Variables of a list of members (the `LHJoin::variables` loop). -/
def ConsElem.variablesList : List ConsElem → Finset Nat
  | [] => ∅
  | e :: es => e.variables ∪ ConsElem.variablesList es
end

mutual
/-- `ConsElem::leq`, the element-level comparison (`LHConstraints.cpp`):
`LHConstant::leq` compares levels when the other side is also a constant and
is `false` otherwise; `LHConsVar::leq` is always `false`; `LHJoin::leq`
requires every member to be `leq` the other element. -/
def ConsElem.leq : ConsElem → ConsElem → Bool
  | .const a, e =>
      match e with
      | .const b => a = LHConstant.low || b = LHConstant.high
      | _ => false
  | .var _, _ => false
  | .join l, e => ConsElem.leqList l e

/-- The `LHJoin::leq` loop over members. -/
def ConsElem.leqList : List ConsElem → ConsElem → Bool
  | [], _ => true
  | x :: xs, e => x.leq e && ConsElem.leqList xs e
end

mutual
/-- Whether an element contains the constant `HIGH` somewhere. -/
def ConsElem.hasHigh : ConsElem → Bool
  | .const c => c = LHConstant.high
  | .var _ => false
  | .join l => ConsElem.hasHighList l

/-- `hasHigh` over the members of a join. -/
def ConsElem.hasHighList : List ConsElem → Bool
  | [] => false
  | e :: es => e.hasHigh || ConsElem.hasHighList es
end

/-- Discriminator for `llvm::isa<LHJoin>`. -/
def ConsElem.isJoin : ConsElem → Bool
  | .join _ => true
  | _ => false

mutual
/-- `LHConsSoln::subst` (`LHConsSoln.cpp`): under default value `dflt` and
changed-variable set `ch`, a variable evaluates to the complement of the
default iff it is in `ch`; a constant evaluates to itself; a join folds
`LHConstant::join` over the member substitutions **starting from the
default value** (`substVal = &defaultValue`). -/
def substW (dflt : LHConstant) (ch : Finset Nat) : ConsElem → LHConstant
  | .const c => c
  | .var v => if v ∈ ch then dflt.other else dflt
  | .join l => substWList dflt ch dflt l

/-- The member fold of `LHConsSoln::subst` for joins. -/
def substWList (dflt : LHConstant) (ch : Finset Nat) :
    LHConstant → List ConsElem → LHConstant
  | acc, [] => acc
  | acc, e :: es => substWList dflt ch (acc.join (substW dflt ch e)) es
end

mutual
/-- `PartialSolution::subst` (`PartialSolution.cpp`) with the union of the
chained `VSet`s abstracted as `V`: a variable yields
`boolToLHC(initial != isChanged(V))`; a constant yields itself; a join folds
over the members **starting from `LHConstant::low()`** (unlike
`LHConsSoln::subst`, which starts from the default value). -/
def substP (initial : Bool) (V : Finset Nat) : ConsElem → LHConstant
  | .const c => c
  | .var v => if initial != decide (v ∈ V) then LHConstant.high else LHConstant.low
  | .join l => substPList initial V LHConstant.low l

/-- The member fold of `PartialSolution::subst` for joins. -/
def substPList (initial : Bool) (V : Finset Nat) :
    LHConstant → List ConsElem → LHConstant
  | acc, [] => acc
  | acc, e :: es => substPList initial V (acc.join (substP initial V e)) es
end

/-- `LHConstraint` (`LHConstraint.h`): an immutable pair meaning
`lhs ⊑ rhs`. -/
structure LHConstraint where
  lhs : ConsElem
  rhs : ConsElem
deriving DecidableEq

/-- Placeholder constraint used with `List.getD`; the solvers only consult
indices below the length of the constraint vector, and on this placeholder
every check is trivially satisfied. -/
def cdef : LHConstraint := ⟨.const .low, .const .low⟩

/-- All variables occurring in a constraint vector. -/
def allVarsK (K : List LHConstraint) : Finset Nat :=
  K.foldr (fun c acc => c.lhs.variables ∪ c.rhs.variables ∪ acc) ∅

/-- The `invalidIfIncreased` index of `LHConsLeastSoln` (`LHConsSoln.cpp`):
for each constraint (identified by its position in the constraint vector),
it is registered under every variable of its left-hand side.  Re-enqueueing
a constraint consults this index. -/
def invalidIfIncreased (K : List LHConstraint) (v : Nat) : List Nat :=
  (List.range K.length).filter (fun i => decide (v ∈ (K.getD i cdef).lhs.variables))

/-- The `invalidIfDecreased` index of `LHConsGreatestSoln`: constraints
registered under every variable of their right-hand side. -/
def invalidIfDecreased (K : List LHConstraint) (v : Nat) : List Nat :=
  (List.range K.length).filter (fun i => decide (v ∈ (K.getD i cdef).rhs.variables))

/-- `LHConsSoln::enqueueConstraints`: push each constraint onto the FIFO
queue unless it is already queued (the `queueSet` side set is exactly
membership in the queue, which never holds duplicates). -/
def enqueueConstraints (q : List Nat) : List Nat → List Nat
  | [] => q
  | i :: is =>
      if i ∈ q then enqueueConstraints q is
      else enqueueConstraints (q ++ [i]) is

/-- `LHConsLeastSoln::satisfyConstraint` (`LHConsSoln.cpp`): with
`L = subst(lhs)` computed once up front, walk the variables of the
right-hand side; for each variable whose substitution is not above `L`,
insert it into the changed set and enqueue every constraint in its
`invalidIfIncreased` set.  The state is `(queue, changed)`. -/
def LHConsLeastSoln.satisfyConstraint (K : List LHConstraint) (i : Nat)
    (st : List Nat × Finset Nat) : List Nat × Finset Nat :=
  let c := K.getD i cdef
  let L := substW .low st.2 c.lhs
  (c.rhs.variables.sort (· ≤ ·)).foldl
    (fun st v =>
      let R := substW .low st.2 (.var v)
      if L.leq R then st
      else (enqueueConstraints st.1 (invalidIfIncreased K v), insert v st.2))
    st

/-- `LHConsGreatestSoln::satisfyConstraint`: with `R = subst(rhs)` computed
once, walk the variables of the left-hand side; lower (insert into the
changed set) each variable that is above `R`, enqueueing its
`invalidIfDecreased` set.  The final `else` branch corresponds to the
`assert(false && "Meets not supported yet...")`, which is unreachable in
the two-point lattice because `leq` is total on constants. -/
def LHConsGreatestSoln.satisfyConstraint (K : List LHConstraint) (i : Nat)
    (st : List Nat × Finset Nat) : List Nat × Finset Nat :=
  let c := K.getD i cdef
  let R := substW .high st.2 c.rhs
  (c.lhs.variables.sort (· ≤ ·)).foldl
    (fun st v =>
      let Lv := substW .high st.2 (.var v)
      if Lv.leq R then st
      else if R.leq Lv then
        (enqueueConstraints st.1 (invalidIfDecreased K v), insert v st.2)
      else st)
    st

/-- One iteration of the `LHConsSoln::solve` loop body for the least
solution, applied to the state after the front constraint `i` has been
dequeued: if `subst(lhs) ⊑ subst(rhs)` the constraint is already
satisfied, otherwise `satisfyConstraint` runs. -/
def LHConsSoln.processLeast (K : List LHConstraint) (i : Nat)
    (st : List Nat × Finset Nat) : List Nat × Finset Nat :=
  let c := K.getD i cdef
  if (substW .low st.2 c.lhs).leq (substW .low st.2 c.rhs) then st
  else LHConsLeastSoln.satisfyConstraint K i st

/-- One iteration of the `LHConsSoln::solve` loop body for the greatest
solution. -/
def LHConsSoln.processGreatest (K : List LHConstraint) (i : Nat)
    (st : List Nat × Finset Nat) : List Nat × Finset Nat :=
  let c := K.getD i cdef
  if (substW .high st.2 c.lhs).leq (substW .high st.2 c.rhs) then st
  else LHConsGreatestSoln.satisfyConstraint K i st

/-- The `while (!queue.empty())` loop of `LHConsSoln::solve` for the least
solution, with an explicit fuel parameter (the loop terminates; enough fuel
is supplied by `LHConsLeastSoln.solve` below, and the termination theorem
for the claims shows the fuel bound suffices). -/
def LHConsSoln.solveLoopLeast (K : List LHConstraint) :
    Nat → List Nat × Finset Nat → Finset Nat
  | 0, st => st.2
  | _ + 1, ([], ch) => ch
  | n + 1, (i :: q, ch) => LHConsSoln.solveLoopLeast K n (LHConsSoln.processLeast K i (q, ch))

/-- The solve loop for the greatest solution. -/
def LHConsSoln.solveLoopGreatest (K : List LHConstraint) :
    Nat → List Nat × Finset Nat → Finset Nat
  | 0, st => st.2
  | _ + 1, ([], ch) => ch
  | n + 1, (i :: q, ch) => LHConsSoln.solveLoopGreatest K n (LHConsSoln.processGreatest K i (q, ch))

/-- Fuel that dominates the loop measure
`|allVars \ changed| * (|K| + 1) + |queue|`. -/
def solveFuel (K : List LHConstraint) : Nat :=
  ((allVarsK K).card + 1) * (K.length + 1) + 1

/-- `LHConsLeastSoln`: enqueue every constraint, then run the worklist loop;
the result is the final changed set (`subst` then maps a variable to `H`
iff it is in this set). -/
def LHConsLeastSoln.solve (K : List LHConstraint) : Finset Nat :=
  LHConsSoln.solveLoopLeast K (solveFuel K) (enqueueConstraints [] (List.range K.length), ∅)

/-- `LHConsGreatestSoln`: the changed set of the greatest solution
(`subst` maps a variable to `L` iff it is in this set). -/
def LHConsGreatestSoln.solve (K : List LHConstraint) : Finset Nat :=
  LHConsSoln.solveLoopGreatest K (solveFuel K) (enqueueConstraints [] (List.range K.length), ∅)

/-- The least fixed point of a constraint set over the `{L, H}` lattice,
as an inductive reachability predicate: a variable is forced to `H` either
because it sits on the right of a constraint whose left side contains the
constant `H`, or because it sits on the right of a constraint whose left
side contains an already-forced variable. -/
inductive LfpL (K : List LHConstraint) : Nat → Prop where
  | seed : ∀ c, c ∈ K → c.lhs.hasHigh = true →
      ∀ v, v ∈ c.rhs.variables → LfpL K v
  | step : ∀ w c, LfpL K w → c ∈ K → w ∈ c.lhs.variables →
      ∀ v, v ∈ c.rhs.variables → LfpL K v

/-- The greatest fixed point, as the set of variables forced **down** to
`L`: a variable is lowered when it occurs on the left of a constraint whose
right side is the constant `L`, or on the left of a constraint whose right
side is an already-lowered variable.  (A join never occurs on the right of
a stored constraint; see the `addConstraint` theorem.) -/
inductive LfpG (K : List LHConstraint) : Nat → Prop where
  | seed : ∀ c, c ∈ K → c.rhs = .const .low →
      ∀ v, v ∈ c.lhs.variables → LfpG K v
  | step : ∀ w c, LfpG K w → c ∈ K → c.rhs = .var w →
      ∀ v, v ∈ c.lhs.variables → LfpG K v

/-- The per-object data of a `PartialSolution` (`PartialSolution.h`): the
propagation map `P` (kept as the list of edges source-variable →
target-variable, in insertion order; `P[v]` is the sublist of targets with
source `v`) and the set `VSet` of variables holding the non-default
value. -/
structure PSObj where
  edges : List (Nat × Nat)
  vset : Finset Nat
deriving DecidableEq

/-- `P[v]`: the targets recorded for source variable `v`, in insertion
order. -/
def PSObj.targets (E : List (Nat × Nat)) (v : Nat) : List Nat :=
  (E.filter (fun p => decide (p.1 = v))).map (fun p => p.2)

/-- One iteration of the constraint loop in `PartialSolution::initialize`:
`From` is the side read and `To` the side written (for the least solution,
`initial = false`, `From` is the lhs and `To` the rhs; for the greatest the
sides are flipped).  If `To` has no variables the constraint is skipped;
otherwise each variable of `From` gets a propagation edge to every variable
of `To`, and the seed check inserts the `To` variables into `VSet` when the
**current** substitution of `From` is non-default (for least) or `L` (for
greatest).  Note that the seed check uses the partially built `VSet`, not
the empty one. -/
def PSObj.buildStep (initial : Bool) (o : PSObj) (c : LHConstraint) : PSObj :=
  let eFrom := if initial then c.rhs else c.lhs
  let eTo := if initial then c.lhs else c.rhs
  let ts := eTo.variables
  if ts = ∅ then o
  else
    let edges' := o.edges ++
      ((eFrom.variables.sort (· ≤ ·)).flatMap
        (fun v => (ts.sort (· ≤ ·)).map (fun t => (v, t))))
    let seeded : Bool :=
      if initial then decide (substP initial o.vset eFrom = .low)
      else !(decide (substP initial o.vset eFrom = .low))
    ⟨edges', if seeded then o.vset ∪ ts else o.vset⟩

/-- `PartialSolution::initialize`: fold `buildStep` over the constraint
vector, starting from the empty propagation map and seed set. -/
def PSObj.build (initial : Bool) (K : List LHConstraint) : PSObj :=
  K.foldl (PSObj.buildStep initial) ⟨[], ∅⟩

/-- A `PartialSolution` together with its chain (`Chained`): `self` is the
object whose `VSet` receives insertions during propagation, `others` are
the remaining chained partial solutions, whose data is read-only during a
merge.  The C++ `Chained` vector contains `self` as well; it is
`self :: others` here.  (The C++ code sorts `Chained` by pointer and
removes duplicates; order and duplicates do not affect any query, so the
chain is kept as a plain list.) -/
structure MSol where
  initial : Bool
  self : PSObj
  others : List PSObj

/-- The chained objects, `self` first. -/
def MSol.chained (S : MSol) : List PSObj := S.self :: S.others

/-- `PartialSolution::isChanged`: does any chained `VSet` contain `v`?
During propagation the evolving `self.VSet` is passed separately as `V`. -/
def MSol.isChangedWith (S : MSol) (V : Finset Nat) (v : Nat) : Bool :=
  decide (v ∈ V) || S.others.any (fun o => decide (v ∈ o.vset))

/-- The inner update of `PartialSolution::propagate` for one dequeued
variable `v`: for each chained partial solution, walk its `P[v]` targets in
order and, for every target not yet changed anywhere in the chain, insert
it into `self`'s `VSet` and append it to the worklist. -/
def MSol.propagateVisit (S : MSol) (v : Nat)
    (st : List Nat × Finset Nat) : List Nat × Finset Nat :=
  (S.self.edges :: S.others.map PSObj.edges).foldl
    (fun st E =>
      (PSObj.targets E v).foldl
        (fun st t =>
          if S.isChangedWith st.2 t then st
          else (st.1 ++ [t], insert t st.2))
        st)
    st

/-- The `while (!workList.empty())` loop of `PartialSolution::propagate`,
with fuel. -/
def MSol.propagateLoop (S : MSol) : Nat → List Nat → Finset Nat → Finset Nat
  | 0, _, V => V
  | _ + 1, [], V => V
  | n + 1, v :: wl, V =>
      let st := S.propagateVisit v (wl, V)
      S.propagateLoop n st.1 st.2

/-- All propagation edges of the chain. -/
def MSol.allEdges (S : MSol) : List (Nat × Nat) :=
  S.chained.foldr (fun o acc => o.edges ++ acc) []

/-- Fuel bound for `propagateLoop`: initial worklist length plus total
number of edges (every insertion consumes a distinct edge target not yet
present). -/
def MSol.propagateFuel (S : MSol) : Nat :=
  (S.chained.foldr (fun o acc => o.vset.card + acc) 0) + S.allEdges.length + 1

/-- `PartialSolution::propagate`: enqueue every changed variable of every
chained solution, then compute the transitive closure, inserting the newly
reached variables into `self`'s `VSet`. -/
def MSol.propagate (S : MSol) : MSol :=
  let wl := S.chained.foldr (fun o acc => o.vset.sort (· ≤ ·) ++ acc) []
  let V := S.propagateLoop (S.propagateFuel + wl.length) wl S.self.vset
  ⟨S.initial, ⟨S.self.edges, V⟩, S.others⟩

/-- The ordinary constructor `PartialSolution(Constraints&, bool)`:
`initialize` then `propagate`, with no other chained solutions. -/
def PartialSolutionOf (initial : Bool) (K : List LHConstraint) : MSol :=
  MSol.propagate ⟨initial, PSObj.build initial K, []⟩

/-- The copy constructor `PartialSolution(PartialSolution&)`: the copy has
an empty propagation map and `VSet` and chains to everything the source
chains to (including the source itself). -/
def MSol.copy (S : MSol) : MSol :=
  ⟨S.initial, ⟨[], ∅⟩, S.chained⟩

/-- `PartialSolution::mergeIn`: append the chain of `P` and re-run
propagation.  (The C++ code asserts that the two solutions have the same
orientation.) -/
def MSol.mergeIn (A B : MSol) : MSol :=
  MSol.propagate ⟨A.initial, A.self, A.others ++ B.chained⟩

/-- The union of all chained `VSet`s: the set of variables `isChanged`
reports after solving. -/
def MSol.unionV (S : MSol) : Finset Nat :=
  S.chained.foldr (fun o acc => o.vset ∪ acc) ∅

/-- `PartialSolution::subst` of a solved solution: `substP` with the union
of the chained `VSet`s. -/
def MSol.subst (S : MSol) (e : ConsElem) : LHConstant :=
  substP S.initial S.unionV e

/-- Reachability through propagation edges from a seed set: the semantic
content of `PartialSolution::propagate`. -/
inductive EReach (E : List (Nat × Nat)) (S0 : Finset Nat) : Nat → Prop where
  | base : ∀ v, v ∈ S0 → EReach E S0 v
  | step : ∀ u v, EReach E S0 u → (u, v) ∈ E → EReach E S0 v

/-- A least-orientation solution faithfully represents a constraint set:
its edges are exactly the lhs-variable → rhs-variable pairs of the
constraints, and the union of its changed sets is exactly the least fixed
point. -/
def MSolModelsLeast (S : MSol) (K : List LHConstraint) : Prop :=
  S.initial = false ∧
  (∀ u t, (u, t) ∈ S.allEdges ↔
    ∃ c, c ∈ K ∧ u ∈ c.lhs.variables ∧ t ∈ c.rhs.variables) ∧
  (∀ v, v ∈ S.unionV ↔ LfpL K v)

/-- A greatest-orientation solution faithfully represents a constraint
set. -/
def MSolModelsGreatest (S : MSol) (K : List LHConstraint) : Prop :=
  S.initial = true ∧
  (∀ u t, (u, t) ∈ S.allEdges ↔
    ∃ c, c ∈ K ∧ u ∈ c.rhs.variables ∧ t ∈ c.lhs.variables) ∧
  (∀ v, v ∈ S.unionV ↔ LfpG K v)

/-- `LHJoin::create` (`LHConstraints.cpp`): the member set of the join of
two elements, flattening nested joins.  Members are collected as a
`Finset` (the C++ code uses a `std::set` of interned pointers). -/
def LHJoin.createMembers (e1 e2 : ConsElem) : Finset ConsElem :=
  (match e1 with
   | .join l => l.toFinset
   | e => {e}) ∪
  (match e2 with
   | .join l => l.toFinset
   | e => {e})

/-- The kit's join interning (`LHConstraintKit::upperBound`): the
`std::set<LHJoin> joins` member, ordered by member set, is modelled as the
list of member sets in insertion order; a join's identity (its address in
C++) is its index in this list.  `internJoin` returns the updated store and
the index of the interned join. -/
def internJoin (store : List (Finset ConsElem)) (s : Finset ConsElem) :
    List (Finset ConsElem) × Nat :=
  match store.indexOf? s with
  | some i => (store, i)
  | none => (store ++ [s], store.length)

/-- Errors with which `LHConstraintKit::addConstraint` aborts: adding to a
kind that is already locked (first assert), or passing a join as the
right-hand side (`assert(!llvm::isa<LHJoin>(&rhs))`). -/
inductive AddCErr where
  | lockedKind
  | joinOnRhs
deriving DecidableEq

/-- The expansion step of `LHConstraintKit::addConstraint`: a join on the
left is expanded into one constraint per member (same rhs); any other
element yields a single constraint. -/
def expandLhs (lhs rhs : ConsElem) : List LHConstraint :=
  match lhs with
  | .join els => els.map (fun e => ⟨e, rhs⟩)
  | e => [⟨e, rhs⟩]

/-- The state of `LHConstraintKit` (`LHConstraintKit.h`): per-kind
constraint vectors, the set of locked kinds, the cached least and greatest
partial solutions, the interned joins, and the variable allocation counter
(`vars.size()`; `newVar` returns the next index). -/
structure Kit where
  constraints : String → List LHConstraint
  lockedConstraintKinds : List String
  leastSolutions : String → Option MSol
  greatestSolutions : String → Option MSol
  joins : List (Finset ConsElem)
  nextVar : Nat

/-- The empty kit (`LHConstraintKit::LHConstraintKit`). -/
def Kit.start : Kit :=
  ⟨fun _ => [], [], fun _ => none, fun _ => none, [], 0⟩

/-- `LHConstraintKit::newVar`: allocate a fresh variable, returning its
index. -/
def Kit.newVar (kit : Kit) : Nat × Kit :=
  (kit.nextVar, { kit with nextVar := kit.nextVar + 1 })

/-- `LHConstraintKit::addConstraint`: fatal if the kind is locked; the
statistics counters are not modelled; a join as rhs is fatal; a join as
lhs is expanded into one constraint per member; otherwise the single
constraint is appended to the kind's vector. -/
def Kit.addConstraint (kit : Kit) (kind : String) (lhs rhs : ConsElem) :
    Except AddCErr Kit :=
  if kind ∈ kit.lockedConstraintKinds then .error .lockedKind
  else if rhs.isJoin then .error .joinOnRhs
  else .ok { kit with
    constraints := fun k =>
      if k = kind then kit.constraints kind ++ expandLhs lhs rhs
      else kit.constraints k }

/-- `LHConstraintKit::freeUnneededConstraints`: once a kind is locked and
both partial solutions exist, its raw constraint vector is cleared. -/
def Kit.freeUnneededConstraints (kit : Kit) (kind : String) : Kit :=
  if kind ∈ kit.lockedConstraintKinds ∧ (kit.leastSolutions kind).isSome ∧
      (kit.greatestSolutions kind).isSome then
    { kit with constraints := fun k => if k = kind then [] else kit.constraints k }
  else kit

/-- The loop of `LHConstraintKit::leastSolution`: for each kind (in the
iteration order of the `std::set<std::string>` argument, supplied here as a
list), create and cache the kind's `PartialSolution` if absent (locking the
kind), then either copy it (first kind) or merge it into the accumulator. -/
def Kit.leastSolutionLoop : Kit → List String → Option MSol → Option MSol × Kit
  | kit, [], acc => (acc, kit)
  | kit, kind :: rest, acc =>
      let pk : MSol × Kit :=
        match kit.leastSolutions kind with
        | some P => (P, kit)
        | none =>
            let P := PartialSolutionOf false (kit.constraints kind)
            let kit' := { kit with
              lockedConstraintKinds := kind :: kit.lockedConstraintKinds,
              leastSolutions := fun k =>
                if k = kind then some P else kit.leastSolutions k }
            (P, kit'.freeUnneededConstraints kind)
      match acc with
      | none => Kit.leastSolutionLoop pk.2 rest (some pk.1.copy)
      | some PS => Kit.leastSolutionLoop pk.2 rest (some (PS.mergeIn pk.1))

/-- `LHConstraintKit::leastSolution`; `none` models the final
`assert(PS && "No kinds given?")`. -/
def Kit.leastSolution (kit : Kit) (kinds : List String) : Option (MSol × Kit) :=
  match Kit.leastSolutionLoop kit kinds none with
  | (some PS, kit') => some (PS, kit')
  | (none, _) => none

/-- The loop of `LHConstraintKit::greatestSolution`. -/
def Kit.greatestSolutionLoop : Kit → List String → Option MSol → Option MSol × Kit
  | kit, [], acc => (acc, kit)
  | kit, kind :: rest, acc =>
      let pk : MSol × Kit :=
        match kit.greatestSolutions kind with
        | some P => (P, kit)
        | none =>
            let P := PartialSolutionOf true (kit.constraints kind)
            let kit' := { kit with
              lockedConstraintKinds := kind :: kit.lockedConstraintKinds,
              greatestSolutions := fun k =>
                if k = kind then some P else kit.greatestSolutions k }
            (P, kit'.freeUnneededConstraints kind)
      match acc with
      | none => Kit.greatestSolutionLoop pk.2 rest (some pk.1.copy)
      | some PS => Kit.greatestSolutionLoop pk.2 rest (some (PS.mergeIn pk.1))

/-- `LHConstraintKit::greatestSolution`. -/
def Kit.greatestSolution (kit : Kit) (kinds : List String) : Option (MSol × Kit) :=
  match Kit.greatestSolutionLoop kit kinds none with
  | (some PS, kit') => some (PS, kit')
  | (none, _) => none

/-- Outcomes with which `LHConstraintKit::solveLeastMT` (`MTSolve.cpp`)
fails: the initial `assert(leastSolutions.count("default"))`; per kind, the
`assert(lockedConstraintKinds.insert(*kind).second && "Already solved")` and
`assert(!leastSolutions.count(*kind))`; and, when `useDefaultSinks` is set
but no `"default-sinks"` baseline exists, the dereference of the null
pointer obtained from `leastSolutions["default-sinks"]` inside the merge
worker (undefined behaviour in C++, not a checked fatal error). -/
inductive MTErr where
  | noDefaultBaseline
  | kindAlreadyLocked
  | kindAlreadySolved
  | nullDefaultSinks
deriving DecidableEq

/-- The per-kind preparation loop of `solveLeastMT`: lock the kind (fatal if
already locked), require that no least solution is cached, build the kind's
partial solution from the kind's own constraints, cache it, and append a
fresh copy to the merge list. -/
def Kit.solveLeastMTLoop : Kit → List String → List MSol → Except MTErr (List MSol × Kit)
  | kit, [], acc => .ok (acc, kit)
  | kit, kind :: rest, acc =>
      if kind ∈ kit.lockedConstraintKinds then .error .kindAlreadyLocked
      else if (kit.leastSolutions kind).isSome then .error .kindAlreadySolved
      else
        let P := PartialSolutionOf false (kit.constraints kind)
        let kit' := { kit with
          lockedConstraintKinds := kind :: kit.lockedConstraintKinds,
          leastSolutions := fun k =>
            if k = kind then some P else kit.leastSolutions k }
        Kit.solveLeastMTLoop kit' rest (acc ++ [P.copy])

/-- The merge work done by the `merge` worker threads of `solveLeastMT`:
each copy merges in the `"default"` baseline and then, if requested, the
`"default-sinks"` baseline.  The workers operate on disjoint copies, so the
round-robin distribution over up to 16 threads is observationally a map
over the list (in the order the copies were created, which is the order of
the input kinds). -/
def mergeWorker (P : MSol) (DS : Option MSol) (useDefaultSinks : Bool)
    (M : MSol) : Except MTErr MSol :=
  let M1 := M.mergeIn P
  if useDefaultSinks then
    match DS with
    | none => .error .nullDefaultSinks
    | some D => .ok (M1.mergeIn D)
  else .ok M1

/-- `LHConstraintKit::solveLeastMT`: assert that the `"default"` least
baseline exists; fetch the `"default-sinks"` baseline (possibly null — the
`StringMap::operator[]` default-constructs a null pointer); prepare one
solution per requested kind; merge the baselines into every copy; return
the merged copies in input order. -/
def Kit.solveLeastMT (kit : Kit) (kinds : List String) (useDefaultSinks : Bool) :
    Except MTErr (List MSol × Kit) :=
  match kit.leastSolutions "default" with
  | none => .error .noDefaultBaseline
  | some P =>
      let DS := kit.leastSolutions "default-sinks"
      match Kit.solveLeastMTLoop kit kinds [] with
      | .error e => .error e
      | .ok (toMerge, kit') =>
          match toMerge.mapM (mergeWorker P DS useDefaultSinks) with
          | .error e => .error e
          | .ok merged => .ok (merged, kit')

/-- `Infoflow::kindFromImplicitSink` (`Infoflow.cpp`). -/
def kindFromImplicitSink (implicit sink : Bool) : String :=
  if implicit then (if sink then "implicit-sinks" else "implicit")
  else (if sink then "default-sinks" else "default")

/-- The constraint-variable bookkeeping of the `Infoflow` pass
(`Infoflow.h` / `Infoflow.cpp`).  LLVM `Value`s, `Function`s, contexts and
abstract locations are opaque identities; they are modelled as `Nat`s (a
`Function` is also a `Value`, so functions share the value identifier
space — `getOrCreateVargConsElem` relies on this when it looks up the
function in the **value** summary-source map). -/
structure IState where
  kit : Kit
  summarySourceValueConstraintMap : Nat → Option Nat
  summarySinkValueConstraintMap : Nat → Option Nat
  summarySourceVargConstraintMap : Nat → Option Nat
  summarySinkVargConstraintMap : Nat → Option Nat
  valueConstraintMap : Nat → Nat → Option Nat
  vargConstraintMap : Nat → Nat → Option Nat

/-- The initial `Infoflow` state: a fresh kit, all maps empty. -/
def IState.start : IState :=
  ⟨Kit.start, fun _ => none, fun _ => none, fun _ => none, fun _ => none,
   fun _ _ => none, fun _ _ => none⟩

/-- Add a constraint through the kit; `none` models an assertion failure
inside `LHConstraintKit::addConstraint`. -/
def IState.addK (st : IState) (kind : String) (lhs rhs : ConsElem) :
    Option IState :=
  match st.kit.addConstraint kind lhs rhs with
  | .ok kit' => some { st with kit := kit' }
  | .error _ => none

/-- `Infoflow::getOrCreateConsElemSummarySource`. -/
def IState.getOrCreateConsElemSummarySource (st : IState) (v : Nat) :
    Nat × IState :=
  match st.summarySourceValueConstraintMap v with
  | some e => (e, st)
  | none =>
      let xk := st.kit.newVar
      let st' : IState := { st with
        kit := xk.2,
        summarySourceValueConstraintMap := fun w =>
          if w = v then some xk.1 else st.summarySourceValueConstraintMap w }
      (xk.1, st')

/-- `Infoflow::getOrCreateConsElemSummarySink`. -/
def IState.getOrCreateConsElemSummarySink (st : IState) (v : Nat) :
    Nat × IState :=
  match st.summarySinkValueConstraintMap v with
  | some e => (e, st)
  | none =>
      let xk := st.kit.newVar
      let st' : IState := { st with
        kit := xk.2,
        summarySinkValueConstraintMap := fun w =>
          if w = v then some xk.1 else st.summarySinkValueConstraintMap w }
      (xk.1, st')

/-- `Infoflow::putOrConstrainConsElemSummarySource`: `lub ⊑ source-var`. -/
def IState.putOrConstrainConsElemSummarySource (st : IState) (kind : String)
    (v : Nat) (lub : ConsElem) : Option IState :=
  let cs := st.getOrCreateConsElemSummarySource v
  cs.2.addK kind lub (.var cs.1)

/-- `Infoflow::putOrConstrainConsElemSummarySink`: `lub ⊑ sink-var`. -/
def IState.putOrConstrainConsElemSummarySink (st : IState) (kind : String)
    (v : Nat) (lub : ConsElem) : Option IState :=
  let cs := st.getOrCreateConsElemSummarySink v
  cs.2.addK kind lub (.var cs.1)

/-- `Infoflow::getOrCreateVargConsElemSummarySource`. -/
def IState.getOrCreateVargConsElemSummarySource (st : IState) (f : Nat) :
    Nat × IState :=
  match st.summarySourceVargConstraintMap f with
  | some e => (e, st)
  | none =>
      let xk := st.kit.newVar
      let st' : IState := { st with
        kit := xk.2,
        summarySourceVargConstraintMap := fun w =>
          if w = f then some xk.1 else st.summarySourceVargConstraintMap w }
      (xk.1, st')

/-- `Infoflow::getOrCreateVargConsElemSummarySink`. -/
def IState.getOrCreateVargConsElemSummarySink (st : IState) (f : Nat) :
    Nat × IState :=
  match st.summarySinkVargConstraintMap f with
  | some e => (e, st)
  | none =>
      let xk := st.kit.newVar
      let st' : IState := { st with
        kit := xk.2,
        summarySinkVargConstraintMap := fun w =>
          if w = f then some xk.1 else st.summarySinkVargConstraintMap w }
      (xk.1, st')

/-- `Infoflow::putOrConstrainVargConsElemSummarySource`: `lub ⊑
varg-source-var` (this is the constraint `setVargTainted` adds). -/
def IState.putOrConstrainVargConsElemSummarySource (st : IState)
    (kind : String) (f : Nat) (lub : ConsElem) : Option IState :=
  let cs := st.getOrCreateVargConsElemSummarySource f
  cs.2.addK kind lub (.var cs.1)

/-- `Infoflow::putOrConstrainVargConsElemSummarySink`. -/
def IState.putOrConstrainVargConsElemSummarySink (st : IState)
    (kind : String) (f : Nat) (lub : ConsElem) : Option IState :=
  let cs := st.getOrCreateVargConsElemSummarySink f
  cs.2.addK kind lub (.var cs.1)

/-- `Infoflow::getOrCreateConsElem(ctxt, value)`: on a map miss, allocate
the context-sensitive variable, record it, and hook up the summary
constraints in the `"default"` kind:
`summary-source ⊑ elem` and `elem ⊑ summary-sink`. -/
def IState.getOrCreateConsElem (st : IState) (ctxt v : Nat) :
    Option (Nat × IState) :=
  match st.valueConstraintMap ctxt v with
  | some e => some (e, st)
  | none =>
      let xk := st.kit.newVar
      let st1 : IState := { st with
        kit := xk.2,
        valueConstraintMap := fun c w =>
          if c = ctxt ∧ w = v then some xk.1 else st.valueConstraintMap c w }
      let ss := st1.getOrCreateConsElemSummarySource v
      match ss.2.addK "default" (.var ss.1) (.var xk.1) with
      | none => none
      | some st2 =>
          match st2.putOrConstrainConsElemSummarySink "default" v (.var xk.1) with
          | none => none
          | some st3 => some (xk.1, st3)

/-- `Infoflow::getOrCreateVargConsElem(ctxt, fun)`: on a map miss, allocate
the context-sensitive varargs variable and hook up the summaries.  Note
that the source-side link is created with
`getOrCreateConsElemSummarySource(value)` — the **value** summary-source
variable of the function, not its varg summary-source variable
(`Infoflow.cpp`, `kit->addConstraint("default", summarySource, elem)` after
`const ConsElem & summarySource = getOrCreateConsElemSummarySource(value)`). -/
def IState.getOrCreateVargConsElem (st : IState) (ctxt f : Nat) :
    Option (Nat × IState) :=
  match st.vargConstraintMap ctxt f with
  | some e => some (e, st)
  | none =>
      let xk := st.kit.newVar
      let st1 : IState := { st with
        kit := xk.2,
        vargConstraintMap := fun c w =>
          if c = ctxt ∧ w = f then some xk.1 else st.vargConstraintMap c w }
      let ss := st1.getOrCreateConsElemSummarySource f
      match ss.2.addK "default" (.var ss.1) (.var xk.1) with
      | none => none
      | some st2 =>
          match st2.putOrConstrainVargConsElemSummarySink "default" f (.var xk.1) with
          | none => none
          | some st3 => some (xk.1, st3)

/-- `Infoflow::setTainted`: fatal on the reserved kinds, otherwise
`H ⊑ summary-source-var(value)` in `kind`. -/
def IState.setTainted (st : IState) (kind : String) (v : Nat) : Option IState :=
  if kind = "default" ∨ kind = "implicit" then none
  else st.putOrConstrainConsElemSummarySource kind v (.const .high)

/-- `Infoflow::setUntainted`: `summary-sink-var(value) ⊑ L` in `kind`. -/
def IState.setUntainted (st : IState) (kind : String) (v : Nat) : Option IState :=
  if kind = "default" ∨ kind = "implicit" then none
  else
    let cs := st.getOrCreateConsElemSummarySink v
    cs.2.addK kind (.var cs.1) (.const .low)

/-- `Infoflow::setVargTainted`: `H ⊑ varg-summary-source-var(fun)`. -/
def IState.setVargTainted (st : IState) (kind : String) (f : Nat) : Option IState :=
  if kind = "default" ∨ kind = "implicit" then none
  else st.putOrConstrainVargConsElemSummarySource kind f (.const .high)

/-- `Infoflow::setVargUntainted`: `varg-summary-sink-var(fun) ⊑ L`. -/
def IState.setVargUntainted (st : IState) (kind : String) (f : Nat) : Option IState :=
  if kind = "default" ∨ kind = "implicit" then none
  else
    let cs := st.getOrCreateVargConsElemSummarySink f
    cs.2.addK kind (.var cs.1) (.const .low)

/-- `Infoflow::putOrConstrainConsElem(implicit, sink, ctxt, value, lub)`:
`lub ⊑ ctx-value-var` in the kind selected by `(implicit, sink)`.  This is
the lowering step of `constrainFlowRecord` for value sinks. -/
def IState.putOrConstrainConsElem (st : IState) (implicit sink : Bool)
    (ctxt v : Nat) (lub : ConsElem) : Option IState :=
  match st.getOrCreateConsElem ctxt v with
  | none => none
  | some es => es.2.addK (kindFromImplicitSink implicit sink) lub (.var es.1)

/-- `Infoflow::putOrConstrainVargConsElem`. -/
def IState.putOrConstrainVargConsElem (st : IState) (implicit sink : Bool)
    (ctxt f : Nat) (lub : ConsElem) : Option IState :=
  match st.getOrCreateVargConsElem ctxt f with
  | none => none
  | some es => es.2.addK (kindFromImplicitSink implicit sink) lub (.var es.1)

/-- A variable identifier in range of the context-sensitive value or varg
maps: the shape of the source elements a `FlowRecord` contributes (the
`Sources` set of `constrainFlowRecord` is built exclusively from
`getOrCreateConsElem` / `getOrCreateVargConsElem` results; abstract
locations are not modelled here). -/
def IState.isCtxVarId (st : IState) (w : Nat) : Prop :=
  (∃ ctxt v, st.valueConstraintMap ctxt v = some w) ∨
  (∃ ctxt f, st.vargConstraintMap ctxt f = some w)

/-- One call into the modelled `Infoflow` constraint-generation API.  The
`flowValue` / `flowVarg` steps carry the shape facts of the `lub` element
built by `constrainFlowRecord`: it is the join of context-sensitive
variables (no constants). -/
inductive IStep : IState → IState → Prop where
  | createValue : ∀ st ctxt v e st',
      IState.getOrCreateConsElem st ctxt v = some (e, st') → IStep st st'
  | createVarg : ∀ st ctxt f e st',
      IState.getOrCreateVargConsElem st ctxt f = some (e, st') → IStep st st'
  | setTaintedStep : ∀ st kind v st',
      IState.setTainted st kind v = some st' → IStep st st'
  | setUntaintedStep : ∀ st kind v st',
      IState.setUntainted st kind v = some st' → IStep st st'
  | setVargTaintedStep : ∀ st kind f st',
      IState.setVargTainted st kind f = some st' → IStep st st'
  | setVargUntaintedStep : ∀ st kind f st',
      IState.setVargUntainted st kind f = some st' → IStep st st'
  | flowValue : ∀ st implicit sink ctxt v lub st',
      lub.hasHigh = false → (∀ w ∈ lub.variables, st.isCtxVarId w) →
      IState.putOrConstrainConsElem st implicit sink ctxt v lub = some st' →
      IStep st st'
  | flowVarg : ∀ st implicit sink ctxt f lub st',
      lub.hasHigh = false → (∀ w ∈ lub.variables, st.isCtxVarId w) →
      IState.putOrConstrainVargConsElem st implicit sink ctxt f lub = some st' →
      IStep st st'

/-- States reachable from the fresh `Infoflow` pass through the modelled
API. -/
def IReachable (st : IState) : Prop :=
  Relation.ReflTransGen IStep IState.start st

/-- `InfoflowSolution` (`Infoflow.h`): a solved solution, the
default-taint policy for unmapped values, and the value/varg maps used for
queries. -/
structure InfoflowSolution where
  soln : MSol
  defaultTainted : Bool
  valueMap : Nat → Option Nat
  vargMap : Nat → Option Nat

/-- `InfoflowSolution::isTainted`: look the value up in the solution's
value map; a mapped value is tainted iff its variable substitutes to `H`;
an unmapped value reports `defaultTainted`. -/
def InfoflowSolution.isTainted (s : InfoflowSolution) (v : Nat) : Bool :=
  match s.valueMap v with
  | some e => decide (s.soln.subst (.var e) = .high)
  | none => s.defaultTainted

/-- `InfoflowSolution::isVargTainted`. -/
def InfoflowSolution.isVargTainted (s : InfoflowSolution) (f : Nat) : Bool :=
  match s.vargMap f with
  | some e => decide (s.soln.subst (.var e) = .high)
  | none => s.defaultTainted

/-- `Infoflow::leastSolution(kinds, implicit, sinks)`: always adds
`"default"` (plus the sink/implicit kinds as requested) to the query set
and wraps the kit's least solution with the **summary-sink** value/varg
maps and `defaultTainted = false`.  The `std::set<std::string>` is modelled
by the deduplicated list; its iteration order does not influence the merged
solution. -/
def Infoflow.leastSolution (st : IState) (kinds : List String)
    (implicit sinks : Bool) : Option (InfoflowSolution × IState) :=
  let ks := (kinds ++ ["default"] ++ (if sinks then ["default-sinks"] else [])
      ++ (if implicit then ["implicit"] else [])
      ++ (if implicit && sinks then ["implicit-sinks"] else [])).dedup
  match st.kit.leastSolution ks with
  | some pk =>
      some (⟨pk.1, false, st.summarySinkValueConstraintMap,
             st.summarySinkVargConstraintMap⟩, { st with kit := pk.2 })
  | none => none

/-- `Infoflow::greatestSolution(kinds, implicit)`: adds `"default"` and
`"default-sinks"` (plus the implicit kinds), and wraps the kit's greatest
solution with the **summary-source** maps and `defaultTainted = true`. -/
def Infoflow.greatestSolution (st : IState) (kinds : List String)
    (implicit : Bool) : Option (InfoflowSolution × IState) :=
  let ks := (kinds ++ ["default", "default-sinks"]
      ++ (if implicit then ["implicit", "implicit-sinks"] else [])).dedup
  match st.kit.greatestSolution ks with
  | some pk =>
      some (⟨pk.1, true, st.summarySourceValueConstraintMap,
             st.summarySourceVargConstraintMap⟩, { st with kit := pk.2 })
  | none => none

/-- `FlowRecord` (`FlowRecord.h`), restricted to the channels this
development needs: the implicit flag, the source and sink contexts, and the
value source/sink streams (basic blocks are `Value`s; `addSinkValue` on a
block records the block's identifier). -/
structure FlowRecord where
  isImplicit : Bool
  sourceContext : Nat
  sinkContext : Nat
  sourceValues : List Nat
  sinkValues : List Nat
deriving DecidableEq

/-- `Infoflow::currentContextFlowRecord`. -/
def currentContextFlowRecord (implicit : Bool) (ctx : Nat) : FlowRecord :=
  ⟨implicit, ctx, ctx, [], []⟩

/-- The worklist loop of `Infoflow::constrainConditionalSuccessors`
(`Infoflow.cpp`): dequeue `cur`, mark it visited, and — when `cur` does not
post-dominate the branch block `bb` (`!pdt.dominates(cur, bb)`) — record
`cur` as a sink and walk the successors of `cur`'s terminator.  The
enqueue guard in the source is `visited.find(cur) == visited.end()`,
evaluated after `cur` was just inserted into `visited`; it is therefore
false on every iteration of the successor loop (the guard tests `cur`, not
the successor), which the `if cur ∈ insert cur visited` test transcribes.
`succ b` lists the successors of block `b`'s terminator, `pdom a b` is
`pdt.dominates(a, b)` of the external post-dominator tree. -/
def ccsLoop (succ : Nat → List Nat) (pdom : Nat → Nat → Bool) (bb : Nat) :
    List Nat → Finset Nat → List Nat → List Nat
  | [], _, sinks => sinks
  | cur :: queue, visited, sinks =>
      let visited' := insert cur visited
      if pdom cur bb then ccsLoop succ pdom bb queue visited' sinks
      else
        let enq := if cur ∈ visited' then [] else succ cur
        ccsLoop succ pdom bb (queue ++ enq) visited' (sinks ++ [cur])
termination_by q _ _ => q.length
decreasing_by
  · simp
  · simp

/-- `Infoflow::constrainConditionalSuccessors`: the workqueue starts from
the successors of the terminator of `bb`, and every recorded sink is
appended to the flow record's sink values. -/
def constrainConditionalSuccessors (succ : Nat → List Nat)
    (pdom : Nat → Nat → Bool) (bb : Nat) (rec : FlowRecord) : FlowRecord :=
  { rec with sinkValues := rec.sinkValues ++ ccsLoop succ pdom bb (succ bb) ∅ [] }

/-- `Infoflow::constrainBranchInst` for a conditional branch: an implicit
record whose sources are the parent block (pc) and the condition, with the
sinks computed by `constrainConditionalSuccessors`. -/
def constrainBranchInst (succ : Nat → List Nat) (pdom : Nat → Nat → Bool)
    (ctx parent cond : Nat) : FlowRecord :=
  let flow := { currentContextFlowRecord true ctx with
    sourceValues := [parent, cond] }
  constrainConditionalSuccessors succ pdom parent flow

/-- The instruction shapes needed to observe the fence/unreachable
dispatch of `Infoflow::getInstructionFlowsInternal`. -/
inductive Instruction where
  | binaryOperator (parent : Nat) (operands : List Nat) (value : Nat)
  | fenceInst
  | unreachableInst

/-- `Infoflow::operandsAndPCtoValue`: one explicit record (operand values →
instruction value) and one implicit record (parent block → instruction
value), appended in this order. -/
def operandsAndPCtoValue (ctx parent : Nat) (operands : List Nat)
    (value : Nat) (flows : List FlowRecord) : List FlowRecord :=
  let exp := { currentContextFlowRecord false ctx with
    sourceValues := operands, sinkValues := [value] }
  let imp := { currentContextFlowRecord true ctx with
    sourceValues := [parent], sinkValues := [value] }
  flows ++ [exp, imp]

/-- `Infoflow::constrainFenceInst`: the body is
`assert(false && "Unsupported instruction type: fence")` — constraint
generation aborts (despite the function's own comment "Memory barrier
instruction. Treat as noop."). -/
def constrainFenceInst (_flows : List FlowRecord) : Option (List FlowRecord) :=
  none

/-- `Infoflow::constraintUnreachableInst`: intentionally blank — no flows
are added. -/
def constraintUnreachableInst (flows : List FlowRecord) :
    Option (List FlowRecord) :=
  some flows

/-- The dispatch of `Infoflow::getInstructionFlowsInternal` for the
modelled instructions (`BinaryOperator` goes through
`constrainBinaryOperator = operandsAndPCtoValue`; `FenceInst` and
`UnreachableInst` reach their handlers above). -/
def getInstructionFlowsInternal (ctx : Nat) (flows : List FlowRecord) :
    Instruction → Option (List FlowRecord)
  | .binaryOperator parent operands value =>
      some (operandsAndPCtoValue ctx parent operands value flows)
  | .fenceInst => constrainFenceInst flows
  | .unreachableInst => constraintUnreachableInst flows

/-- `Infoflow::generateBasicBlockConstraints`: fold the per-instruction
flow generation over the instructions of a block; an assertion failure
anywhere aborts the pass. -/
def generateBasicBlockConstraints (ctx : Nat) :
    List Instruction → List FlowRecord → Option (List FlowRecord)
  | [], flows => some flows
  | i :: is, flows =>
      match getInstructionFlowsInternal ctx flows i with
      | none => none
      | some flows' => generateBasicBlockConstraints ctx is flows'

/-- The kit-level join interning entry point
(`LHConstraintKit::upperBound(std::set<const ConsElem*>)`): intern the
member set in the kit's `joins` store and return the interned instance's
identity (its index). -/
def Kit.upperBoundSet (kit : Kit) (s : Finset ConsElem) : Kit × Nat :=
  let is := internJoin kit.joins s
  ({ kit with joins := is.1 }, is.2)

/-- The state of the `LHConsSoln::solve` loop: the FIFO queue of constraint
indices (the `queueSet` is exactly list membership) and the changed set. -/
def solveStart (K : List LHConstraint) : List Nat × Finset Nat :=
  (enqueueConstraints [] (List.range K.length), ∅)

/-- Loop measure for the worklist solver: the changed set can only grow
inside `allVarsK K` and the queue, which never holds duplicates, is bounded
by the number of constraints. -/
def solveMeasure (K : List LHConstraint) (st : List Nat × Finset Nat) : Nat :=
  ((allVarsK K \ st.2).card) * (K.length + 1) + st.1.length

/-- Invariant of the least-solution worklist loop: the queue holds no
duplicates and only valid indices; the changed set stays inside the
constraint variables and is justified by `LfpL`; and every dequeued
constraint is *stable* — if its left side currently substitutes to `H`,
the variables of its right side are already changed. -/
def WInvLeast (K : List LHConstraint) (st : List Nat × Finset Nat) : Prop :=
  st.1.Nodup ∧ (∀ i ∈ st.1, i < K.length) ∧ st.2 ⊆ allVarsK K ∧
  (∀ v ∈ st.2, LfpL K v) ∧
  (∀ i, i < K.length → i ∉ st.1 →
    substW .low st.2 (K.getD i cdef).lhs = .high →
    (K.getD i cdef).rhs.variables ⊆ st.2)

/-- Invariant of the greatest-solution worklist loop. -/
def WInvGreatest (K : List LHConstraint) (st : List Nat × Finset Nat) : Prop :=
  st.1.Nodup ∧ (∀ i ∈ st.1, i < K.length) ∧ st.2 ⊆ allVarsK K ∧
  (∀ v ∈ st.2, LfpG K v) ∧
  (∀ i, i < K.length → i ∉ st.1 →
    substW .high st.2 (K.getD i cdef).rhs = .low →
    (K.getD i cdef).lhs.variables ⊆ st.2)

/-- One step of the least-solution worklist solver with an **arbitrary**
dequeue position (the implementation always picks `pre = []`, the FIFO
front; the claims about order-independence quantify over this
relation). -/
inductive WStepLeast (K : List LHConstraint) :
    (List Nat × Finset Nat) → (List Nat × Finset Nat) → Prop where
  | mk : ∀ (pre post : List Nat) (ch : Finset Nat) (i : Nat),
      WStepLeast K (pre ++ i :: post, ch)
        (LHConsSoln.processLeast K i (pre ++ post, ch))

/-- The union of the `VSet`s of the chained solutions other than `self`
(read-only during propagation). -/
def MSol.othersV (S : MSol) : Finset Nat :=
  S.others.foldr (fun o acc => o.vset ∪ acc) ∅

/-- All possible propagation targets. -/
def MSol.targetUniv (S : MSol) : Finset Nat :=
  (S.allEdges.map (fun p => p.2)).toFinset

/-- `w` is a varg summary-source variable of the state (the pool written by
`setVargTainted`). -/
def IsSvargId (st : IState) (w : Nat) : Prop :=
  ∃ f, st.summarySourceVargConstraintMap f = some w

/-- `w` belongs to one of the other variable pools of the state. -/
def OtherRangeId (st : IState) (w : Nat) : Prop :=
  (∃ v, st.summarySourceValueConstraintMap v = some w) ∨
  (∃ v, st.summarySinkValueConstraintMap v = some w) ∨
  (∃ f, st.summarySinkVargConstraintMap f = some w) ∨
  (∃ c v, st.valueConstraintMap c v = some w) ∨
  (∃ c f, st.vargConstraintMap c f = some w)

/-- The reachability invariant behind claim C9: variable identifiers are
allocated below the kit counter, the varg summary-source pool is disjoint
from every other pool, and a varg summary-source variable never occurs on
the left-hand side of any stored constraint. -/
def C9Inv (st : IState) : Prop :=
  (∀ w, IsSvargId st w → w < st.kit.nextVar) ∧
  (∀ w, OtherRangeId st w → w < st.kit.nextVar) ∧
  (∀ w, IsSvargId st w → ¬ OtherRangeId st w) ∧
  (∀ kind c, c ∈ st.kit.constraints kind →
    ∀ w, w ∈ c.lhs.variables ∪ c.rhs.variables → w < st.kit.nextVar) ∧
  (∀ kind c, c ∈ st.kit.constraints kind →
    ∀ w, w ∈ c.lhs.variables → ¬ IsSvargId st w)

/-- The only taint seeds in the state come from `setVargTainted`: every
stored constraint whose left side contains the constant `H` is of the
shape `H ⊑ varg-summary-source-var`. -/
def HSeedsVargOnly (st : IState) : Prop :=
  ∀ kind c, c ∈ st.kit.constraints kind → c.lhs.hasHigh = true →
    c.lhs = .const .high ∧ ∃ f w, c.rhs = .var w ∧
      st.summarySourceVargConstraintMap f = some w

/-- Example CFG for the conditional-successor claim: block 0 branches to
blocks 1 and 2, block 1 falls through to block 3, blocks 2 and 3 have no
successors. -/
def ccsSuccEx : Nat → List Nat :=
  fun b => if b = 0 then [1, 2] else if b = 1 then [3] else []

/-- Example post-dominator relation: no block post-dominates any other
(e.g. every leaf is a distinct exit). -/
def ccsPdomEx : Nat → Nat → Bool := fun _ _ => false

/-- The round-trip pipeline of claim C4 on a fresh pass: taint value `7`
under kind `"k"`, then query the least solution over `{"k"}`. -/
def c4Run : Option Bool :=
  match IState.setTainted IState.start "k" 7 with
  | none => none
  | some st =>
      match Infoflow.leastSolution st ["k"] false false with
      | none => none
      | some ps => some (ps.1.isTainted 7)

/-- A kit whose `"default"` kind has been solved (least) but whose
`"default-sinks"` kind has not — the configuration in which
`solveLeastMT(kinds, true)` dereferences a null baseline. -/
def c5Kit : Kit :=
  { Kit.start with
    lockedConstraintKinds := ["default"],
    leastSolutions := fun k =>
      if k = "default" then some (PartialSolutionOf false []) else none }

/-- The state after `setVargTainted("k", f)` for function `5` on a fresh
pass. -/
def c9StA : IState :=
  (IState.start.setVargTainted "k" 5).getD IState.start

/-- `c9StA` after additionally creating the context-sensitive varargs
variable of function `5` in context `0`. -/
def c9StB : IState :=
  ((c9StA.getOrCreateVargConsElem 0 5).getD (0, c9StA)).2

/-! ## Basic lattice and substitution lemmas -/

theorem LHConstant.eq_low_or_high (a : LHConstant) : a = .low ∨ a = .high := by
  cases a <;> simp

theorem LHConstant.join_eq_high_iff (a b : LHConstant) :
    a.join b = .high ↔ a = .high ∨ b = .high := by
  cases a <;> cases b <;> simp [LHConstant.join]

theorem LHConstant.leq_iff (a b : LHConstant) :
    a.leq b = true ↔ (a = .low ∨ b = .high) := by
  cases a <;> cases b <;> simp [LHConstant.leq]

theorem LHConstant.low_leq (b : LHConstant) : LHConstant.leq .low b = true := by
  cases b <;> simp [LHConstant.leq]

theorem LHConstant.leq_high (a : LHConstant) : LHConstant.leq a .high = true := by
  cases a <;> simp [LHConstant.leq]

theorem LHConstant.high_leq_iff (b : LHConstant) :
    LHConstant.leq .high b = true ↔ b = .high := by
  cases b <;> simp [LHConstant.leq]

theorem substWList_eq_high_iff (d : LHConstant) (ch : Finset Nat) :
    ∀ (l : List ConsElem) (acc : LHConstant),
    substWList d ch acc l = .high ↔
      acc = .high ∨ ∃ e ∈ l, substW d ch e = .high := by
  intro l
  induction l with
  | nil => intro acc; simp [substWList]
  | cons e es ih =>
      intro acc
      rw [substWList, ih]
      rw [LHConstant.join_eq_high_iff]
      constructor
      · rintro (⟨h | h⟩ | ⟨x, hx, hh⟩)
        · exact Or.inl h
        · exact Or.inr ⟨e, by simp, h⟩
        · exact Or.inr ⟨x, by simp [hx], hh⟩
      · rintro (h | ⟨x, hx, hh⟩)
        · exact Or.inl (Or.inl h)
        · rcases List.mem_cons.mp hx with rfl | hx
          · exact Or.inl (Or.inr hh)
          · exact Or.inr ⟨x, hx, hh⟩

theorem substWList_high_acc (d : LHConstant) (ch : Finset Nat) :
    ∀ (l : List ConsElem), substWList d ch .high l = .high := by
  intro l
  rw [substWList_eq_high_iff]
  exact Or.inl rfl

theorem hasHighList_iff :
    ∀ (l : List ConsElem), ConsElem.hasHighList l = true ↔
      ∃ e ∈ l, e.hasHigh = true := by
  intro l
  induction l with
  | nil => simp [ConsElem.hasHighList]
  | cons e es ih => simp [ConsElem.hasHighList, ih]

theorem mem_variablesList :
    ∀ (l : List ConsElem) (v : Nat), v ∈ ConsElem.variablesList l ↔
      ∃ e ∈ l, v ∈ e.variables := by
  intro l
  induction l with
  | nil => simp [ConsElem.variablesList]
  | cons e es ih => intro v; simp [ConsElem.variablesList, ih]

mutual
theorem substW_low_eq_high_iff : ∀ (ch : Finset Nat) (e : ConsElem),
    substW .low ch e = .high ↔
      (e.hasHigh = true ∨ ∃ v ∈ e.variables, v ∈ ch)
  | ch, .const c => by
      cases c <;> simp [substW, ConsElem.hasHigh, ConsElem.variables]
  | ch, .var v => by
      by_cases h : v ∈ ch <;>
        simp [substW, h, ConsElem.hasHigh, ConsElem.variables, LHConstant.other]
  | ch, .join l => by
      rw [substW, substWList_eq_high_iff]
      have hm : ∀ e ∈ l, substW .low ch e = .high ↔
          (e.hasHigh = true ∨ ∃ v ∈ e.variables, v ∈ ch) :=
        fun e _ => substW_low_eq_high_iff ch e
      simp only [ConsElem.hasHigh, ConsElem.variables]
      rw [hasHighList_iff]
      constructor
      · rintro (h | ⟨e, he, hh⟩)
        · exact absurd h (by simp)
        · rcases (hm e he).mp hh with h | ⟨v, hv, hvc⟩
          · exact Or.inl ⟨e, he, h⟩
          · exact Or.inr ⟨v, (mem_variablesList l v).mpr ⟨e, he, hv⟩, hvc⟩
      · rintro (⟨e, he, hh⟩ | ⟨v, hv, hvc⟩)
        · exact Or.inr ⟨e, he, (hm e he).mpr (Or.inl hh)⟩
        · rcases (mem_variablesList l v).mp hv with ⟨e, he, hve⟩
          exact Or.inr ⟨e, he, (hm e he).mpr (Or.inr ⟨v, hve, hvc⟩)⟩
end

theorem substW_low_eq_low_or_high (ch : Finset Nat) (e : ConsElem) :
    substW .low ch e = .low ∨ substW .low ch e = .high :=
  LHConstant.eq_low_or_high _

theorem substW_low_mono {ch ch' : Finset Nat} (hsub : ch ⊆ ch') (e : ConsElem)
    (h : substW .low ch e = .high) : substW .low ch' e = .high := by
  rw [substW_low_eq_high_iff] at h ⊢
  rcases h with h | ⟨v, hv, hvc⟩
  · exact Or.inl h
  · exact Or.inr ⟨v, hv, hsub hvc⟩

theorem substW_low_congr {ch ch' : Finset Nat} (e : ConsElem)
    (h : ∀ v ∈ e.variables, (v ∈ ch ↔ v ∈ ch')) :
    substW .low ch e = substW .low ch' e := by
  rcases substW_low_eq_low_or_high ch e with h1 | h1 <;>
    rcases substW_low_eq_low_or_high ch' e with h2 | h2 <;>
      rw [h1, h2]
  · rw [substW_low_eq_high_iff] at h2
    rcases h2 with hh | ⟨v, hv, hvc⟩
    · rw [show substW .low ch e = .high from (substW_low_eq_high_iff ch e).mpr (Or.inl hh)] at h1
      exact absurd h1 (by simp)
    · rw [show substW .low ch e = .high from
        (substW_low_eq_high_iff ch e).mpr (Or.inr ⟨v, hv, (h v hv).mpr hvc⟩)] at h1
      exact absurd h1 (by simp)
  · rw [substW_low_eq_high_iff] at h1
    rcases h1 with hh | ⟨v, hv, hvc⟩
    · rw [show substW .low ch' e = .high from (substW_low_eq_high_iff ch' e).mpr (Or.inl hh)] at h2
      exact absurd h2 (by simp)
    · rw [show substW .low ch' e = .high from
        (substW_low_eq_high_iff ch' e).mpr (Or.inr ⟨v, hv, (h v hv).mp hvc⟩)] at h2
      exact absurd h2 (by simp)

theorem substW_high_eq_low_iff (ch : Finset Nat) (e : ConsElem) :
    substW .high ch e = .low ↔
      (e = .const .low ∨ ∃ w, e = .var w ∧ w ∈ ch) := by
  match e with
  | .const c => cases c <;> simp [substW]
  | .var w => by_cases h : w ∈ ch <;> simp [substW, h, LHConstant.other]
  | .join l =>
      rw [substW, substWList_high_acc]
      simp

theorem substW_high_eq_low_or_high (ch : Finset Nat) (e : ConsElem) :
    substW .high ch e = .low ∨ substW .high ch e = .high :=
  LHConstant.eq_low_or_high _

theorem substW_high_mono {ch ch' : Finset Nat} (hsub : ch ⊆ ch') (e : ConsElem)
    (h : substW .high ch e = .low) : substW .high ch' e = .low := by
  rw [substW_high_eq_low_iff] at h ⊢
  rcases h with h | ⟨w, hw, hwc⟩
  · exact Or.inl h
  · exact Or.inr ⟨w, hw, hsub hwc⟩

theorem substW_high_congr {ch ch' : Finset Nat} (e : ConsElem)
    (h : ∀ v ∈ e.variables, (v ∈ ch ↔ v ∈ ch')) :
    substW .high ch e = substW .high ch' e := by
  rcases substW_high_eq_low_or_high ch e with h1 | h1 <;>
    rcases substW_high_eq_low_or_high ch' e with h2 | h2 <;>
      rw [h1, h2]
  · rw [substW_high_eq_low_iff] at h1
    rcases h1 with rfl | ⟨w, rfl, hwc⟩
    · simp [substW] at h2
    · have : substW .high ch' (.var w) = .low :=
        (substW_high_eq_low_iff ch' _).mpr
          (Or.inr ⟨w, rfl, (h w (by simp [ConsElem.variables])).mp hwc⟩)
      rw [this] at h2; exact absurd h2 (by simp)
  · rw [substW_high_eq_low_iff] at h2
    rcases h2 with rfl | ⟨w, rfl, hwc⟩
    · simp [substW] at h1
    · have : substW .high ch (.var w) = .low :=
        (substW_high_eq_low_iff ch _).mpr
          (Or.inr ⟨w, rfl, (h w (by simp [ConsElem.variables])).mpr hwc⟩)
      rw [this] at h1; exact absurd h1 (by simp)

mutual
theorem substP_false_eq_substW : ∀ (V : Finset Nat) (e : ConsElem),
    substP false V e = substW .low V e
  | _, .const _ => by simp [substP, substW]
  | V, .var v => by
      by_cases h : v ∈ V <;> simp [substP, substW, h, LHConstant.other]
  | V, .join l => by
      rw [substP, substW]
      exact substPList_false_eq_substWList V l .low

theorem substPList_false_eq_substWList : ∀ (V : Finset Nat)
    (l : List ConsElem) (acc : LHConstant),
    substPList false V acc l = substWList .low V acc l
  | _, [], acc => by simp [substPList, substWList]
  | V, e :: es, acc => by
      rw [substPList, substWList, substP_false_eq_substW V e]
      exact substPList_false_eq_substWList V es _
end

theorem substP_true_var (V : Finset Nat) (w : Nat) :
    substP true V (.var w) = .low ↔ w ∈ V := by
  by_cases h : w ∈ V <;> simp [substP, h]

theorem substP_true_const (V : Finset Nat) (c : LHConstant) :
    substP true V (.const c) = c := rfl

/-! ## Queue helpers -/

theorem mem_enqueueConstraints :
    ∀ (l q : List Nat) (j : Nat), j ∈ enqueueConstraints q l ↔ j ∈ q ∨ j ∈ l := by
  intro l
  induction l with
  | nil => simp [enqueueConstraints]
  | cons i is ih =>
      intro q j
      rw [enqueueConstraints]
      by_cases h : i ∈ q
      · rw [if_pos h, ih]
        constructor
        · rintro (hq | hl)
          · exact Or.inl hq
          · exact Or.inr (by simp [hl])
        · rintro (hq | hl)
          · exact Or.inl hq
          · rcases List.mem_cons.mp hl with rfl | hl
            · exact Or.inl h
            · exact Or.inr hl
      · rw [if_neg h, ih]
        simp only [List.mem_append, List.mem_singleton, List.mem_cons]
        tauto

theorem enqueueConstraints_nodup :
    ∀ (l q : List Nat), q.Nodup → (enqueueConstraints q l).Nodup := by
  intro l
  induction l with
  | nil => intro q h; simpa [enqueueConstraints]
  | cons i is ih =>
      intro q h
      rw [enqueueConstraints]
      by_cases hi : i ∈ q
      · rw [if_pos hi]; exact ih q h
      · rw [if_neg hi]
        exact ih _ (by simp [List.nodup_append, h, hi])

theorem enqueueConstraints_of_disjoint :
    ∀ (l q : List Nat), l.Nodup → (∀ x ∈ l, x ∉ q) →
    enqueueConstraints q l = q ++ l := by
  intro l
  induction l with
  | nil => intro q _ _; simp [enqueueConstraints]
  | cons i is ih =>
      intro q hnd hdisj
      rw [enqueueConstraints, if_neg (hdisj i (by simp))]
      rw [ih (q ++ [i]) (List.nodup_cons.mp hnd).2]
      · simp
      · intro x hx
        simp only [List.mem_append, List.mem_singleton]
        rintro (hxq | rfl)
        · exact hdisj x (by simp [hx]) hxq
        · exact (List.nodup_cons.mp hnd).1 hx

theorem solveStart_queue (K : List LHConstraint) :
    solveStart K = (List.range K.length, ∅) := by
  rw [solveStart, enqueueConstraints_of_disjoint _ _ (List.nodup_range _) (by simp)]
  simp

/-! ## Constraint-vector helpers -/

theorem getD_mem_of_lt {K : List LHConstraint} {i : Nat} (h : i < K.length) :
    K.getD i cdef ∈ K := by
  rw [List.getD_eq_getElem _ _ h]
  exact List.getElem_mem h

theorem exists_index_of_mem {K : List LHConstraint} {c : LHConstraint}
    (h : c ∈ K) : ∃ i, i < K.length ∧ K.getD i cdef = c := by
  rcases List.getElem_of_mem h with ⟨i, hi, rfl⟩
  exact ⟨i, hi, List.getD_eq_getElem _ _ hi⟩

theorem mem_invalidIfIncreased (K : List LHConstraint) (v j : Nat) :
    j ∈ invalidIfIncreased K v ↔
      j < K.length ∧ v ∈ (K.getD j cdef).lhs.variables := by
  simp [invalidIfIncreased, List.mem_filter]

theorem mem_invalidIfDecreased (K : List LHConstraint) (v j : Nat) :
    j ∈ invalidIfDecreased K v ↔
      j < K.length ∧ v ∈ (K.getD j cdef).rhs.variables := by
  simp [invalidIfDecreased, List.mem_filter]

theorem subset_allVarsK {K : List LHConstraint} {c : LHConstraint} (h : c ∈ K) :
    c.lhs.variables ∪ c.rhs.variables ⊆ allVarsK K := by
  induction K with
  | nil => cases h
  | cons d ds ih =>
      intro x hx
      rw [allVarsK, List.foldr]
      rcases List.mem_cons.mp h with rfl | h
      · simp only [Finset.mem_union] at hx ⊢
        tauto
      · have := ih h hx
        simp only [Finset.mem_union]
        right
        exact this

theorem cdef_lhs_subst (ch : Finset Nat) : substW .low ch cdef.lhs = .low := rfl

theorem cdef_subst_high (ch : Finset Nat) : substW .high ch cdef.rhs = .low := rfl

/-! ## Net effect of the least-solution worklist step -/

theorem satisfyFoldHigh (K : List LHConstraint) :
    ∀ (l : List Nat) (q : List Nat) (ch : Finset Nat), l.Nodup →
    ((l.foldl (fun st v =>
        if LHConstant.leq .high (substW .low st.2 (.var v)) then st
        else (enqueueConstraints st.1 (invalidIfIncreased K v), insert v st.2))
        (q, ch)).2 = ch ∪ l.toFinset) ∧
    (∀ j, j ∈ (l.foldl (fun st v =>
        if LHConstant.leq .high (substW .low st.2 (.var v)) then st
        else (enqueueConstraints st.1 (invalidIfIncreased K v), insert v st.2))
        (q, ch)).1 ↔
      j ∈ q ∨ ∃ v ∈ l, v ∉ ch ∧ j ∈ invalidIfIncreased K v) ∧
    (q.Nodup → (l.foldl (fun st v =>
        if LHConstant.leq .high (substW .low st.2 (.var v)) then st
        else (enqueueConstraints st.1 (invalidIfIncreased K v), insert v st.2))
        (q, ch)).1.Nodup) ∧
    ((∀ v ∈ l, v ∈ ch) → (l.foldl (fun st v =>
        if LHConstant.leq .high (substW .low st.2 (.var v)) then st
        else (enqueueConstraints st.1 (invalidIfIncreased K v), insert v st.2))
        (q, ch)) = (q, ch)) := by
  intro l
  induction l with
  | nil => intro q ch _; simp
  | cons v vs ih =>
      intro q ch hnd
      have hv : v ∉ vs := (List.nodup_cons.mp hnd).1
      have hvs : vs.Nodup := (List.nodup_cons.mp hnd).2
      by_cases hmem : v ∈ ch
      · -- the variable is already changed, the element is skipped
        have hstep : (if LHConstant.leq .high (substW .low ch (.var v)) then (q, ch)
            else (enqueueConstraints q (invalidIfIncreased K v), insert v ch)) = (q, ch) := by
          rw [if_pos (by simp [substW, hmem, LHConstant.leq, LHConstant.other])]
        rw [List.foldl_cons]
        rw [hstep]
        rcases ih q ch hvs with ⟨h2, h1, hnd', hfix⟩
        refine ⟨?_, ?_, hnd', ?_⟩
        · rw [h2]
          ext x
          simp only [Finset.mem_union, List.toFinset_cons, Finset.mem_insert, List.mem_toFinset]
          constructor
          · rintro (hx | hx)
            · exact Or.inl hx
            · exact Or.inr (Or.inr hx)
          · rintro (hx | rfl | hx)
            · exact Or.inl hx
            · exact Or.inl hmem
            · exact Or.inr hx
        · intro j
          rw [h1 j]
          constructor
          · rintro (hq | ⟨w, hw, hwc, hj⟩)
            · exact Or.inl hq
            · exact Or.inr ⟨w, by simp [hw], hwc, hj⟩
          · rintro (hq | ⟨w, hw, hwc, hj⟩)
            · exact Or.inl hq
            · rcases List.mem_cons.mp hw with rfl | hw
              · exact absurd hmem hwc
              · exact Or.inr ⟨w, hw, hwc, hj⟩
        · intro hall
          exact hfix (fun w hw => hall w (by simp [hw]))
      · -- the variable is newly inserted
        have hstep : (if LHConstant.leq .high (substW .low ch (.var v)) then (q, ch)
            else (enqueueConstraints q (invalidIfIncreased K v), insert v ch)) =
            (enqueueConstraints q (invalidIfIncreased K v), insert v ch) := by
          rw [if_neg (by simp [substW, hmem, LHConstant.other, LHConstant.leq])]
        rw [List.foldl_cons, hstep]
        rcases ih (enqueueConstraints q (invalidIfIncreased K v)) (insert v ch) hvs with
          ⟨h2, h1, hnd', _⟩
        refine ⟨?_, ?_, ?_, ?_⟩
        · rw [h2]
          ext x
          simp only [Finset.mem_union, Finset.mem_insert, List.toFinset_cons, List.mem_toFinset]
          tauto
        · intro j
          rw [h1 j]
          rw [mem_enqueueConstraints]
          constructor
          · rintro ((hq | hj) | ⟨w, hw, hwc, hj⟩)
            · exact Or.inl hq
            · exact Or.inr ⟨v, by simp, hmem, hj⟩
            · exact Or.inr ⟨w, by simp [hw],
                fun hc => hwc (Finset.mem_insert.mpr (Or.inr hc)), hj⟩
          · rintro (hq | ⟨w, hw, hwc, hj⟩)
            · exact Or.inl (Or.inl hq)
            · rcases List.mem_cons.mp hw with rfl | hw
              · exact Or.inl (Or.inr hj)
              · have hwv : w ≠ v := fun h => hv (h ▸ hw)
                exact Or.inr ⟨w, hw, by simp [Finset.mem_insert, hwv, hwc], hj⟩
        · intro hq
          exact hnd' (enqueueConstraints_nodup _ _ hq)
        · intro hall
          exact absurd (hall v (by simp)) hmem

theorem satisfyConstraint_eq_fold (K : List LHConstraint) (i : Nat)
    (q : List Nat) (ch : Finset Nat)
    (hL : substW .low ch (K.getD i cdef).lhs = .high) :
    LHConsLeastSoln.satisfyConstraint K i (q, ch) =
      (((K.getD i cdef).rhs.variables.sort (· ≤ ·)).foldl (fun st v =>
        if LHConstant.leq .high (substW .low st.2 (.var v)) then st
        else (enqueueConstraints st.1 (invalidIfIncreased K v), insert v st.2))
        (q, ch)) := by
  rw [LHConsLeastSoln.satisfyConstraint]
  simp only
  rw [hL]

theorem processLeast_of_not_high (K : List LHConstraint) (i : Nat)
    (q : List Nat) (ch : Finset Nat)
    (h : substW .low ch (K.getD i cdef).lhs ≠ .high) :
    LHConsSoln.processLeast K i (q, ch) = (q, ch) := by
  have hl : substW .low ch (K.getD i cdef).lhs = .low := by
    rcases substW_low_eq_low_or_high ch (K.getD i cdef).lhs with h' | h'
    · exact h'
    · exact absurd h' h
  rw [LHConsSoln.processLeast]
  simp only
  rw [hl, if_pos (LHConstant.low_leq _)]

theorem processLeast_spec_high (K : List LHConstraint) (i : Nat)
    (q : List Nat) (ch : Finset Nat)
    (hL : substW .low ch (K.getD i cdef).lhs = .high)
    (hjf : (K.getD i cdef).rhs.isJoin = false) :
    ((LHConsSoln.processLeast K i (q, ch)).2 = ch ∪ (K.getD i cdef).rhs.variables) ∧
    (∀ j, j ∈ (LHConsSoln.processLeast K i (q, ch)).1 ↔
      j ∈ q ∨ ∃ v, v ∈ (K.getD i cdef).rhs.variables ∧ v ∉ ch ∧
        j ∈ invalidIfIncreased K v) ∧
    (q.Nodup → (LHConsSoln.processLeast K i (q, ch)).1.Nodup) := by
  rw [LHConsSoln.processLeast]
  simp only
  rw [hL]
  by_cases hsat : LHConstant.leq .high (substW .low ch (K.getD i cdef).rhs) = true
  · rw [if_pos hsat]
    rw [LHConstant.high_leq_iff] at hsat
    match hrhs : (K.getD i cdef).rhs with
    | .join _ => rw [hrhs] at hjf; simp [ConsElem.isJoin] at hjf
    | .const c =>
        rw [hrhs] at hsat
        have : c = .high := by simpa [substW] using hsat
        subst this
        refine ⟨by simp [ConsElem.variables], fun j => ?_, fun h => h⟩
        simp [ConsElem.variables]
    | .var w =>
        rw [hrhs] at hsat
        have hw : w ∈ ch := by
          by_contra hc
          simp [substW, hc] at hsat
        refine ⟨?_, fun j => ?_, fun h => h⟩
        · ext x; simp only [Finset.mem_union, ConsElem.variables, Finset.mem_singleton]
          constructor
          · exact Or.inl
          · rintro (hx | rfl)
            · exact hx
            · exact hw
        · constructor
          · exact Or.inl
          · rintro (hq | ⟨v, hv, hvc, _⟩)
            · exact hq
            · rw [ConsElem.variables, Finset.mem_singleton] at hv
              exact absurd (hv ▸ hw) hvc
  · rw [if_neg hsat]
    have heq := satisfyConstraint_eq_fold K i q ch hL
    rcases satisfyFoldHigh K ((K.getD i cdef).rhs.variables.sort (· ≤ ·)) q ch
      (Finset.sort_nodup _ _) with ⟨h2, h1, hnd, _⟩
    rw [show LHConsLeastSoln.satisfyConstraint K i (q, ch) =
      (((K.getD i cdef).rhs.variables.sort (· ≤ ·)).foldl (fun st v =>
        if LHConstant.leq .high (substW .low st.2 (.var v)) then st
        else (enqueueConstraints st.1 (invalidIfIncreased K v), insert v st.2))
        (q, ch)) from heq]
    refine ⟨?_, fun j => ?_, hnd⟩
    · rw [h2]
      congr 1
      ext x
      simp [Finset.mem_sort]
    · rw [h1 j]
      simp only [Finset.mem_sort]

theorem nodup_length_le (q : List Nat) (n : Nat) (hnd : q.Nodup)
    (hmem : ∀ j ∈ q, j < n) : q.length ≤ n := by
  calc q.length = q.toFinset.card := (List.toFinset_card_of_nodup hnd).symm
    _ ≤ (Finset.range n).card := by
        apply Finset.card_le_card
        intro x hx
        rw [Finset.mem_range]
        exact hmem x (List.mem_toFinset.mp hx)
    _ = n := Finset.card_range n

theorem processLeast_measure (K : List LHConstraint) (i : Nat)
    (q : List Nat) (ch : Finset Nat) (hnd : q.Nodup)
    (hqr : ∀ j ∈ q, j < K.length) (hch : ch ⊆ allVarsK K) :
    solveMeasure K (LHConsSoln.processLeast K i (q, ch)) <
      solveMeasure K (q, ch) + 1 := by
  by_cases hL : substW .low ch (K.getD i cdef).lhs = .high
  · have hi : i < K.length := by
      by_contra hc
      rw [List.getD_eq_default _ _ (Nat.le_of_not_lt hc)] at hL
      exact absurd hL (by simp [cdef, substW])
    rw [LHConsSoln.processLeast]
    simp only
    rw [hL]
    by_cases hsat : LHConstant.leq .high (substW .low ch (K.getD i cdef).rhs) = true
    · rw [if_pos hsat]
      exact Nat.lt_succ_self _
    · rw [if_neg hsat]
      rw [satisfyConstraint_eq_fold K i q ch hL]
      rcases satisfyFoldHigh K ((K.getD i cdef).rhs.variables.sort (· ≤ ·)) q ch
        (Finset.sort_nodup _ _) with ⟨h2, h1, hndres, hfix⟩
      by_cases hall : ∀ v ∈ (K.getD i cdef).rhs.variables.sort (· ≤ ·), v ∈ ch
      · rw [hfix hall]
        exact Nat.lt_succ_self _
      · push_neg at hall
        rcases hall with ⟨v0, hv0, hv0c⟩
        -- the changed set grows strictly inside allVarsK
        have hvars : (K.getD i cdef).rhs.variables ⊆ allVarsK K := by
          intro x hx
          exact subset_allVarsK (getD_mem_of_lt hi) (Finset.mem_union_right _ hx)
        have hv0m : v0 ∈ (K.getD i cdef).rhs.variables := (Finset.mem_sort _).mp hv0
        have hsortfin : ((K.getD i cdef).rhs.variables.sort (· ≤ ·)).toFinset =
            (K.getD i cdef).rhs.variables := by
          ext x; simp [Finset.mem_sort]
        have hsub : ch ∪ (K.getD i cdef).rhs.variables ⊆ allVarsK K :=
          Finset.union_subset hch hvars
        have hcard : (allVarsK K \ (ch ∪ (K.getD i cdef).rhs.variables)).card + 1 ≤
            (allVarsK K \ ch).card := by
          have hss : allVarsK K \ (ch ∪ (K.getD i cdef).rhs.variables) ⊂
              allVarsK K \ ch := by
            constructor
            · intro x hx
              rw [Finset.mem_sdiff] at hx ⊢
              exact ⟨hx.1, fun hc => hx.2 (Finset.mem_union_left _ hc)⟩
            · intro hcon
              have : v0 ∈ allVarsK K \ ch := Finset.mem_sdiff.mpr ⟨hvars hv0m, hv0c⟩
              have := hcon this
              rw [Finset.mem_sdiff] at this
              exact this.2 (Finset.mem_union_right _ hv0m)
          exact Nat.succ_le_of_lt (Finset.card_lt_card hss)
        have hlen : (((K.getD i cdef).rhs.variables.sort (· ≤ ·)).foldl (fun st v =>
            if LHConstant.leq .high (substW .low st.2 (.var v)) then st
            else (enqueueConstraints st.1 (invalidIfIncreased K v), insert v st.2))
            (q, ch)).1.length ≤ K.length := by
          apply nodup_length_le _ _ (hndres hnd)
          intro j hj
          rcases (h1 j).mp hj with hq | ⟨w, _, _, hw⟩
          · exact hqr j hq
          · exact ((mem_invalidIfIncreased K w j).mp hw).1
        rw [solveMeasure, solveMeasure]
        rw [h2, hsortfin]
        have e1 : ((allVarsK K \ (ch ∪ (K.getD i cdef).rhs.variables)).card + 1) *
            (K.length + 1) ≤ (allVarsK K \ ch).card * (K.length + 1) :=
          Nat.mul_le_mul_right _ hcard
        have e2 : ((allVarsK K \ (ch ∪ (K.getD i cdef).rhs.variables)).card + 1) *
            (K.length + 1) = (allVarsK K \ (ch ∪ (K.getD i cdef).rhs.variables)).card *
            (K.length + 1) + (K.length + 1) := by ring
        have e3 : (q, ch).2 = ch := rfl
        have e4 : (q, ch).1 = q := rfl
        rw [e3, e4]
        omega
  · rw [processLeast_of_not_high K i q ch hL]
    exact Nat.lt_succ_self _

theorem processLeast_inv (K : List LHConstraint)
    (hjf : ∀ c ∈ K, c.rhs.isJoin = false)
    (pre post : List Nat) (i : Nat) (ch : Finset Nat)
    (hInv : WInvLeast K (pre ++ i :: post, ch)) :
    WInvLeast K (LHConsSoln.processLeast K i (pre ++ post, ch)) := by
  simp only [WInvLeast] at hInv
  rcases hInv with ⟨hnd0, hidx0, hch0, hsound0, hstable0⟩
  have hi : i < K.length := hidx0 i (by simp)
  have hndq : (pre ++ post).Nodup := by
    have hsub : (pre ++ post).Sublist (pre ++ i :: post) :=
      List.Sublist.append_left (List.sublist_cons_self i post) pre
    exact hnd0.sublist hsub
  have hidxq : ∀ j ∈ pre ++ post, j < K.length := by
    intro j hj
    apply hidx0
    rcases List.mem_append.mp hj with h | h
    · exact List.mem_append.mpr (Or.inl h)
    · exact List.mem_append.mpr (Or.inr (by simp [h]))
  by_cases hL : substW .low ch (K.getD i cdef).lhs = .high
  · have hjfi := hjf _ (getD_mem_of_lt hi)
    rcases processLeast_spec_high K i (pre ++ post) ch hL hjfi with ⟨h2, h1, hndres⟩
    simp only [WInvLeast]
    refine ⟨hndres hndq, ?_, ?_, ?_, ?_⟩
    · intro j hj
      rcases (h1 j).mp hj with hq | ⟨w, _, _, hw⟩
      · exact hidxq j hq
      · exact ((mem_invalidIfIncreased K w j).mp hw).1
    · rw [h2]
      apply Finset.union_subset hch0
      intro x hx
      exact subset_allVarsK (getD_mem_of_lt hi) (Finset.mem_union_right _ hx)
    · intro v hv
      rw [h2, Finset.mem_union] at hv
      rcases hv with hv | hv
      · exact hsound0 v hv
      · -- newly inserted: justified by the left-hand side being high
        rcases (substW_low_eq_high_iff ch _).mp hL with hhigh | ⟨w, hw, hwc⟩
        · exact LfpL.seed _ (getD_mem_of_lt hi) hhigh v hv
        · exact LfpL.step w _ (hsound0 w hwc) (getD_mem_of_lt hi) hw v hv
    · intro j hjlen hjq hsub
      by_cases hji : j = i
      · subst hji
        rw [h2]
        exact Finset.subset_union_right
      · have hjq1 : j ∉ pre ++ post := fun hc => hjq ((h1 j).mpr (Or.inl hc))
        have hjq0 : j ∉ pre ++ i :: post := by
          intro hc
          rcases List.mem_append.mp hc with h | h
          · exact hjq1 (List.mem_append.mpr (Or.inl h))
          · rcases List.mem_cons.mp h with rfl | h
            · exact hji rfl
            · exact hjq1 (List.mem_append.mpr (Or.inr h))
        by_cases hold : substW .low ch (K.getD j cdef).lhs = .high
        · have := hstable0 j hjlen hjq0 hold
          rw [h2]
          exact this.trans Finset.subset_union_left
        · -- the left side became high through a newly inserted variable,
          -- but then j would have been re-enqueued
          exfalso
          rw [h2] at hsub
          rcases (substW_low_eq_high_iff _ _).mp hsub with hhigh | ⟨w, hw, hwc⟩
          · exact hold ((substW_low_eq_high_iff _ _).mpr (Or.inl hhigh))
          · rcases Finset.mem_union.mp hwc with hwch | hwnew
            · exact hold ((substW_low_eq_high_iff _ _).mpr (Or.inr ⟨w, hw, hwch⟩))
            · by_cases hwc2 : w ∈ ch
              · exact hold ((substW_low_eq_high_iff _ _).mpr (Or.inr ⟨w, hw, hwc2⟩))
              · apply hjq
                apply (h1 j).mpr
                exact Or.inr ⟨w, hwnew, hwc2,
                  (mem_invalidIfIncreased K w j).mpr ⟨hjlen, hw⟩⟩
  · rw [processLeast_of_not_high K i (pre ++ post) ch hL]
    simp only [WInvLeast]
    refine ⟨hndq, hidxq, hch0, hsound0, ?_⟩
    · intro j hjlen hjq hsub
      by_cases hji : j = i
      · subst hji; exact absurd hsub hL
      · apply hstable0 j hjlen ?_ hsub
        intro hc
        rcases List.mem_append.mp hc with h | h
        · exact hjq (List.mem_append.mpr (Or.inl h))
        · rcases List.mem_cons.mp h with rfl | h
          · exact hji rfl
          · exact hjq (List.mem_append.mpr (Or.inr h))

theorem terminal_least (K : List LHConstraint) (ch : Finset Nat)
    (hInv : WInvLeast K ([], ch)) : ∀ v, v ∈ ch ↔ LfpL K v := by
  simp only [WInvLeast] at hInv
  rcases hInv with ⟨_, _, _, hsound, hstable⟩
  intro v
  constructor
  · exact hsound v
  · intro hlfp
    induction hlfp with
    | seed c hc hhigh v hv =>
        rcases exists_index_of_mem hc with ⟨i, hi, rfl⟩
        exact hstable i hi (by simp)
          ((substW_low_eq_high_iff _ _).mpr (Or.inl hhigh)) hv
    | step w c _ hc hw v hv ihw =>
        rcases exists_index_of_mem hc with ⟨i, hi, rfl⟩
        exact hstable i hi (by simp)
          ((substW_low_eq_high_iff _ _).mpr (Or.inr ⟨w, hw, ihw⟩)) hv

theorem solveLoopLeast_spec (K : List LHConstraint)
    (hjf : ∀ c ∈ K, c.rhs.isJoin = false) :
    ∀ (n : Nat) (st : List Nat × Finset Nat), WInvLeast K st →
    solveMeasure K st < n →
    ∀ v, v ∈ LHConsSoln.solveLoopLeast K n st ↔ LfpL K v := by
  intro n
  induction n with
  | zero => intro st _ hm; exact absurd hm (by omega)
  | succ n ih =>
      intro st hInv hm
      match st with
      | ([], ch) =>
          rw [LHConsSoln.solveLoopLeast]
          exact terminal_least K ch hInv
      | (i :: q, ch) =>
          rw [LHConsSoln.solveLoopLeast]
          apply ih
          · exact processLeast_inv K hjf [] q i ch hInv
          · have h1 := processLeast_measure K i q ch
              (by
                have := hInv.1
                exact (List.nodup_cons.mp this).2)
              (fun j hj => hInv.2.1 j (by simp [hj]))
              hInv.2.2.1
            have h2 : solveMeasure K (q, ch) + 1 = solveMeasure K (i :: q, ch) := by
              simp only [solveMeasure, List.length_cons]
              omega
            omega

theorem solve_least_eq_lfp (K : List LHConstraint)
    (hjf : ∀ c ∈ K, c.rhs.isJoin = false) :
    ∀ v, v ∈ LHConsLeastSoln.solve K ↔ LfpL K v := by
  have hstart : WInvLeast K (solveStart K) := by
    rw [solveStart_queue]
    simp only [WInvLeast]
    refine ⟨List.nodup_range _, ?_, ?_, ?_, ?_⟩
    · intro i hi; exact List.mem_range.mp hi
    · intro x hx; exact absurd hx (Finset.not_mem_empty x)
    · intro v hv; exact absurd hv (Finset.not_mem_empty v)
    · intro i hi hq _
      exact absurd (List.mem_range.mpr hi) hq
  have hfuel : solveMeasure K (solveStart K) < solveFuel K := by
    rw [solveStart_queue]
    rw [solveMeasure, solveFuel]
    have h1 : (allVarsK K \ (∅ : Finset Nat)).card ≤ (allVarsK K).card := by
      apply Finset.card_le_card
      intro x hx
      exact (Finset.mem_sdiff.mp hx).1
    have h2 : (List.range K.length).length = K.length := List.length_range _
    have h3 : (allVarsK K \ (∅ : Finset Nat)).card * (K.length + 1) ≤
        (allVarsK K).card * (K.length + 1) := Nat.mul_le_mul_right _ h1
    have h4 : ((allVarsK K).card + 1) * (K.length + 1) =
        (allVarsK K).card * (K.length + 1) + (K.length + 1) := by ring
    simp only [h2]
    omega
  intro v
  rw [LHConsLeastSoln.solve]
  exact solveLoopLeast_spec K hjf (solveFuel K) (solveStart K) hstart hfuel v

/-! ## Net effect of the greatest-solution worklist step -/

theorem satisfyFoldLow (K : List LHConstraint) :
    ∀ (l : List Nat) (q : List Nat) (ch : Finset Nat), l.Nodup →
    ((l.foldl (fun st v =>
        if (substW .high st.2 (.var v)).leq .low then st
        else if LHConstant.leq .low (substW .high st.2 (.var v)) then
          (enqueueConstraints st.1 (invalidIfDecreased K v), insert v st.2)
        else st)
        (q, ch)).2 = ch ∪ l.toFinset) ∧
    (∀ j, j ∈ (l.foldl (fun st v =>
        if (substW .high st.2 (.var v)).leq .low then st
        else if LHConstant.leq .low (substW .high st.2 (.var v)) then
          (enqueueConstraints st.1 (invalidIfDecreased K v), insert v st.2)
        else st)
        (q, ch)).1 ↔
      j ∈ q ∨ ∃ v ∈ l, v ∉ ch ∧ j ∈ invalidIfDecreased K v) ∧
    (q.Nodup → (l.foldl (fun st v =>
        if (substW .high st.2 (.var v)).leq .low then st
        else if LHConstant.leq .low (substW .high st.2 (.var v)) then
          (enqueueConstraints st.1 (invalidIfDecreased K v), insert v st.2)
        else st)
        (q, ch)).1.Nodup) ∧
    ((∀ v ∈ l, v ∈ ch) → (l.foldl (fun st v =>
        if (substW .high st.2 (.var v)).leq .low then st
        else if LHConstant.leq .low (substW .high st.2 (.var v)) then
          (enqueueConstraints st.1 (invalidIfDecreased K v), insert v st.2)
        else st)
        (q, ch)) = (q, ch)) := by
  intro l
  induction l with
  | nil => intro q ch _; simp
  | cons v vs ih =>
      intro q ch hnd
      have hv : v ∉ vs := (List.nodup_cons.mp hnd).1
      have hvs : vs.Nodup := (List.nodup_cons.mp hnd).2
      by_cases hmem : v ∈ ch
      · have hstep : (if (substW .high ch (.var v)).leq .low then (q, ch)
            else if LHConstant.leq .low (substW .high ch (.var v)) then
              (enqueueConstraints q (invalidIfDecreased K v), insert v ch)
            else (q, ch)) = (q, ch) := by
          rw [if_pos (by simp [substW, hmem, LHConstant.leq, LHConstant.other])]
        rw [List.foldl_cons, hstep]
        rcases ih q ch hvs with ⟨h2, h1, hnd', hfix⟩
        refine ⟨?_, ?_, hnd', ?_⟩
        · rw [h2]
          ext x
          simp only [Finset.mem_union, List.toFinset_cons, Finset.mem_insert, List.mem_toFinset]
          constructor
          · rintro (hx | hx)
            · exact Or.inl hx
            · exact Or.inr (Or.inr hx)
          · rintro (hx | rfl | hx)
            · exact Or.inl hx
            · exact Or.inl hmem
            · exact Or.inr hx
        · intro j
          rw [h1 j]
          constructor
          · rintro (hq | ⟨w, hw, hwc, hj⟩)
            · exact Or.inl hq
            · exact Or.inr ⟨w, by simp [hw], hwc, hj⟩
          · rintro (hq | ⟨w, hw, hwc, hj⟩)
            · exact Or.inl hq
            · rcases List.mem_cons.mp hw with rfl | hw
              · exact absurd hmem hwc
              · exact Or.inr ⟨w, hw, hwc, hj⟩
        · intro hall
          exact hfix (fun w hw => hall w (by simp [hw]))
      · have hstep : (if (substW .high ch (.var v)).leq .low then (q, ch)
            else if LHConstant.leq .low (substW .high ch (.var v)) then
              (enqueueConstraints q (invalidIfDecreased K v), insert v ch)
            else (q, ch)) =
            (enqueueConstraints q (invalidIfDecreased K v), insert v ch) := by
          rw [if_neg (by simp [substW, hmem, LHConstant.leq, LHConstant.other]),
            if_pos (by simp [substW, hmem, LHConstant.leq, LHConstant.other])]
        rw [List.foldl_cons, hstep]
        rcases ih (enqueueConstraints q (invalidIfDecreased K v)) (insert v ch) hvs with
          ⟨h2, h1, hnd', _⟩
        refine ⟨?_, ?_, ?_, ?_⟩
        · rw [h2]
          ext x
          simp only [Finset.mem_union, Finset.mem_insert, List.toFinset_cons, List.mem_toFinset]
          tauto
        · intro j
          rw [h1 j]
          rw [mem_enqueueConstraints]
          constructor
          · rintro ((hq | hj) | ⟨w, hw, hwc, hj⟩)
            · exact Or.inl hq
            · exact Or.inr ⟨v, by simp, hmem, hj⟩
            · exact Or.inr ⟨w, by simp [hw],
                fun hc => hwc (Finset.mem_insert.mpr (Or.inr hc)), hj⟩
          · rintro (hq | ⟨w, hw, hwc, hj⟩)
            · exact Or.inl (Or.inl hq)
            · rcases List.mem_cons.mp hw with rfl | hw
              · exact Or.inl (Or.inr hj)
              · have hwv : w ≠ v := fun h => hv (h ▸ hw)
                exact Or.inr ⟨w, hw, by simp [Finset.mem_insert, hwv, hwc], hj⟩
        · intro hq
          exact hnd' (enqueueConstraints_nodup _ _ hq)
        · intro hall
          exact absurd (hall v (by simp)) hmem

theorem satisfyConstraintG_eq_fold (K : List LHConstraint) (i : Nat)
    (q : List Nat) (ch : Finset Nat)
    (hR : substW .high ch (K.getD i cdef).rhs = .low) :
    LHConsGreatestSoln.satisfyConstraint K i (q, ch) =
      (((K.getD i cdef).lhs.variables.sort (· ≤ ·)).foldl (fun st v =>
        if (substW .high st.2 (.var v)).leq .low then st
        else if LHConstant.leq .low (substW .high st.2 (.var v)) then
          (enqueueConstraints st.1 (invalidIfDecreased K v), insert v st.2)
        else st)
        (q, ch)) := by
  rw [LHConsGreatestSoln.satisfyConstraint]
  simp only
  rw [hR]

theorem processGreatest_of_not_low (K : List LHConstraint) (i : Nat)
    (q : List Nat) (ch : Finset Nat)
    (h : substW .high ch (K.getD i cdef).rhs ≠ .low) :
    LHConsSoln.processGreatest K i (q, ch) = (q, ch) := by
  have hh : substW .high ch (K.getD i cdef).rhs = .high := by
    rcases substW_high_eq_low_or_high ch (K.getD i cdef).rhs with h' | h'
    · exact absurd h' h
    · exact h'
  rw [LHConsSoln.processGreatest]
  simp only
  rw [hh, if_pos (LHConstant.leq_high _)]

theorem processGreatest_spec_low (K : List LHConstraint) (i : Nat)
    (q : List Nat) (ch : Finset Nat)
    (hR : substW .high ch (K.getD i cdef).rhs = .low) :
    ((LHConsSoln.processGreatest K i (q, ch)).2 = ch ∪ (K.getD i cdef).lhs.variables) ∧
    (∀ j, j ∈ (LHConsSoln.processGreatest K i (q, ch)).1 ↔
      j ∈ q ∨ ∃ v, v ∈ (K.getD i cdef).lhs.variables ∧ v ∉ ch ∧
        j ∈ invalidIfDecreased K v) ∧
    (q.Nodup → (LHConsSoln.processGreatest K i (q, ch)).1.Nodup) := by
  rw [LHConsSoln.processGreatest]
  simp only
  rw [hR]
  by_cases hsat : (substW .high ch (K.getD i cdef).lhs).leq .low = true
  · rw [if_pos hsat]
    have hlow : substW .high ch (K.getD i cdef).lhs = .low := by
      rcases substW_high_eq_low_or_high ch (K.getD i cdef).lhs with h' | h'
      · exact h'
      · rw [h'] at hsat
        simp [LHConstant.leq] at hsat
    rcases (substW_high_eq_low_iff ch _).mp hlow with hconst | ⟨w, hvar, hwch⟩
    · refine ⟨by rw [hconst]; simp [ConsElem.variables], fun j => ?_, fun h => h⟩
      rw [hconst]
      simp [ConsElem.variables]
    · refine ⟨?_, fun j => ?_, fun h => h⟩
      · rw [hvar]
        ext x; simp only [Finset.mem_union, ConsElem.variables, Finset.mem_singleton]
        constructor
        · exact Or.inl
        · rintro (hx | rfl)
          · exact hx
          · exact hwch
      · rw [hvar]
        constructor
        · exact Or.inl
        · rintro (hq | ⟨v, hv, hvc, _⟩)
          · exact hq
          · rw [ConsElem.variables, Finset.mem_singleton] at hv
            exact absurd (hv ▸ hwch) hvc
  · rw [if_neg hsat]
    have heq := satisfyConstraintG_eq_fold K i q ch hR
    rcases satisfyFoldLow K ((K.getD i cdef).lhs.variables.sort (· ≤ ·)) q ch
      (Finset.sort_nodup _ _) with ⟨h2, h1, hnd, _⟩
    rw [heq]
    refine ⟨?_, fun j => ?_, hnd⟩
    · rw [h2]
      congr 1
      ext x
      simp [Finset.mem_sort]
    · rw [h1 j]
      simp only [Finset.mem_sort]

theorem processGreatest_measure (K : List LHConstraint) (i : Nat)
    (q : List Nat) (ch : Finset Nat) (hnd : q.Nodup)
    (hqr : ∀ j ∈ q, j < K.length) (hch : ch ⊆ allVarsK K) :
    solveMeasure K (LHConsSoln.processGreatest K i (q, ch)) <
      solveMeasure K (q, ch) + 1 := by
  by_cases hi : i < K.length
  · by_cases hR : substW .high ch (K.getD i cdef).rhs = .low
    · rcases processGreatest_spec_low K i q ch hR with ⟨h2, h1, hndres⟩
      by_cases hall : (K.getD i cdef).lhs.variables ⊆ ch
      · -- no new variable: the sets agree, only the queue may have grown;
        -- in fact nothing is enqueued either, because every invalidating
        -- variable was already changed
        have hq : ∀ j, j ∈ (LHConsSoln.processGreatest K i (q, ch)).1 ↔ j ∈ q := by
          intro j
          rw [h1 j]
          constructor
          · rintro (hj | ⟨v, hv, hvc, _⟩)
            · exact hj
            · exact absurd (hall hv) hvc
          · exact Or.inl
        have hlen : (LHConsSoln.processGreatest K i (q, ch)).1.length ≤ K.length := by
          apply nodup_length_le _ _ (hndres hnd)
          intro j hj
          exact hqr j ((hq j).mp hj)
        have hset : (LHConsSoln.processGreatest K i (q, ch)).2 = ch := by
          rw [h2]
          exact Finset.union_eq_left.mpr hall
        -- the queue can only have grown by re-enqueued constraints, but the
        -- membership characterization shows nothing was added, and the queue
        -- never holds duplicates, so its length did not grow
        have hlen2 : (LHConsSoln.processGreatest K i (q, ch)).1.length ≤ q.length := by
          have hndr := hndres hnd
          calc (LHConsSoln.processGreatest K i (q, ch)).1.length
              = (LHConsSoln.processGreatest K i (q, ch)).1.toFinset.card :=
                (List.toFinset_card_of_nodup hndr).symm
            _ ≤ q.toFinset.card := by
                apply Finset.card_le_card
                intro x hx
                rw [List.mem_toFinset] at hx ⊢
                exact (hq x).mp hx
            _ = q.length := List.toFinset_card_of_nodup hnd
        rw [solveMeasure, solveMeasure, hset]
        have e3 : (q, ch).2 = ch := rfl
        have e4 : (q, ch).1 = q := rfl
        rw [e3, e4]
        omega
      · rcases Finset.not_subset.mp hall with ⟨v0, hv0m, hv0c⟩
        have hvars : (K.getD i cdef).lhs.variables ⊆ allVarsK K := by
          intro x hx
          exact subset_allVarsK (getD_mem_of_lt hi) (Finset.mem_union_left _ hx)
        have hcard : (allVarsK K \ (ch ∪ (K.getD i cdef).lhs.variables)).card + 1 ≤
            (allVarsK K \ ch).card := by
          have hss : allVarsK K \ (ch ∪ (K.getD i cdef).lhs.variables) ⊂
              allVarsK K \ ch := by
            constructor
            · intro x hx
              rw [Finset.mem_sdiff] at hx ⊢
              exact ⟨hx.1, fun hc => hx.2 (Finset.mem_union_left _ hc)⟩
            · intro hcon
              have : v0 ∈ allVarsK K \ ch := Finset.mem_sdiff.mpr ⟨hvars hv0m, hv0c⟩
              have := hcon this
              rw [Finset.mem_sdiff] at this
              exact this.2 (Finset.mem_union_right _ hv0m)
          exact Nat.succ_le_of_lt (Finset.card_lt_card hss)
        have hlen : (LHConsSoln.processGreatest K i (q, ch)).1.length ≤ K.length := by
          apply nodup_length_le _ _ (hndres hnd)
          intro j hj
          rcases (h1 j).mp hj with hq | ⟨w, _, _, hw⟩
          · exact hqr j hq
          · exact ((mem_invalidIfDecreased K w j).mp hw).1
        rw [solveMeasure, solveMeasure, h2]
        have e1 : ((allVarsK K \ (ch ∪ (K.getD i cdef).lhs.variables)).card + 1) *
            (K.length + 1) ≤ (allVarsK K \ ch).card * (K.length + 1) :=
          Nat.mul_le_mul_right _ hcard
        have e2 : ((allVarsK K \ (ch ∪ (K.getD i cdef).lhs.variables)).card + 1) *
            (K.length + 1) = (allVarsK K \ (ch ∪ (K.getD i cdef).lhs.variables)).card *
            (K.length + 1) + (K.length + 1) := by ring
        have e3 : (q, ch).2 = ch := rfl
        have e4 : (q, ch).1 = q := rfl
        rw [e3, e4]
        omega
    · rw [processGreatest_of_not_low K i q ch hR]
      exact Nat.lt_succ_self _
  · -- out of range: the placeholder constraint is `L ⊑ L`, which is satisfied
    rw [LHConsSoln.processGreatest]
    simp only
    rw [List.getD_eq_default _ _ (Nat.le_of_not_lt hi)]
    rw [if_pos (by rfl)]
    exact Nat.lt_succ_self _

theorem processGreatest_inv (K : List LHConstraint)
    (pre post : List Nat) (i : Nat) (ch : Finset Nat)
    (hInv : WInvGreatest K (pre ++ i :: post, ch)) :
    WInvGreatest K (LHConsSoln.processGreatest K i (pre ++ post, ch)) := by
  simp only [WInvGreatest] at hInv
  rcases hInv with ⟨hnd0, hidx0, hch0, hsound0, hstable0⟩
  have hi : i < K.length := hidx0 i (by simp)
  have hndq : (pre ++ post).Nodup := by
    have hsub : (pre ++ post).Sublist (pre ++ i :: post) :=
      List.Sublist.append_left (List.sublist_cons_self i post) pre
    exact hnd0.sublist hsub
  have hidxq : ∀ j ∈ pre ++ post, j < K.length := by
    intro j hj
    apply hidx0
    rcases List.mem_append.mp hj with h | h
    · exact List.mem_append.mpr (Or.inl h)
    · exact List.mem_append.mpr (Or.inr (by simp [h]))
  by_cases hR : substW .high ch (K.getD i cdef).rhs = .low
  · rcases processGreatest_spec_low K i (pre ++ post) ch hR with ⟨h2, h1, hndres⟩
    simp only [WInvGreatest]
    refine ⟨hndres hndq, ?_, ?_, ?_, ?_⟩
    · intro j hj
      rcases (h1 j).mp hj with hq | ⟨w, _, _, hw⟩
      · exact hidxq j hq
      · exact ((mem_invalidIfDecreased K w j).mp hw).1
    · rw [h2]
      apply Finset.union_subset hch0
      intro x hx
      exact subset_allVarsK (getD_mem_of_lt hi) (Finset.mem_union_left _ hx)
    · intro v hv
      rw [h2, Finset.mem_union] at hv
      rcases hv with hv | hv
      · exact hsound0 v hv
      · rcases (substW_high_eq_low_iff ch _).mp hR with hconst | ⟨w, hw, hwc⟩
        · exact LfpG.seed _ (getD_mem_of_lt hi) hconst v hv
        · exact LfpG.step w _ (hsound0 w hwc) (getD_mem_of_lt hi) hw v hv
    · intro j hjlen hjq hsub
      by_cases hji : j = i
      · subst hji
        rw [h2]
        exact Finset.subset_union_right
      · have hjq1 : j ∉ pre ++ post := fun hc => hjq ((h1 j).mpr (Or.inl hc))
        have hjq0 : j ∉ pre ++ i :: post := by
          intro hc
          rcases List.mem_append.mp hc with h | h
          · exact hjq1 (List.mem_append.mpr (Or.inl h))
          · rcases List.mem_cons.mp h with rfl | h
            · exact hji rfl
            · exact hjq1 (List.mem_append.mpr (Or.inr h))
        by_cases hold : substW .high ch (K.getD j cdef).rhs = .low
        · have := hstable0 j hjlen hjq0 hold
          rw [h2]
          exact this.trans Finset.subset_union_left
        · exfalso
          rw [h2] at hsub
          rcases (substW_high_eq_low_iff _ _).mp hsub with hconst | ⟨w, hw, hwc⟩
          · exact hold ((substW_high_eq_low_iff _ _).mpr (Or.inl hconst))
          · rcases Finset.mem_union.mp hwc with hwch | hwnew
            · exact hold ((substW_high_eq_low_iff _ _).mpr (Or.inr ⟨w, hw, hwch⟩))
            · by_cases hwc2 : w ∈ ch
              · exact hold ((substW_high_eq_low_iff _ _).mpr (Or.inr ⟨w, hw, hwc2⟩))
              · apply hjq
                apply (h1 j).mpr
                refine Or.inr ⟨w, hwnew, hwc2,
                  (mem_invalidIfDecreased K w j).mpr ⟨hjlen, ?_⟩⟩
                rw [hw]
                simp [ConsElem.variables]
  · rw [processGreatest_of_not_low K i (pre ++ post) ch hR]
    simp only [WInvGreatest]
    refine ⟨hndq, hidxq, hch0, hsound0, ?_⟩
    · intro j hjlen hjq hsub
      by_cases hji : j = i
      · subst hji; exact absurd hsub hR
      · apply hstable0 j hjlen ?_ hsub
        intro hc
        rcases List.mem_append.mp hc with h | h
        · exact hjq (List.mem_append.mpr (Or.inl h))
        · rcases List.mem_cons.mp h with rfl | h
          · exact hji rfl
          · exact hjq (List.mem_append.mpr (Or.inr h))

theorem terminal_greatest (K : List LHConstraint) (ch : Finset Nat)
    (hInv : WInvGreatest K ([], ch)) : ∀ v, v ∈ ch ↔ LfpG K v := by
  simp only [WInvGreatest] at hInv
  rcases hInv with ⟨_, _, _, hsound, hstable⟩
  intro v
  constructor
  · exact hsound v
  · intro hlfp
    induction hlfp with
    | seed c hc hconst v hv =>
        rcases exists_index_of_mem hc with ⟨i, hi, rfl⟩
        exact hstable i hi (by simp)
          ((substW_high_eq_low_iff _ _).mpr (Or.inl hconst)) hv
    | step w c _ hc hw v hv ihw =>
        rcases exists_index_of_mem hc with ⟨i, hi, rfl⟩
        exact hstable i hi (by simp)
          ((substW_high_eq_low_iff _ _).mpr (Or.inr ⟨w, hw, ihw⟩)) hv

theorem solveLoopGreatest_spec (K : List LHConstraint) :
    ∀ (n : Nat) (st : List Nat × Finset Nat), WInvGreatest K st →
    solveMeasure K st < n →
    ∀ v, v ∈ LHConsSoln.solveLoopGreatest K n st ↔ LfpG K v := by
  intro n
  induction n with
  | zero => intro st _ hm; exact absurd hm (by omega)
  | succ n ih =>
      intro st hInv hm
      match st with
      | ([], ch) =>
          rw [LHConsSoln.solveLoopGreatest]
          exact terminal_greatest K ch hInv
      | (i :: q, ch) =>
          rw [LHConsSoln.solveLoopGreatest]
          apply ih
          · exact processGreatest_inv K [] q i ch hInv
          · have h1 := processGreatest_measure K i q ch
              (by
                have := hInv.1
                exact (List.nodup_cons.mp this).2)
              (fun j hj => hInv.2.1 j (by simp [hj]))
              hInv.2.2.1
            have h2 : solveMeasure K (q, ch) + 1 = solveMeasure K (i :: q, ch) := by
              simp only [solveMeasure, List.length_cons]
              omega
            omega

theorem solve_greatest_eq_lfp (K : List LHConstraint) :
    ∀ v, v ∈ LHConsGreatestSoln.solve K ↔ LfpG K v := by
  have hstart : WInvGreatest K (solveStart K) := by
    rw [solveStart_queue]
    simp only [WInvGreatest]
    refine ⟨List.nodup_range _, ?_, ?_, ?_, ?_⟩
    · intro i hi; exact List.mem_range.mp hi
    · intro x hx; exact absurd hx (Finset.not_mem_empty x)
    · intro v hv; exact absurd hv (Finset.not_mem_empty v)
    · intro i hi hq _
      exact absurd (List.mem_range.mpr hi) hq
  have hfuel : solveMeasure K (solveStart K) < solveFuel K := by
    rw [solveStart_queue]
    rw [solveMeasure, solveFuel]
    have h1 : (allVarsK K \ (∅ : Finset Nat)).card ≤ (allVarsK K).card := by
      apply Finset.card_le_card
      intro x hx
      exact (Finset.mem_sdiff.mp hx).1
    have h2 : (List.range K.length).length = K.length := List.length_range _
    have h3 : (allVarsK K \ (∅ : Finset Nat)).card * (K.length + 1) ≤
        (allVarsK K).card * (K.length + 1) := Nat.mul_le_mul_right _ h1
    have h4 : ((allVarsK K).card + 1) * (K.length + 1) =
        (allVarsK K).card * (K.length + 1) + (K.length + 1) := by ring
    simp only [h2]
    omega
  intro v
  rw [LHConsGreatestSoln.solve]
  exact solveLoopGreatest_spec K (solveFuel K) (solveStart K) hstart hfuel v

/-! ## Propagation solver: helpers -/

theorem mem_targets (E : List (Nat × Nat)) (v t : Nat) :
    t ∈ PSObj.targets E v ↔ (v, t) ∈ E := by
  simp only [PSObj.targets, List.mem_map, List.mem_filter]
  constructor
  · rintro ⟨⟨a, b⟩, ⟨hm, hv⟩, rfl⟩
    simp only [decide_eq_true_eq] at hv
    exact hv ▸ hm
  · intro h
    exact ⟨(v, t), ⟨h, by simp⟩, rfl⟩

theorem mem_edges_foldr : ∀ (l : List PSObj) (e : Nat × Nat),
    e ∈ l.foldr (fun o acc => o.edges ++ acc) [] ↔ ∃ o ∈ l, e ∈ o.edges := by
  intro l
  induction l with
  | nil => simp
  | cons o os ih => intro e; simp [List.foldr, ih]

theorem mem_vset_foldr : ∀ (l : List PSObj) (x : Nat),
    x ∈ l.foldr (fun o acc => o.vset ∪ acc) (∅ : Finset Nat) ↔
      ∃ o ∈ l, x ∈ o.vset := by
  intro l
  induction l with
  | nil => simp
  | cons o os ih => intro x; simp [List.foldr, ih, Finset.mem_union]

theorem mem_allEdges (S : MSol) (e : Nat × Nat) :
    e ∈ S.allEdges ↔ ∃ o ∈ S.chained, e ∈ o.edges :=
  mem_edges_foldr _ e

theorem mem_unionV (S : MSol) (x : Nat) :
    x ∈ S.unionV ↔ ∃ o ∈ S.chained, x ∈ o.vset :=
  mem_vset_foldr _ x

theorem mem_othersV (S : MSol) (x : Nat) :
    x ∈ S.othersV ↔ ∃ o ∈ S.others, x ∈ o.vset :=
  mem_vset_foldr _ x

theorem isChangedWith_iff (S : MSol) (V : Finset Nat) (t : Nat) :
    S.isChangedWith V t = true ↔ t ∈ V ∪ S.othersV := by
  rw [MSol.isChangedWith]
  simp only [Bool.or_eq_true, decide_eq_true_eq, List.any_eq_true, Finset.mem_union]
  rw [mem_othersV]

theorem unionV_eq (S : MSol) : S.unionV = S.self.vset ∪ S.othersV := by
  ext x
  rw [mem_unionV, Finset.mem_union, mem_othersV]
  simp [MSol.chained]

theorem mem_targetUniv {S : MSol} {v t : Nat} (h : (v, t) ∈ S.allEdges) :
    t ∈ S.targetUniv := by
  rw [MSol.targetUniv]
  simp only [List.mem_toFinset, List.mem_map]
  exact ⟨(v, t), h, rfl⟩

theorem EReach_mono_seed {E : List (Nat × Nat)} {S0 S1 : Finset Nat}
    (h : ∀ x ∈ S0, EReach E S1 x) : ∀ x, EReach E S0 x → EReach E S1 x := by
  intro x hx
  induction hx with
  | base v hv => exact h v hv
  | step u v _ he ihu => exact EReach.step u v ihu he

theorem EReach_closed {E : List (Nat × Nat)} {S0 : Finset Nat}
    (T : Finset Nat) (hbase : S0 ⊆ T)
    (hstep : ∀ u t, u ∈ T → (u, t) ∈ E → t ∈ T) :
    ∀ x, EReach E S0 x → x ∈ T := by
  intro x hx
  induction hx with
  | base v hv => exact hbase hv
  | step u v _ he ihu => exact hstep u v ihu he

theorem pushTargets_spec (S : MSol) :
    ∀ (ts : List Nat) (wl : List Nat) (V : Finset Nat),
    (V ⊆ (ts.foldl (fun st t => if S.isChangedWith st.2 t then st
        else (st.1 ++ [t], insert t st.2)) (wl, V)).2) ∧
    (∀ x ∈ (ts.foldl (fun st t => if S.isChangedWith st.2 t then st
        else (st.1 ++ [t], insert t st.2)) (wl, V)).2, x ∈ V ∨ x ∈ ts) ∧
    (∀ t ∈ ts, t ∈ (ts.foldl (fun st t => if S.isChangedWith st.2 t then st
        else (st.1 ++ [t], insert t st.2)) (wl, V)).2 ∪ S.othersV) ∧
    (∃ ext, (ts.foldl (fun st t => if S.isChangedWith st.2 t then st
        else (st.1 ++ [t], insert t st.2)) (wl, V)).1 = wl ++ ext ∧
      (∀ x ∈ ext, x ∈ (ts.foldl (fun st t => if S.isChangedWith st.2 t then st
        else (st.1 ++ [t], insert t st.2)) (wl, V)).2) ∧
      (∀ x ∈ (ts.foldl (fun st t => if S.isChangedWith st.2 t then st
        else (st.1 ++ [t], insert t st.2)) (wl, V)).2, x ∈ V ∨ x ∈ ext)) ∧
    (∀ (U : Finset Nat), (∀ t ∈ ts, t ∈ U) →
      (ts.foldl (fun st t => if S.isChangedWith st.2 t then st
        else (st.1 ++ [t], insert t st.2)) (wl, V)).1.length +
        (U \ ((ts.foldl (fun st t => if S.isChangedWith st.2 t then st
          else (st.1 ++ [t], insert t st.2)) (wl, V)).2 ∪ S.othersV)).card ≤
      wl.length + (U \ (V ∪ S.othersV)).card) := by
  intro ts
  induction ts with
  | nil =>
      intro wl V
      refine ⟨by intro x hx; exact hx, ?_, by simp,
        ⟨[], by simp, by simp, fun x hx => Or.inl hx⟩, ?_⟩
      · intro x hx; exact Or.inl hx
      · intro U _; simp
  | cons t ts ih =>
      intro wl V
      rw [List.foldl_cons]
      by_cases hc : S.isChangedWith V t = true
      · rw [if_pos hc]
        rcases ih wl V with ⟨h1, h2, h3, h4, h5⟩
        refine ⟨h1, ?_, ?_, h4, ?_⟩
        · intro x hx
          rcases h2 x hx with hx | hx
          · exact Or.inl hx
          · exact Or.inr (by simp [hx])
        · intro u hu
          rcases List.mem_cons.mp hu with rfl | hu
          · rw [isChangedWith_iff] at hc
            rcases Finset.mem_union.mp hc with h | h
            · exact Finset.mem_union_left _ (h1 h)
            · exact Finset.mem_union_right _ h
          · exact h3 u hu
        · intro U hU
          exact h5 U (fun u hu => hU u (by simp [hu]))
      · rw [if_neg hc]
        rcases ih (wl ++ [t]) (insert t V) with ⟨h1, h2, h3, h4, h5⟩
        have hV : V ⊆ insert t V := Finset.subset_insert _ _
        refine ⟨fun x hx => h1 (hV hx), ?_, ?_, ?_, ?_⟩
        · intro x hx
          rcases h2 x hx with hx | hx
          · rcases Finset.mem_insert.mp hx with rfl | hx
            · exact Or.inr (by simp)
            · exact Or.inl hx
          · exact Or.inr (by simp [hx])
        · intro u hu
          rcases List.mem_cons.mp hu with rfl | hu
          · exact Finset.mem_union_left _ (h1 (Finset.mem_insert_self u V))
          · exact h3 u hu
        · rcases h4 with ⟨ext, hext, hmem, hrev⟩
          refine ⟨t :: ext, by simp [hext], ?_, ?_⟩
          · intro x hx
            rcases List.mem_cons.mp hx with rfl | hx
            · exact h1 (Finset.mem_insert_self x V)
            · exact hmem x hx
          · intro x hx
            rcases hrev x hx with hx | hx
            · rcases Finset.mem_insert.mp hx with rfl | hx
              · exact Or.inr (by simp)
              · exact Or.inl hx
            · exact Or.inr (by simp [hx])
        · intro U hU
          have htU : t ∈ U := hU t (by simp)
          have htV : t ∉ V ∪ S.othersV := by
            intro hcon
            exact hc ((isChangedWith_iff S V t).mpr hcon)
          have hins : insert t V ∪ S.othersV = insert t (V ∪ S.othersV) := by
            ext x
            simp only [Finset.mem_union, Finset.mem_insert]
            tauto
          have hdiff : U \ (insert t V ∪ S.othersV) = (U \ (V ∪ S.othersV)).erase t := by
            rw [hins]
            ext x
            simp only [Finset.mem_sdiff, Finset.mem_erase, Finset.mem_insert]
            tauto
          have hcd : (U \ (insert t V ∪ S.othersV)).card =
              (U \ (V ∪ S.othersV)).card - 1 := by
            rw [hdiff]
            exact Finset.card_erase_of_mem (Finset.mem_sdiff.mpr ⟨htU, htV⟩)
          have hpos : 1 ≤ (U \ (V ∪ S.othersV)).card :=
            Finset.card_pos.mpr ⟨t, Finset.mem_sdiff.mpr ⟨htU, htV⟩⟩
          have h5' := h5 U (fun u hu => hU u (by simp [hu]))
          rw [hcd] at h5'
          simp only [List.length_append, List.length_singleton] at h5'
          have ee : (ts.foldl (fun st t => if S.isChangedWith st.2 t then st
              else (st.1 ++ [t], insert t st.2)) ((wl, V).1 ++ [t], insert t (wl, V).2)) =
              (ts.foldl (fun st t => if S.isChangedWith st.2 t then st
              else (st.1 ++ [t], insert t st.2)) (wl ++ [t], insert t V)) := rfl
          rw [ee]
          omega

theorem visitFold_spec (S : MSol) (v : Nat) :
    ∀ (Es : List (List (Nat × Nat))) (wl : List Nat) (V : Finset Nat),
    (∀ E ∈ Es, ∀ t, (v, t) ∈ E → (v, t) ∈ S.allEdges) →
    (V ⊆ (Es.foldl (fun st E => (PSObj.targets E v).foldl
        (fun st t => if S.isChangedWith st.2 t then st
          else (st.1 ++ [t], insert t st.2)) st) (wl, V)).2) ∧
    (∀ x ∈ (Es.foldl (fun st E => (PSObj.targets E v).foldl
        (fun st t => if S.isChangedWith st.2 t then st
          else (st.1 ++ [t], insert t st.2)) st) (wl, V)).2,
      x ∈ V ∨ (v, x) ∈ S.allEdges) ∧
    (∀ E ∈ Es, ∀ t, (v, t) ∈ E →
      t ∈ (Es.foldl (fun st E => (PSObj.targets E v).foldl
        (fun st t => if S.isChangedWith st.2 t then st
          else (st.1 ++ [t], insert t st.2)) st) (wl, V)).2 ∪ S.othersV) ∧
    (∃ ext, (Es.foldl (fun st E => (PSObj.targets E v).foldl
        (fun st t => if S.isChangedWith st.2 t then st
          else (st.1 ++ [t], insert t st.2)) st) (wl, V)).1 = wl ++ ext ∧
      (∀ x ∈ ext, x ∈ (Es.foldl (fun st E => (PSObj.targets E v).foldl
        (fun st t => if S.isChangedWith st.2 t then st
          else (st.1 ++ [t], insert t st.2)) st) (wl, V)).2) ∧
      (∀ x ∈ (Es.foldl (fun st E => (PSObj.targets E v).foldl
        (fun st t => if S.isChangedWith st.2 t then st
          else (st.1 ++ [t], insert t st.2)) st) (wl, V)).2, x ∈ V ∨ x ∈ ext)) ∧
    ((Es.foldl (fun st E => (PSObj.targets E v).foldl
        (fun st t => if S.isChangedWith st.2 t then st
          else (st.1 ++ [t], insert t st.2)) st) (wl, V)).1.length +
      (S.targetUniv \ ((Es.foldl (fun st E => (PSObj.targets E v).foldl
        (fun st t => if S.isChangedWith st.2 t then st
          else (st.1 ++ [t], insert t st.2)) st) (wl, V)).2 ∪ S.othersV)).card ≤
      wl.length + (S.targetUniv \ (V ∪ S.othersV)).card) := by
  intro Es
  induction Es with
  | nil =>
      intro wl V _
      exact ⟨fun x hx => hx, fun x hx => Or.inl hx, by simp,
        ⟨[], by simp, by simp, fun x hx => Or.inl hx⟩, le_refl _⟩
  | cons E Es ih =>
      intro wl V hE
      rw [List.foldl_cons]
      rcases pushTargets_spec S (PSObj.targets E v) wl V with ⟨p1, p2, p3, p4, p5⟩
      set st1 := (PSObj.targets E v).foldl (fun st t => if S.isChangedWith st.2 t then st
          else (st.1 ++ [t], insert t st.2)) (wl, V) with hst1
      have hE0 : ∀ t, (v, t) ∈ E → (v, t) ∈ S.allEdges := hE E (by simp)
      have hEs : ∀ E' ∈ Es, ∀ t, (v, t) ∈ E' → (v, t) ∈ S.allEdges :=
        fun E' hE' => hE E' (by simp [hE'])
      have hee : st1 = (st1.1, st1.2) := rfl
      rcases ih st1.1 st1.2 hEs with ⟨q1, q2, q3, q4, q5⟩
      rw [← hee] at q1 q2 q3 q4 q5
      refine ⟨fun x hx => q1 (p1 hx), ?_, ?_, ?_, ?_⟩
      · intro x hx
        rcases q2 x hx with hx | hx
        · rcases p2 x hx with hx | hx
          · exact Or.inl hx
          · exact Or.inr (hE0 x ((mem_targets E v x).mp hx))
        · exact Or.inr hx
      · intro E' hE' t ht
        rcases List.mem_cons.mp hE' with rfl | hE'
        · rcases Finset.mem_union.mp (p3 t ((mem_targets E' v t).mpr ht)) with h | h
          · exact Finset.mem_union_left _ (q1 h)
          · exact Finset.mem_union_right _ h
        · exact q3 E' hE' t ht
      · rcases p4 with ⟨ext1, hext1, hm1, hr1⟩
        rcases q4 with ⟨ext2, hext2, hm2, hr2⟩
        refine ⟨ext1 ++ ext2, ?_, ?_, ?_⟩
        · rw [hext2, hext1, List.append_assoc]
        · intro x hx
          rcases List.mem_append.mp hx with hx | hx
          · exact q1 (hm1 x hx)
          · exact hm2 x hx
        · intro x hx
          rcases hr2 x hx with hx | hx
          · rcases hr1 x hx with hx | hx
            · exact Or.inl hx
            · exact Or.inr (List.mem_append.mpr (Or.inl hx))
          · exact Or.inr (List.mem_append.mpr (Or.inr hx))
      · have p5' := p5 S.targetUniv (fun t ht =>
          mem_targetUniv (hE0 t ((mem_targets E v t).mp ht)))
        omega

theorem propagateVisit_spec (S : MSol) (v : Nat) (wl : List Nat) (V : Finset Nat) :
    (V ⊆ (S.propagateVisit v (wl, V)).2) ∧
    (∀ x ∈ (S.propagateVisit v (wl, V)).2, x ∈ V ∨ (v, x) ∈ S.allEdges) ∧
    (∀ t, (v, t) ∈ S.allEdges → t ∈ (S.propagateVisit v (wl, V)).2 ∪ S.othersV) ∧
    (∃ ext, (S.propagateVisit v (wl, V)).1 = wl ++ ext ∧
      (∀ x ∈ ext, x ∈ (S.propagateVisit v (wl, V)).2) ∧
      (∀ x ∈ (S.propagateVisit v (wl, V)).2, x ∈ V ∨ x ∈ ext)) ∧
    ((S.propagateVisit v (wl, V)).1.length +
      (S.targetUniv \ ((S.propagateVisit v (wl, V)).2 ∪ S.othersV)).card ≤
      wl.length + (S.targetUniv \ (V ∪ S.othersV)).card) := by
  have hEs : ∀ E ∈ (S.self.edges :: S.others.map PSObj.edges), ∀ t,
      (v, t) ∈ E → (v, t) ∈ S.allEdges := by
    intro E hE t ht
    rw [mem_allEdges]
    rcases List.mem_cons.mp hE with rfl | hE
    · exact ⟨S.self, by simp [MSol.chained], ht⟩
    · rcases List.mem_map.mp hE with ⟨o, ho, rfl⟩
      exact ⟨o, by simp [MSol.chained, ho], ht⟩
  have hcover : ∀ u t, (u, t) ∈ S.allEdges →
      ∃ E ∈ (S.self.edges :: S.others.map PSObj.edges), (u, t) ∈ E := by
    intro u t h
    rw [mem_allEdges] at h
    rcases h with ⟨o, ho, hm⟩
    rw [MSol.chained] at ho
    rcases List.mem_cons.mp ho with rfl | ho
    · exact ⟨S.self.edges, by simp, hm⟩
    · refine ⟨o.edges, ?_, hm⟩
      simp only [List.mem_cons, List.mem_map]
      exact Or.inr ⟨o, ho, rfl⟩
  rcases visitFold_spec S v (S.self.edges :: S.others.map PSObj.edges) wl V hEs with
    ⟨h1, h2, h3, h4, h5⟩
  rw [MSol.propagateVisit]
  refine ⟨h1, h2, ?_, h4, h5⟩
  intro t ht
  rcases hcover v t ht with ⟨E, hE, hm⟩
  exact h3 E hE t hm

theorem propagateLoop_spec (S : MSol) (S0 : Finset Nat) :
    ∀ (n : Nat) (wl : List Nat) (V : Finset Nat),
    (∀ x ∈ wl, x ∈ V ∪ S.othersV) →
    (∀ x ∈ V ∪ S.othersV, EReach S.allEdges S0 x) →
    (S0 ⊆ V ∪ S.othersV) →
    (∀ x ∈ V ∪ S.othersV, x ∈ wl ∨ ∀ t, (x, t) ∈ S.allEdges → t ∈ V ∪ S.othersV) →
    (wl.length + (S.targetUniv \ (V ∪ S.othersV)).card < n) →
    ∀ x, x ∈ S.propagateLoop n wl V ∪ S.othersV ↔ EReach S.allEdges S0 x := by
  intro n
  induction n with
  | zero => intro wl V _ _ _ _ hf; exact absurd hf (by omega)
  | succ n ih =>
      intro wl V hwl hsound hseed hpend hf
      match wl with
      | [] =>
          rw [MSol.propagateLoop]
          intro x
          constructor
          · intro hx; exact hsound x hx
          · apply EReach_closed _ hseed
            intro u t hu he
            rcases hpend u hu with hc | hc
            · cases hc
            · exact hc t he
      | v :: wl =>
          rw [MSol.propagateLoop]
          rcases propagateVisit_spec S v wl V with ⟨h1, h2, h3, ⟨ext, hext, hm, hrev⟩, h5⟩
          have hvV : v ∈ V ∪ S.othersV := hwl v (by simp)
          apply ih
          · -- worklist elements are changed
            intro x hx
            rw [hext] at hx
            rcases List.mem_append.mp hx with hx | hx
            · rcases Finset.mem_union.mp (hwl x (by simp [hx])) with h | h
              · exact Finset.mem_union_left _ (h1 h)
              · exact Finset.mem_union_right _ h
            · exact Finset.mem_union_left _ (hm x hx)
          · -- soundness
            intro x hx
            rcases Finset.mem_union.mp hx with hx | hx
            · rcases h2 x hx with hx | hx
              · exact hsound x (Finset.mem_union_left _ hx)
              · exact EReach.step v x (hsound v hvV) hx
            · exact hsound x (Finset.mem_union_right _ hx)
          · intro x hx
            rcases Finset.mem_union.mp (hseed hx) with h | h
            · exact Finset.mem_union_left _ (h1 h)
            · exact Finset.mem_union_right _ h
          · -- pending: every changed variable is still queued or closed
            intro x hx
            by_cases hxv : x = v
            · subst hxv
              right
              intro t ht
              exact h3 t ht
            · have hold : x ∈ V ∪ S.othersV →
                  (x ∈ (S.propagateVisit v (wl, V)).1 ∨
                   ∀ t, (x, t) ∈ S.allEdges → t ∈ (S.propagateVisit v (wl, V)).2 ∪ S.othersV) := by
                intro hxo
                rcases hpend x hxo with hc | hc
                · rcases List.mem_cons.mp hc with rfl | hc
                  · exact absurd rfl hxv
                  · left
                    rw [hext]
                    exact List.mem_append.mpr (Or.inl hc)
                · right
                  intro t ht
                  rcases Finset.mem_union.mp (hc t ht) with h | h
                  · exact Finset.mem_union_left _ (h1 h)
                  · exact Finset.mem_union_right _ h
              rcases Finset.mem_union.mp hx with hxm | hxm
              · rcases hrev x hxm with hxV | hxe
                · exact hold (Finset.mem_union_left _ hxV)
                · left
                  rw [hext]
                  exact List.mem_append.mpr (Or.inr hxe)
              · exact hold (Finset.mem_union_right _ hxm)
          · -- fuel
            have hb : (v :: wl).length = wl.length + 1 := rfl
            omega

theorem mem_wl_foldr : ∀ (l : List PSObj) (x : Nat),
    x ∈ l.foldr (fun o acc => o.vset.sort (· ≤ ·) ++ acc) [] ↔
      ∃ o ∈ l, x ∈ o.vset := by
  intro l
  induction l with
  | nil => simp
  | cons o os ih =>
      intro x
      simp [List.foldr, List.mem_append, Finset.mem_sort, ih]

theorem propagate_othersV (S : MSol) : (S.propagate).othersV = S.othersV := rfl

theorem propagate_allEdges (S : MSol) : (S.propagate).allEdges = S.allEdges := rfl

theorem propagate_initial (S : MSol) : (S.propagate).initial = S.initial := rfl

theorem propagate_unionV (S : MSol) :
    ∀ x, x ∈ (S.propagate).unionV ↔ EReach S.allEdges S.unionV x := by
  intro x
  have hwl0 : ∀ y, y ∈ S.chained.foldr (fun o acc => o.vset.sort (· ≤ ·) ++ acc) [] ↔
      y ∈ S.unionV := by
    intro y
    rw [mem_wl_foldr, mem_unionV]
  have hU : S.unionV = S.self.vset ∪ S.othersV := unionV_eq S
  have hres : (S.propagate).unionV =
      (S.propagateLoop (S.propagateFuel +
        (S.chained.foldr (fun o acc => o.vset.sort (· ≤ ·) ++ acc) []).length)
        (S.chained.foldr (fun o acc => o.vset.sort (· ≤ ·) ++ acc) [])
        S.self.vset) ∪ S.othersV := by
    rw [unionV_eq]
    rfl
  rw [hres]
  apply propagateLoop_spec S S.unionV
  · intro y hy
    rw [← hU]
    exact (hwl0 y).mp hy
  · intro y hy
    rw [← hU] at hy
    exact EReach.base y hy
  · rw [← hU]
  · intro y hy
    left
    rw [hwl0 y, hU]
    exact hy
  · have hcard : (S.targetUniv \ (S.self.vset ∪ S.othersV)).card ≤ S.allEdges.length := by
      calc (S.targetUniv \ (S.self.vset ∪ S.othersV)).card ≤ S.targetUniv.card :=
            Finset.card_le_card (fun y hy => (Finset.mem_sdiff.mp hy).1)
        _ ≤ (S.allEdges.map (fun p => p.2)).length := List.toFinset_card_le _
        _ = S.allEdges.length := List.length_map _ _
    have hfuel : S.allEdges.length < S.propagateFuel := by
      rw [MSol.propagateFuel]
      omega
    omega

/-! ## `PartialSolution::initialize` characterization -/

theorem buildStep_edges (initial : Bool) (o : PSObj) (c : LHConstraint) (u t : Nat) :
    (u, t) ∈ (PSObj.buildStep initial o c).edges ↔
      (u, t) ∈ o.edges ∨
      (u ∈ (if initial then c.rhs else c.lhs).variables ∧
       t ∈ (if initial then c.lhs else c.rhs).variables) := by
  rw [PSObj.buildStep]
  by_cases hts : (if initial then c.lhs else c.rhs).variables = ∅
  · rw [if_pos hts]
    simp [hts]
  · rw [if_neg hts]
    simp only [List.mem_append, List.mem_flatMap, List.mem_map, Finset.mem_sort]
    constructor
    · rintro (h | ⟨a, ha, b, hb, hab⟩)
      · exact Or.inl h
      · cases hab
        exact Or.inr ⟨ha, hb⟩
    · rintro (h | ⟨hu, ht⟩)
      · exact Or.inl h
      · exact Or.inr ⟨u, hu, t, ht, rfl⟩

theorem buildStep_vset_mono (initial : Bool) (o : PSObj) (c : LHConstraint) :
    o.vset ⊆ (PSObj.buildStep initial o c).vset := by
  rw [PSObj.buildStep]
  by_cases hts : (if initial then c.lhs else c.rhs).variables = ∅
  · rw [if_pos hts]
  · rw [if_neg hts]
    by_cases hs : (if initial then
        decide (substP initial o.vset (if initial then c.rhs else c.lhs) = .low)
      else !(decide (substP initial o.vset (if initial then c.rhs else c.lhs) = .low))) = true
    · simp only [hs, if_true]
      exact Finset.subset_union_left
    · simp only [hs]
      simp

theorem build_foldl_vset_mono (initial : Bool) :
    ∀ (K : List LHConstraint) (o : PSObj),
    o.vset ⊆ (K.foldl (PSObj.buildStep initial) o).vset := by
  intro K
  induction K with
  | nil => intro o; exact fun x hx => hx
  | cons c cs ih =>
      intro o
      rw [List.foldl_cons]
      exact (buildStep_vset_mono initial o c).trans (ih _)

theorem build_foldl_edges (initial : Bool) :
    ∀ (K : List LHConstraint) (o : PSObj) (u t : Nat),
    (u, t) ∈ (K.foldl (PSObj.buildStep initial) o).edges ↔
      (u, t) ∈ o.edges ∨ ∃ c ∈ K,
        u ∈ (if initial then c.rhs else c.lhs).variables ∧
        t ∈ (if initial then c.lhs else c.rhs).variables := by
  intro K
  induction K with
  | nil => intro o u t; simp
  | cons c cs ih =>
      intro o u t
      rw [List.foldl_cons, ih, buildStep_edges]
      constructor
      · rintro ((h | h) | ⟨c', hc', h⟩)
        · exact Or.inl h
        · exact Or.inr ⟨c, by simp, h⟩
        · exact Or.inr ⟨c', by simp [hc'], h⟩
      · rintro (h | ⟨c', hc', h⟩)
        · exact Or.inl (Or.inl h)
        · rcases List.mem_cons.mp hc' with rfl | hc'
          · exact Or.inl (Or.inr h)
          · exact Or.inr ⟨c', hc', h⟩

theorem buildStep_vset_mem (initial : Bool) (o : PSObj) (c : LHConstraint) :
    ∀ x ∈ (PSObj.buildStep initial o c).vset, x ∈ o.vset ∨
      ((if initial then decide (substP initial o.vset (if initial then c.rhs else c.lhs) = .low)
        else !(decide (substP initial o.vset (if initial then c.rhs else c.lhs) = .low))) = true ∧
       x ∈ (if initial then c.lhs else c.rhs).variables) := by
  intro x hx
  rw [PSObj.buildStep] at hx
  by_cases hts : (if initial then c.lhs else c.rhs).variables = ∅
  · rw [if_pos hts] at hx
    exact Or.inl hx
  · rw [if_neg hts] at hx
    by_cases hs : (if initial then
        decide (substP initial o.vset (if initial then c.rhs else c.lhs) = .low)
      else !(decide (substP initial o.vset (if initial then c.rhs else c.lhs) = .low))) = true
    · simp only [hs, if_true] at hx
      rcases Finset.mem_union.mp hx with hx | hx
      · exact Or.inl hx
      · exact Or.inr ⟨hs, hx⟩
    · simp only [hs] at hx
      simp at hx
      exact Or.inl hx

theorem buildStep_vset_seeded (initial : Bool) (o : PSObj) (c : LHConstraint)
    (hs : (if initial then decide (substP initial o.vset (if initial then c.rhs else c.lhs) = .low)
        else !(decide (substP initial o.vset (if initial then c.rhs else c.lhs) = .low))) = true) :
    ∀ x ∈ (if initial then c.lhs else c.rhs).variables,
      x ∈ (PSObj.buildStep initial o c).vset := by
  intro x hx
  rw [PSObj.buildStep]
  have hts : (if initial then c.lhs else c.rhs).variables ≠ ∅ := by
    intro hcon
    rw [hcon] at hx
    exact absurd hx (Finset.not_mem_empty x)
  rw [if_neg hts]
  simp only [hs, if_true]
  exact Finset.mem_union_right _ hx

theorem build_vset_sound_least (K0 : List LHConstraint) :
    ∀ (K : List LHConstraint), (∀ c ∈ K, c ∈ K0) →
    ∀ (o : PSObj), (∀ v ∈ o.vset, LfpL K0 v) →
    ∀ v ∈ (K.foldl (PSObj.buildStep false) o).vset, LfpL K0 v := by
  intro K
  induction K with
  | nil => intro _ o ho v hv; exact ho v hv
  | cons c cs ih =>
      intro hsub o ho
      rw [List.foldl_cons]
      apply ih (fun d hd => hsub d (by simp [hd]))
      intro v hv
      rcases buildStep_vset_mem false o c v hv with hv | ⟨hs, hv⟩
      · exact ho v hv
      · have hs' : ¬ substP false o.vset c.lhs = .low := by simpa using hs
        rw [substP_false_eq_substW] at hs'
        have hhigh : substW .low o.vset c.lhs = .high := by
          rcases substW_low_eq_low_or_high o.vset c.lhs with h | h
          · exact absurd h hs'
          · exact h
        have hv' : v ∈ c.rhs.variables := by simpa using hv
        rcases (substW_low_eq_high_iff _ _).mp hhigh with hh | ⟨w, hw, hwc⟩
        · exact LfpL.seed c (hsub c (by simp)) hh v hv'
        · exact LfpL.step w c (ho w hwc) (hsub c (by simp)) hw v hv'

theorem build_vset_base_least :
    ∀ (K : List LHConstraint) (o : PSObj) (c : LHConstraint), c ∈ K →
    c.lhs.hasHigh = true →
    ∀ v ∈ c.rhs.variables, v ∈ (K.foldl (PSObj.buildStep false) o).vset := by
  intro K
  induction K with
  | nil => intro o c hc; cases hc
  | cons d ds ih =>
      intro o c hc hhigh v hv
      rw [List.foldl_cons]
      rcases List.mem_cons.mp hc with rfl | hc
      · apply build_foldl_vset_mono
        apply buildStep_vset_seeded
        · have heq : substP false o.vset c.lhs = substW .low o.vset c.lhs :=
            substP_false_eq_substW _ _
          simp [heq, (substW_low_eq_high_iff o.vset c.lhs).mpr (Or.inl hhigh)]
        · simpa using hv
      · exact ih _ c hc hhigh v hv

theorem build_vset_sound_greatest (K0 : List LHConstraint) :
    ∀ (K : List LHConstraint), (∀ c ∈ K, c ∈ K0) →
    (∀ c ∈ K, c.rhs.isJoin = false) →
    ∀ (o : PSObj), (∀ v ∈ o.vset, LfpG K0 v) →
    ∀ v ∈ (K.foldl (PSObj.buildStep true) o).vset, LfpG K0 v := by
  intro K
  induction K with
  | nil => intro _ _ o ho v hv; exact ho v hv
  | cons c cs ih =>
      intro hsub hjf o ho
      rw [List.foldl_cons]
      apply ih (fun d hd => hsub d (by simp [hd])) (fun d hd => hjf d (by simp [hd]))
      intro v hv
      rcases buildStep_vset_mem true o c v hv with hv | ⟨hs, hv⟩
      · exact ho v hv
      · have hs' : substP true o.vset c.rhs = .low := by simpa using hs
        have hv' : v ∈ c.lhs.variables := by simpa using hv
        match hrhs : c.rhs with
        | .join l =>
            have := hjf c (by simp)
            rw [hrhs] at this
            simp [ConsElem.isJoin] at this
        | .const c0 =>
            rw [hrhs] at hs'
            rw [substP_true_const] at hs'
            subst hs'
            exact LfpG.seed c (hsub c (by simp)) hrhs v hv'
        | .var w =>
            rw [hrhs] at hs'
            rw [substP_true_var] at hs'
            exact LfpG.step w c (ho w hs') (hsub c (by simp)) hrhs v hv'

theorem build_vset_base_greatest :
    ∀ (K : List LHConstraint) (o : PSObj) (c : LHConstraint), c ∈ K →
    c.rhs = .const .low →
    ∀ v ∈ c.lhs.variables, v ∈ (K.foldl (PSObj.buildStep true) o).vset := by
  intro K
  induction K with
  | nil => intro o c hc; cases hc
  | cons d ds ih =>
      intro o c hc hlow v hv
      rw [List.foldl_cons]
      rcases List.mem_cons.mp hc with rfl | hc
      · apply build_foldl_vset_mono
        apply buildStep_vset_seeded
        · simp [hlow, substP_true_const]
        · simpa using hv
      · exact ih _ c hc hlow v hv

/-! ## Fixed points and the propagation pipeline -/

theorem LfpL_mono {K K' : List LHConstraint} (h : ∀ c ∈ K, c ∈ K') :
    ∀ v, LfpL K v → LfpL K' v := by
  intro v hv
  induction hv with
  | seed c hc hh v hv => exact LfpL.seed c (h c hc) hh v hv
  | step w c _ hc hw v hv ihw => exact LfpL.step w c ihw (h c hc) hw v hv

theorem LfpG_mono {K K' : List LHConstraint} (h : ∀ c ∈ K, c ∈ K') :
    ∀ v, LfpG K v → LfpG K' v := by
  intro v hv
  induction hv with
  | seed c hc hh v hv => exact LfpG.seed c (h c hc) hh v hv
  | step w c _ hc hw v hv ihw => exact LfpG.step w c ihw (h c hc) hw v hv

theorem var_of_jf {e : ConsElem} (hjf : e.isJoin = false) {u : Nat}
    (hu : u ∈ e.variables) : e = .var u := by
  match e with
  | .const c => simp [ConsElem.variables] at hu
  | .var w =>
      have : u = w := by simpa [ConsElem.variables] using hu
      rw [this]
  | .join l => simp [ConsElem.isJoin] at hjf

theorem EReach_iff_lfpL (K : List LHConstraint) (E : List (Nat × Nat))
    (V : Finset Nat)
    (he : ∀ u t, (u, t) ∈ E ↔ ∃ c ∈ K, u ∈ c.lhs.variables ∧ t ∈ c.rhs.variables)
    (hv : ∀ v ∈ V, LfpL K v)
    (hseed : ∀ c ∈ K, c.lhs.hasHigh = true → ∀ v ∈ c.rhs.variables, v ∈ V) :
    ∀ x, EReach E V x ↔ LfpL K x := by
  intro x
  constructor
  · intro hx
    induction hx with
    | base v hv0 => exact hv v hv0
    | step u t hu he0 ihu =>
        rcases (he u t).mp he0 with ⟨c, hc, hul, htr⟩
        exact LfpL.step u c ihu hc hul t htr
  · intro hx
    induction hx with
    | seed c hc hh v hvr => exact EReach.base v (hseed c hc hh v hvr)
    | step w c _ hc hw v hvr ihw =>
        exact EReach.step w v ihw ((he w v).mpr ⟨c, hc, hw, hvr⟩)

theorem EReach_iff_lfpG (K : List LHConstraint) (E : List (Nat × Nat))
    (V : Finset Nat)
    (hjf : ∀ c ∈ K, c.rhs.isJoin = false)
    (he : ∀ u t, (u, t) ∈ E ↔ ∃ c ∈ K, u ∈ c.rhs.variables ∧ t ∈ c.lhs.variables)
    (hv : ∀ v ∈ V, LfpG K v)
    (hseed : ∀ c ∈ K, c.rhs = .const .low → ∀ v ∈ c.lhs.variables, v ∈ V) :
    ∀ x, EReach E V x ↔ LfpG K x := by
  intro x
  constructor
  · intro hx
    induction hx with
    | base v hv0 => exact hv v hv0
    | step u t hu he0 ihu =>
        rcases (he u t).mp he0 with ⟨c, hc, hur, htl⟩
        exact LfpG.step u c ihu hc (var_of_jf (hjf c hc) hur) t htl
  · intro hx
    induction hx with
    | seed c hc hlow v hvl => exact EReach.base v (hseed c hc hlow v hvl)
    | step w c _ hc hrhs v hvl ihw =>
        have hw : w ∈ c.rhs.variables := by
          rw [hrhs]; simp [ConsElem.variables]
        exact EReach.step w v ihw ((he w v).mpr ⟨c, hc, hw, hvl⟩)

theorem preMS_allEdges_least (K : List LHConstraint) (u t : Nat) :
    (u, t) ∈ (MSol.mk false (PSObj.build false K) []).allEdges ↔
      ∃ c ∈ K, u ∈ c.lhs.variables ∧ t ∈ c.rhs.variables := by
  rw [mem_allEdges]
  constructor
  · rintro ⟨o, ho, hm⟩
    have ho' : o = PSObj.build false K := by simpa [MSol.chained] using ho
    subst ho'
    rcases (build_foldl_edges false K ⟨[], ∅⟩ u t).mp hm with h | ⟨c, hc, h1, h2⟩
    · exact absurd h (List.not_mem_nil _)
    · exact ⟨c, hc, by simpa using h1, by simpa using h2⟩
  · rintro ⟨c, hc, h1, h2⟩
    exact ⟨PSObj.build false K, by simp [MSol.chained],
      (build_foldl_edges false K ⟨[], ∅⟩ u t).mpr
        (Or.inr ⟨c, hc, by simpa using h1, by simpa using h2⟩)⟩

theorem preMS_unionV_least (K : List LHConstraint) (v : Nat) :
    v ∈ (MSol.mk false (PSObj.build false K) []).unionV ↔
      v ∈ (PSObj.build false K).vset := by
  rw [mem_unionV]
  constructor
  · rintro ⟨o, ho, hm⟩
    have ho' : o = PSObj.build false K := by simpa [MSol.chained] using ho
    subst ho'
    exact hm
  · intro hv
    exact ⟨PSObj.build false K, by simp [MSol.chained], hv⟩

theorem preMS_allEdges_greatest (K : List LHConstraint) (u t : Nat) :
    (u, t) ∈ (MSol.mk true (PSObj.build true K) []).allEdges ↔
      ∃ c ∈ K, u ∈ c.rhs.variables ∧ t ∈ c.lhs.variables := by
  rw [mem_allEdges]
  constructor
  · rintro ⟨o, ho, hm⟩
    have ho' : o = PSObj.build true K := by simpa [MSol.chained] using ho
    subst ho'
    rcases (build_foldl_edges true K ⟨[], ∅⟩ u t).mp hm with h | ⟨c, hc, h1, h2⟩
    · exact absurd h (List.not_mem_nil _)
    · exact ⟨c, hc, by simpa using h1, by simpa using h2⟩
  · rintro ⟨c, hc, h1, h2⟩
    exact ⟨PSObj.build true K, by simp [MSol.chained],
      (build_foldl_edges true K ⟨[], ∅⟩ u t).mpr
        (Or.inr ⟨c, hc, by simpa using h1, by simpa using h2⟩)⟩

theorem preMS_unionV_greatest (K : List LHConstraint) (v : Nat) :
    v ∈ (MSol.mk true (PSObj.build true K) []).unionV ↔
      v ∈ (PSObj.build true K).vset := by
  rw [mem_unionV]
  constructor
  · rintro ⟨o, ho, hm⟩
    have ho' : o = PSObj.build true K := by simpa [MSol.chained] using ho
    subst ho'
    exact hm
  · intro hv
    exact ⟨PSObj.build true K, by simp [MSol.chained], hv⟩

theorem ModelsLeast_atomic (K : List LHConstraint) :
    MSolModelsLeast (PartialSolutionOf false K) K := by
  refine ⟨rfl, ?_, ?_⟩
  · intro u t
    rw [PartialSolutionOf, propagate_allEdges]
    exact preMS_allEdges_least K u t
  · intro v
    rw [PartialSolutionOf, propagate_unionV]
    apply EReach_iff_lfpL K
    · exact preMS_allEdges_least K
    · intro w hw
      exact build_vset_sound_least K K (fun c hc => hc) ⟨[], ∅⟩
        (fun x hx => absurd hx (Finset.not_mem_empty x)) w
        ((preMS_unionV_least K w).mp hw)
    · intro c hc hh w hw
      exact (preMS_unionV_least K w).mpr
        (build_vset_base_least K ⟨[], ∅⟩ c hc hh w hw)

theorem ModelsGreatest_atomic (K : List LHConstraint)
    (hjf : ∀ c ∈ K, c.rhs.isJoin = false) :
    MSolModelsGreatest (PartialSolutionOf true K) K := by
  refine ⟨rfl, ?_, ?_⟩
  · intro u t
    rw [PartialSolutionOf, propagate_allEdges]
    exact preMS_allEdges_greatest K u t
  · intro v
    rw [PartialSolutionOf, propagate_unionV]
    apply EReach_iff_lfpG K _ _ hjf
    · exact preMS_allEdges_greatest K
    · intro w hw
      exact build_vset_sound_greatest K K (fun c hc => hc) hjf ⟨[], ∅⟩
        (fun x hx => absurd hx (Finset.not_mem_empty x)) w
        ((preMS_unionV_greatest K w).mp hw)
    · intro c hc hlow w hw
      exact (preMS_unionV_greatest K w).mpr
        (build_vset_base_greatest K ⟨[], ∅⟩ c hc hlow w hw)

theorem copy_allEdges_mem (S : MSol) (e : Nat × Nat) :
    e ∈ (S.copy).allEdges ↔ e ∈ S.allEdges := by
  rw [mem_allEdges, mem_allEdges]
  constructor
  · rintro ⟨o, ho, hm⟩
    rcases List.mem_cons.mp ho with rfl | ho
    · exact absurd hm (List.not_mem_nil _)
    · exact ⟨o, ho, hm⟩
  · rintro ⟨o, ho, hm⟩
    exact ⟨o, List.mem_cons_of_mem _ ho, hm⟩

theorem copy_unionV_mem (S : MSol) (v : Nat) :
    v ∈ (S.copy).unionV ↔ v ∈ S.unionV := by
  rw [mem_unionV, mem_unionV]
  constructor
  · rintro ⟨o, ho, hm⟩
    rcases List.mem_cons.mp ho with rfl | ho
    · exact absurd hm (Finset.not_mem_empty v)
    · exact ⟨o, ho, hm⟩
  · rintro ⟨o, ho, hm⟩
    exact ⟨o, List.mem_cons_of_mem _ ho, hm⟩

theorem ModelsLeast_copy {S : MSol} {K : List LHConstraint}
    (h : MSolModelsLeast S K) : MSolModelsLeast S.copy K := by
  obtain ⟨h0, he, hv⟩ := h
  refine ⟨h0, ?_, ?_⟩
  · intro u t
    rw [copy_allEdges_mem]
    exact he u t
  · intro v
    rw [copy_unionV_mem]
    exact hv v

theorem ModelsGreatest_copy {S : MSol} {K : List LHConstraint}
    (h : MSolModelsGreatest S K) : MSolModelsGreatest S.copy K := by
  obtain ⟨h0, he, hv⟩ := h
  refine ⟨h0, ?_, ?_⟩
  · intro u t
    rw [copy_allEdges_mem]
    exact he u t
  · intro v
    rw [copy_unionV_mem]
    exact hv v

theorem merge_pre_allEdges (A B : MSol) (e : Nat × Nat) :
    e ∈ (MSol.mk A.initial A.self (A.others ++ B.chained)).allEdges ↔
      e ∈ A.allEdges ∨ e ∈ B.allEdges := by
  rw [mem_allEdges, mem_allEdges, mem_allEdges]
  constructor
  · rintro ⟨o, ho, hm⟩
    rcases List.mem_cons.mp ho with rfl | ho
    · exact Or.inl ⟨A.self, by simp [MSol.chained], hm⟩
    · rcases List.mem_append.mp ho with ho | ho
      · exact Or.inl ⟨o, List.mem_cons_of_mem _ ho, hm⟩
      · exact Or.inr ⟨o, ho, hm⟩
  · rintro (⟨o, ho, hm⟩ | ⟨o, ho, hm⟩)
    · rcases List.mem_cons.mp ho with rfl | ho
      · exact ⟨A.self, List.mem_cons_self _ _, hm⟩
      · exact ⟨o, List.mem_cons_of_mem _ (List.mem_append.mpr (Or.inl ho)), hm⟩
    · exact ⟨o, List.mem_cons_of_mem _ (List.mem_append.mpr (Or.inr ho)), hm⟩

theorem merge_pre_unionV (A B : MSol) (v : Nat) :
    v ∈ (MSol.mk A.initial A.self (A.others ++ B.chained)).unionV ↔
      v ∈ A.unionV ∨ v ∈ B.unionV := by
  rw [mem_unionV, mem_unionV, mem_unionV]
  constructor
  · rintro ⟨o, ho, hm⟩
    rcases List.mem_cons.mp ho with rfl | ho
    · exact Or.inl ⟨A.self, by simp [MSol.chained], hm⟩
    · rcases List.mem_append.mp ho with ho | ho
      · exact Or.inl ⟨o, List.mem_cons_of_mem _ ho, hm⟩
      · exact Or.inr ⟨o, ho, hm⟩
  · rintro (⟨o, ho, hm⟩ | ⟨o, ho, hm⟩)
    · rcases List.mem_cons.mp ho with rfl | ho
      · exact ⟨A.self, List.mem_cons_self _ _, hm⟩
      · exact ⟨o, List.mem_cons_of_mem _ (List.mem_append.mpr (Or.inl ho)), hm⟩
    · exact ⟨o, List.mem_cons_of_mem _ (List.mem_append.mpr (Or.inr ho)), hm⟩

theorem ModelsLeast_mergeIn {A B : MSol} {K1 K2 : List LHConstraint}
    (hA : MSolModelsLeast A K1) (hB : MSolModelsLeast B K2) :
    MSolModelsLeast (A.mergeIn B) (K1 ++ K2) := by
  obtain ⟨hA0, hAe, hAv⟩ := hA
  obtain ⟨hB0, hBe, hBv⟩ := hB
  have hMe : ∀ u t,
      (u, t) ∈ (MSol.mk A.initial A.self (A.others ++ B.chained)).allEdges ↔
      ∃ c ∈ K1 ++ K2, u ∈ c.lhs.variables ∧ t ∈ c.rhs.variables := by
    intro u t
    rw [merge_pre_allEdges, hAe u t, hBe u t]
    constructor
    · rintro (⟨c, hc, h⟩ | ⟨c, hc, h⟩)
      · exact ⟨c, List.mem_append.mpr (Or.inl hc), h⟩
      · exact ⟨c, List.mem_append.mpr (Or.inr hc), h⟩
    · rintro ⟨c, hc, h⟩
      rcases List.mem_append.mp hc with hc | hc
      · exact Or.inl ⟨c, hc, h⟩
      · exact Or.inr ⟨c, hc, h⟩
  refine ⟨?_, ?_, ?_⟩
  · rw [MSol.mergeIn, propagate_initial]
    exact hA0
  · intro u t
    rw [MSol.mergeIn, propagate_allEdges]
    exact hMe u t
  · intro v
    rw [MSol.mergeIn, propagate_unionV]
    apply EReach_iff_lfpL (K1 ++ K2)
    · exact hMe
    · intro w hw
      rcases (merge_pre_unionV A B w).mp hw with h | h
      · exact LfpL_mono (fun c hc => List.mem_append.mpr (Or.inl hc)) w ((hAv w).mp h)
      · exact LfpL_mono (fun c hc => List.mem_append.mpr (Or.inr hc)) w ((hBv w).mp h)
    · intro c hc hh w hwr
      rcases List.mem_append.mp hc with hc | hc
      · exact (merge_pre_unionV A B w).mpr
          (Or.inl ((hAv w).mpr (LfpL.seed c hc hh w hwr)))
      · exact (merge_pre_unionV A B w).mpr
          (Or.inr ((hBv w).mpr (LfpL.seed c hc hh w hwr)))

theorem ModelsGreatest_mergeIn {A B : MSol} {K1 K2 : List LHConstraint}
    (hjf : ∀ c ∈ K1 ++ K2, c.rhs.isJoin = false)
    (hA : MSolModelsGreatest A K1) (hB : MSolModelsGreatest B K2) :
    MSolModelsGreatest (A.mergeIn B) (K1 ++ K2) := by
  obtain ⟨hA0, hAe, hAv⟩ := hA
  obtain ⟨hB0, hBe, hBv⟩ := hB
  have hMe : ∀ u t,
      (u, t) ∈ (MSol.mk A.initial A.self (A.others ++ B.chained)).allEdges ↔
      ∃ c ∈ K1 ++ K2, u ∈ c.rhs.variables ∧ t ∈ c.lhs.variables := by
    intro u t
    rw [merge_pre_allEdges, hAe u t, hBe u t]
    constructor
    · rintro (⟨c, hc, h⟩ | ⟨c, hc, h⟩)
      · exact ⟨c, List.mem_append.mpr (Or.inl hc), h⟩
      · exact ⟨c, List.mem_append.mpr (Or.inr hc), h⟩
    · rintro ⟨c, hc, h⟩
      rcases List.mem_append.mp hc with hc | hc
      · exact Or.inl ⟨c, hc, h⟩
      · exact Or.inr ⟨c, hc, h⟩
  refine ⟨?_, ?_, ?_⟩
  · rw [MSol.mergeIn, propagate_initial]
    exact hA0
  · intro u t
    rw [MSol.mergeIn, propagate_allEdges]
    exact hMe u t
  · intro v
    rw [MSol.mergeIn, propagate_unionV]
    apply EReach_iff_lfpG (K1 ++ K2) _ _ hjf
    · exact hMe
    · intro w hw
      rcases (merge_pre_unionV A B w).mp hw with h | h
      · exact LfpG_mono (fun c hc => List.mem_append.mpr (Or.inl hc)) w ((hAv w).mp h)
      · exact LfpG_mono (fun c hc => List.mem_append.mpr (Or.inr hc)) w ((hBv w).mp h)
    · intro c hc hlow w hwl
      rcases List.mem_append.mp hc with hc | hc
      · exact (merge_pre_unionV A B w).mpr
          (Or.inl ((hAv w).mpr (LfpG.seed c hc hlow w hwl)))
      · exact (merge_pre_unionV A B w).mpr
          (Or.inr ((hBv w).mpr (LfpG.seed c hc hlow w hwl)))

/-! ## Agreement of the two solvers' substitutions -/

theorem subst_agree_least (K : List LHConstraint)
    (hjf : ∀ c ∈ K, c.rhs.isJoin = false) (e : ConsElem) :
    substW .low (LHConsLeastSoln.solve K) e = (PartialSolutionOf false K).subst e := by
  rw [MSol.subst]
  have h0 : (PartialSolutionOf false K).initial = false := rfl
  rw [h0, substP_false_eq_substW]
  apply substW_low_congr
  intro v _
  rw [solve_least_eq_lfp K hjf v, ← (ModelsLeast_atomic K).2.2 v]

theorem subst_agree_greatest (K : List LHConstraint)
    (hjf : ∀ c ∈ K, c.rhs.isJoin = false) (e : ConsElem)
    (he : e.isJoin = false) :
    substW .high (LHConsGreatestSoln.solve K) e = (PartialSolutionOf true K).subst e := by
  match e with
  | .join l => simp [ConsElem.isJoin] at he
  | .const c => rw [MSol.subst]; rfl
  | .var w =>
      rw [MSol.subst]
      have h0 : (PartialSolutionOf true K).initial = true := rfl
      rw [h0]
      have hiff : w ∈ LHConsGreatestSoln.solve K ↔
          w ∈ (PartialSolutionOf true K).unionV := by
        rw [solve_greatest_eq_lfp K w, ← (ModelsGreatest_atomic K hjf).2.2 w]
      by_cases hw : w ∈ LHConsGreatestSoln.solve K
      · have hw' := hiff.mp hw
        simp [substW, substP, hw, hw', LHConstant.other]
      · have hw' : w ∉ (PartialSolutionOf true K).unionV := fun h => hw (hiff.mpr h)
        simp [substW, substP, hw, hw']

/-- C3: on a constraint set whose stored constraints never carry a join on
the right-hand side (which `addConstraint` guarantees), the worklist solver
and the propagation solver assign the same constant to every element in the
least orientation; in the greatest orientation they agree on every
non-join element.  (They do **not** agree on join elements in the greatest
orientation — see the counterexample — because `LHConsSoln::subst` seeds
the member fold with the default value `H` while `PartialSolution::subst`
seeds it with `L`.) -/
theorem worklist_vs_propagation_subst (K : List LHConstraint)
    (hjf : ∀ c ∈ K, c.rhs.isJoin = false) :
    (∀ e, substW .low (LHConsLeastSoln.solve K) e =
      (PartialSolutionOf false K).subst e) ∧
    (∀ e, e.isJoin = false →
      substW .high (LHConsGreatestSoln.solve K) e =
        (PartialSolutionOf true K).subst e) :=
  ⟨fun e => subst_agree_least K hjf e,
   fun e he => subst_agree_greatest K hjf e he⟩

/-- C3 counterexample: on the empty constraint set, the greatest-orientation
worklist solver substitutes `H` for the join `⊔{L}` (its fold starts from
the default value `H`), while the propagation solver substitutes `L` (its
fold starts from `L`), so the two solvers do not produce identical value
assignments on all elements. -/
theorem worklist_vs_propagation_greatest_join_counterexample :
    substW .high (LHConsGreatestSoln.solve []) (.join [.const .low]) = .high ∧
    (PartialSolutionOf true []).subst (.join [.const .low]) = .low := by
  constructor
  · rfl
  · rfl

theorem worklist_vs_propagation_subst_witness :
    (∀ c ∈ [(⟨.const .high, .var 0⟩ : LHConstraint)], c.rhs.isJoin = false) ∧
    substW .low (LHConsLeastSoln.solve [⟨.const .high, .var 0⟩]) (.var 0) =
      (PartialSolutionOf false [⟨.const .high, .var 0⟩]).subst (.var 0) :=
  ⟨by decide,
   (worklist_vs_propagation_subst [⟨.const .high, .var 0⟩] (by decide)).1 (.var 0)⟩

/-- C10: `LHConsVar::leq` returns `false` for every right-hand element,
including the variable itself, so `leq` is not reflexive on variables and
constraints involving variables are only ever discharged through the
solvers' substitution of constants. -/
theorem consvar_leq_always_false :
    ∀ (v : Nat) (e : ConsElem), (ConsElem.var v).leq e = false :=
  fun _ _ => rfl

/-- C2: `Infoflow::constraintUnreachableInst` adds no flows, but
`Infoflow::constrainFenceInst` is `assert(false && "Unsupported instruction
type: fence")`: constraint generation over a block containing a fence
instruction aborts instead of completing normally, contradicting the
spec's "Unreachable, Fence: no flow". -/
theorem fence_constraint_generation_aborts :
    (∀ flows, constraintUnreachableInst flows = some flows) ∧
    (∀ flows, constrainFenceInst flows = none) ∧
    (∀ ctx flows is, Instruction.fenceInst ∈ is →
      generateBasicBlockConstraints ctx is flows = none) := by
  refine ⟨fun _ => rfl, fun _ => rfl, ?_⟩
  intro ctx flows is
  induction is generalizing flows with
  | nil => intro h; cases h
  | cons i is ih =>
      intro h
      match i with
      | .fenceInst => rfl
      | .binaryOperator p ops v =>
          have h' : Instruction.fenceInst ∈ is := by
            rcases List.mem_cons.mp h with heq | h'
            · exact Instruction.noConfusion heq
            · exact h'
          exact ih _ h'
      | .unreachableInst =>
          have h' : Instruction.fenceInst ∈ is := by
            rcases List.mem_cons.mp h with heq | h'
            · exact Instruction.noConfusion heq
            · exact h'
          exact ih _ h'

/-! ## Join interning -/

theorem findIdx_append_self_aux (s : Finset ConsElem) :
    ∀ (xs : List (Finset ConsElem)) (i : Nat),
    List.findIdx? (· == s) xs i = none →
    List.findIdx? (· == s) (xs ++ [s]) i = some (i + xs.length) := by
  intro xs
  induction xs with
  | nil => intro i _; simp [List.findIdx?]
  | cons x xs ih =>
      intro i h
      have hc : (x :: xs) ++ [s] = x :: (xs ++ [s]) := rfl
      rw [hc, List.findIdx?_cons] at *
      by_cases hx : (x == s) = true
      · simp [hx] at h
      · simp only [hx, if_false] at h ⊢
        rw [ih (i + 1) h]
        simp [List.length_cons]
        omega

theorem indexOf_append_self (l : List (Finset ConsElem)) (s : Finset ConsElem)
    (h : l.indexOf? s = none) : (l ++ [s]).indexOf? s = some l.length := by
  rw [List.indexOf?] at h ⊢
  simpa using findIdx_append_self_aux s l 0 h

/-- C8: on the two-point lattice `L ⊑ H` holds and `H ⊑ L` does not; the
join of constants is commutative, associative and idempotent; and interning
a join member set twice in a kit yields the same interned identity (the
С++ pointer) and leaves the join store unchanged, so structurally equal
joins are pointer-equal within one kit. -/
theorem lattice_laws_and_join_interning :
    (LHConstant.leq .low .high = true) ∧
    (LHConstant.leq .high .low = false) ∧
    (∀ a b : LHConstant, a.join b = b.join a) ∧
    (∀ a b c : LHConstant, (a.join b).join c = a.join (b.join c)) ∧
    (∀ a : LHConstant, a.join a = a) ∧
    (∀ (kit : Kit) (s : Finset ConsElem),
      ((kit.upperBoundSet s).1.upperBoundSet s).2 = (kit.upperBoundSet s).2 ∧
      ((kit.upperBoundSet s).1.upperBoundSet s).1.joins =
        (kit.upperBoundSet s).1.joins) := by
  refine ⟨rfl, rfl, ?_, ?_, ?_, ?_⟩
  · intro a b; cases a <;> cases b <;> rfl
  · intro a b c; cases a <;> cases b <;> cases c <;> rfl
  · intro a; cases a <;> rfl
  · intro kit s
    have key : internJoin (internJoin kit.joins s).1 s =
        ((internJoin kit.joins s).1, (internJoin kit.joins s).2) := by
      cases h : kit.joins.indexOf? s with
      | some i => simp [internJoin, h]
      | none =>
          have hidx := indexOf_append_self kit.joins s h
          simp [internJoin, h, hidx]
    constructor
    · show (internJoin (internJoin kit.joins s).1 s).2 = (internJoin kit.joins s).2
      rw [key]
    · show (internJoin (internJoin kit.joins s).1 s).1 = (internJoin kit.joins s).1
      rw [key]

/-- C1: the worklist of `constrainConditionalSuccessors` never advances past
the immediate successors of the branch block: the enqueue guard
`visited.find(cur) == visited.end()` runs right after `cur` was inserted
into `visited`, so it is false on every iteration and the successors of a
dequeued block are never enqueued.  On the CFG where block `0` branches to
`1` and `2`, block `1` falls through to `3`, and no block post-dominates
any other, the recorded sinks are exactly `[1, 2]`: block `3` is reachable
from the terminator and not post-dominated by block `0`, yet it is not a
sink, refuting "the BFS continues through every non-pruned block". -/
theorem ccs_stops_at_immediate_successors :
    (constrainConditionalSuccessors ccsSuccEx ccsPdomEx 0
        (currentContextFlowRecord true 9)).sinkValues = [1, 2] ∧
    3 ∈ ccsSuccEx 1 ∧ 1 ∈ ccsSuccEx 0 ∧ ccsPdomEx 3 0 = false := by
  refine ⟨?_, by simp [ccsSuccEx], by simp [ccsSuccEx], rfl⟩
  rw [constrainConditionalSuccessors]
  show [] ++ ccsLoop ccsSuccEx ccsPdomEx 0 (ccsSuccEx 0) ∅ [] = [1, 2]
  rw [List.nil_append]
  have h0 : ccsSuccEx 0 = [1, 2] := rfl
  rw [h0]
  rw [ccsLoop]
  simp only [ccsPdomEx, Bool.false_eq_true, if_false, Finset.mem_insert_self,
    if_true, List.append_nil, List.nil_append]
  rw [ccsLoop]
  simp only [ccsPdomEx, Bool.false_eq_true, if_false, Finset.mem_insert_self,
    if_true, List.append_nil, List.nil_append]
  rw [ccsLoop]
  rfl

/-! ## Order-independence of the worklist solver -/

theorem WInvLeast_start (K : List LHConstraint) : WInvLeast K (solveStart K) := by
  rw [solveStart_queue]
  simp only [WInvLeast]
  refine ⟨List.nodup_range _, ?_, ?_, ?_, ?_⟩
  · intro i hi; exact List.mem_range.mp hi
  · intro x hx; exact absurd hx (Finset.not_mem_empty x)
  · intro v hv; exact absurd hv (Finset.not_mem_empty v)
  · intro i hi hq _
    exact absurd (List.mem_range.mpr hi) hq

theorem WStepLeast_inv (K : List LHConstraint)
    (hjf : ∀ c ∈ K, c.rhs.isJoin = false) {st st' : List Nat × Finset Nat}
    (h : WStepLeast K st st') (hInv : WInvLeast K st) : WInvLeast K st' := by
  cases h with
  | mk pre post ch i => exact processLeast_inv K hjf pre post i ch hInv

theorem WReachLeast_inv (K : List LHConstraint)
    (hjf : ∀ c ∈ K, c.rhs.isJoin = false) {st : List Nat × Finset Nat}
    (h : Relation.ReflTransGen (WStepLeast K) (solveStart K) st) :
    WInvLeast K st := by
  induction h with
  | refl => exact WInvLeast_start K
  | tail _ hstep ih => exact WStepLeast_inv K hjf hstep ih

theorem WStepLeast_measure (K : List LHConstraint)
    {st st' : List Nat × Finset Nat} (h : WStepLeast K st st')
    (hInv : WInvLeast K st) : solveMeasure K st' < solveMeasure K st := by
  cases h with
  | mk pre post ch i =>
      rcases hInv with ⟨hnd0, hidx0, hch0, _, _⟩
      have hndq : (pre ++ post).Nodup :=
        hnd0.sublist (List.Sublist.append_left (List.sublist_cons_self i post) pre)
      have hidxq : ∀ j ∈ pre ++ post, j < K.length := by
        intro j hj
        apply hidx0
        rcases List.mem_append.mp hj with h | h
        · exact List.mem_append.mpr (Or.inl h)
        · exact List.mem_append.mpr (Or.inr (List.mem_cons_of_mem _ h))
      have h1 := processLeast_measure K i (pre ++ post) ch hndq hidxq hch0
      have h2 : solveMeasure K (pre ++ i :: post, ch) =
          solveMeasure K (pre ++ post, ch) + 1 := by
        have e1 : solveMeasure K (pre ++ i :: post, ch) =
            (allVarsK K \ ch).card * (K.length + 1) + (pre ++ i :: post).length := rfl
        have e2 : solveMeasure K (pre ++ post, ch) =
            (allVarsK K \ ch).card * (K.length + 1) + (pre ++ post).length := rfl
        rw [e1, e2, List.length_append, List.length_cons, List.length_append]
        omega
      omega

/-- C7: the worklist solver terminates and reaches a unique fixed point,
independent of the dequeue order.  `WStepLeast` allows dequeueing from an
arbitrary queue position; every step from a state reachable from the
initial queue strictly decreases the natural-number measure
`|vars \ changed|·(|K|+1) + |queue|` (the changed set only grows inside the
constraint variables and the duplicate-free queue is bounded), so every run
drains the queue; every drained reachable state has changed set exactly the
least fixed point `LfpL K`; and the implementation's FIFO run computes that
same set. -/
theorem worklist_terminates_unique_fixed_point (K : List LHConstraint)
    (hjf : ∀ c ∈ K, c.rhs.isJoin = false) :
    (∀ st st', Relation.ReflTransGen (WStepLeast K) (solveStart K) st →
      WStepLeast K st st' → solveMeasure K st' < solveMeasure K st) ∧
    (∀ st, Relation.ReflTransGen (WStepLeast K) (solveStart K) st →
      st.1 = [] → ∀ v, v ∈ st.2 ↔ LfpL K v) ∧
    (∀ v, v ∈ LHConsLeastSoln.solve K ↔ LfpL K v) := by
  refine ⟨?_, ?_, solve_least_eq_lfp K hjf⟩
  · intro st st' hreach hstep
    exact WStepLeast_measure K hstep (WReachLeast_inv K hjf hreach)
  · intro st hreach hq
    have hInv := WReachLeast_inv K hjf hreach
    rcases st with ⟨q, ch⟩
    have hq' : q = [] := hq
    subst hq'
    exact terminal_least K ch hInv

theorem worklist_terminates_unique_fixed_point_witness :
    (∀ c ∈ [(⟨.const .low, .var 1⟩ : LHConstraint)], c.rhs.isJoin = false) ∧
    (∀ v, v ∈ LHConsLeastSoln.solve [(⟨.const .low, .var 1⟩ : LHConstraint)] ↔
      LfpL [(⟨.const .low, .var 1⟩ : LHConstraint)] v) :=
  ⟨by decide,
   (worklist_terminates_unique_fixed_point [⟨.const .low, .var 1⟩] (by decide)).2.2⟩

/-! ## The taint round trip (fresh pass) -/

theorem c4_st1 (k : String) (v : Nat) (hk1 : k ≠ "default")
    (hk2 : k ≠ "implicit") :
    IState.setTainted IState.start k v = some
      ⟨⟨fun kk => if kk = k then [⟨.const .high, .var 0⟩] else [],
        [], fun _ => none, fun _ => none, [], 1⟩,
       fun w => if w = v then some 0 else none,
       fun _ => none, fun _ => none, fun _ => none,
       fun _ _ => none, fun _ _ => none⟩ := by
  rw [IState.setTainted, if_neg (by simp [hk1, hk2])]
  rfl

/-! ## The kit's solution loops -/

theorem leastSolutionLoop_models_aux :
    ∀ (ks : List String) (kit : Kit) (S : MSol) (K0 : List LHConstraint),
    ks.Nodup → (∀ kk ∈ ks, kit.leastSolutions kk = none) →
    (∀ kk, kit.greatestSolutions kk = none) →
    MSolModelsLeast S K0 →
    ∃ PS kitF, Kit.leastSolutionLoop kit ks (some S) = (some PS, kitF) ∧
      MSolModelsLeast PS
        (K0 ++ ks.foldr (fun kk acc => kit.constraints kk ++ acc) []) := by
  intro ks
  induction ks with
  | nil =>
      intro kit S K0 _ _ _ hS
      refine ⟨S, kit, rfl, ?_⟩
      simpa using hS
  | cons k0 rest ih =>
      intro kit S K0 hnd hls hgs hS
      have hstep : Kit.leastSolutionLoop kit (k0 :: rest) (some S) =
          Kit.leastSolutionLoop
            (Kit.freeUnneededConstraints
              { kit with
                lockedConstraintKinds := k0 :: kit.lockedConstraintKinds,
                leastSolutions := fun k =>
                  if k = k0 then some (PartialSolutionOf false (kit.constraints k0))
                  else kit.leastSolutions k } k0)
            rest
            (some (S.mergeIn (PartialSolutionOf false (kit.constraints k0)))) := by
        rw [Kit.leastSolutionLoop, hls k0 (by simp)]
      have hfree : Kit.freeUnneededConstraints
          { kit with
            lockedConstraintKinds := k0 :: kit.lockedConstraintKinds,
            leastSolutions := fun k =>
              if k = k0 then some (PartialSolutionOf false (kit.constraints k0))
              else kit.leastSolutions k } k0 =
          { kit with
            lockedConstraintKinds := k0 :: kit.lockedConstraintKinds,
            leastSolutions := fun k =>
              if k = k0 then some (PartialSolutionOf false (kit.constraints k0))
              else kit.leastSolutions k } := by
        rw [Kit.freeUnneededConstraints, if_neg]
        simp [hgs k0]
      rw [hstep, hfree]
      have hrest := ih
        { kit with
          lockedConstraintKinds := k0 :: kit.lockedConstraintKinds,
          leastSolutions := fun k =>
            if k = k0 then some (PartialSolutionOf false (kit.constraints k0))
            else kit.leastSolutions k }
        (S.mergeIn (PartialSolutionOf false (kit.constraints k0)))
        (K0 ++ kit.constraints k0)
        ((List.nodup_cons.mp hnd).2)
        (by
          intro kk hkk
          have hne : kk ≠ k0 := by
            intro hcon
            exact (List.nodup_cons.mp hnd).1 (hcon ▸ hkk)
          simp only [if_neg hne]
          exact hls kk (by simp [hkk]))
        (by intro kk; exact hgs kk)
        (ModelsLeast_mergeIn hS (ModelsLeast_atomic (kit.constraints k0)))
      rcases hrest with ⟨PS, kitF, hrun, hmod⟩
      refine ⟨PS, kitF, hrun, ?_⟩
      rw [List.foldr_cons, ← List.append_assoc]
      exact hmod

theorem kitLeastSolution_models (kit : Kit) (k0 : String) (rest : List String)
    (hnd : (k0 :: rest).Nodup)
    (hls : ∀ kk, kit.leastSolutions kk = none)
    (hgs : ∀ kk, kit.greatestSolutions kk = none) :
    ∃ PS kitF, kit.leastSolution (k0 :: rest) = some (PS, kitF) ∧
      MSolModelsLeast PS
        ((k0 :: rest).foldr (fun kk acc => kit.constraints kk ++ acc) []) := by
  have hstep : Kit.leastSolutionLoop kit (k0 :: rest) none =
      Kit.leastSolutionLoop
        (Kit.freeUnneededConstraints
          { kit with
            lockedConstraintKinds := k0 :: kit.lockedConstraintKinds,
            leastSolutions := fun k =>
              if k = k0 then some (PartialSolutionOf false (kit.constraints k0))
              else kit.leastSolutions k } k0)
        rest
        (some ((PartialSolutionOf false (kit.constraints k0)).copy)) := by
    rw [Kit.leastSolutionLoop, hls k0]
  have hfree : Kit.freeUnneededConstraints
      { kit with
        lockedConstraintKinds := k0 :: kit.lockedConstraintKinds,
        leastSolutions := fun k =>
          if k = k0 then some (PartialSolutionOf false (kit.constraints k0))
          else kit.leastSolutions k } k0 =
      { kit with
        lockedConstraintKinds := k0 :: kit.lockedConstraintKinds,
        leastSolutions := fun k =>
          if k = k0 then some (PartialSolutionOf false (kit.constraints k0))
          else kit.leastSolutions k } := by
    rw [Kit.freeUnneededConstraints, if_neg]
    simp [hgs k0]
  have hrest := leastSolutionLoop_models_aux rest
    { kit with
      lockedConstraintKinds := k0 :: kit.lockedConstraintKinds,
      leastSolutions := fun k =>
        if k = k0 then some (PartialSolutionOf false (kit.constraints k0))
        else kit.leastSolutions k }
    ((PartialSolutionOf false (kit.constraints k0)).copy)
    (kit.constraints k0)
    ((List.nodup_cons.mp hnd).2)
    (by
      intro kk hkk
      have hne : kk ≠ k0 := by
        intro hcon
        exact (List.nodup_cons.mp hnd).1 (hcon ▸ hkk)
      simp only [if_neg hne]
      exact hls kk)
    (by intro kk; exact hgs kk)
    (ModelsLeast_copy (ModelsLeast_atomic (kit.constraints k0)))
  rcases hrest with ⟨PS, kitF, hrun, hmod⟩
  rw [Kit.leastSolution, hstep, hfree, hrun]
  exact ⟨PS, kitF, rfl, by rw [List.foldr_cons]; exact hmod⟩

theorem greatestSolutionLoop_models_aux :
    ∀ (ks : List String) (kit : Kit) (S : MSol) (K0 : List LHConstraint),
    ks.Nodup → (∀ kk, kit.leastSolutions kk = none) →
    (∀ kk ∈ ks, kit.greatestSolutions kk = none) →
    (∀ kk c, c ∈ kit.constraints kk → c.rhs.isJoin = false) →
    (∀ c ∈ K0, c.rhs.isJoin = false) →
    MSolModelsGreatest S K0 →
    ∃ PS kitF, Kit.greatestSolutionLoop kit ks (some S) = (some PS, kitF) ∧
      MSolModelsGreatest PS
        (K0 ++ ks.foldr (fun kk acc => kit.constraints kk ++ acc) []) := by
  intro ks
  induction ks with
  | nil =>
      intro kit S K0 _ _ _ _ _ hS
      refine ⟨S, kit, rfl, ?_⟩
      simpa using hS
  | cons k0 rest ih =>
      intro kit S K0 hnd hls hgs hjfAll hjfK0 hS
      have hstep : Kit.greatestSolutionLoop kit (k0 :: rest) (some S) =
          Kit.greatestSolutionLoop
            (Kit.freeUnneededConstraints
              { kit with
                lockedConstraintKinds := k0 :: kit.lockedConstraintKinds,
                greatestSolutions := fun k =>
                  if k = k0 then some (PartialSolutionOf true (kit.constraints k0))
                  else kit.greatestSolutions k } k0)
            rest
            (some (S.mergeIn (PartialSolutionOf true (kit.constraints k0)))) := by
        rw [Kit.greatestSolutionLoop, hgs k0 (by simp)]
      have hfree : Kit.freeUnneededConstraints
          { kit with
            lockedConstraintKinds := k0 :: kit.lockedConstraintKinds,
            greatestSolutions := fun k =>
              if k = k0 then some (PartialSolutionOf true (kit.constraints k0))
              else kit.greatestSolutions k } k0 =
          { kit with
            lockedConstraintKinds := k0 :: kit.lockedConstraintKinds,
            greatestSolutions := fun k =>
              if k = k0 then some (PartialSolutionOf true (kit.constraints k0))
              else kit.greatestSolutions k } := by
        rw [Kit.freeUnneededConstraints, if_neg]
        simp [hls k0]
      rw [hstep, hfree]
      have hjf0 : ∀ c ∈ K0 ++ kit.constraints k0, c.rhs.isJoin = false := by
        intro c hc
        rcases List.mem_append.mp hc with hc | hc
        · exact hjfK0 c hc
        · exact hjfAll k0 c hc
      have hrest := ih
        { kit with
          lockedConstraintKinds := k0 :: kit.lockedConstraintKinds,
          greatestSolutions := fun k =>
            if k = k0 then some (PartialSolutionOf true (kit.constraints k0))
            else kit.greatestSolutions k }
        (S.mergeIn (PartialSolutionOf true (kit.constraints k0)))
        (K0 ++ kit.constraints k0)
        ((List.nodup_cons.mp hnd).2)
        (by intro kk; exact hls kk)
        (by
          intro kk hkk
          have hne : kk ≠ k0 := by
            intro hcon
            exact (List.nodup_cons.mp hnd).1 (hcon ▸ hkk)
          simp only [if_neg hne]
          exact hgs kk (by simp [hkk]))
        (by intro kk c hc; exact hjfAll kk c hc)
        hjf0
        (ModelsGreatest_mergeIn hjf0 hS
          (ModelsGreatest_atomic (kit.constraints k0) (fun c hc => hjfAll k0 c hc)))
      rcases hrest with ⟨PS, kitF, hrun, hmod⟩
      refine ⟨PS, kitF, hrun, ?_⟩
      rw [List.foldr_cons, ← List.append_assoc]
      exact hmod

theorem kitGreatestSolution_models (kit : Kit) (k0 : String) (rest : List String)
    (hnd : (k0 :: rest).Nodup)
    (hls : ∀ kk, kit.leastSolutions kk = none)
    (hgs : ∀ kk, kit.greatestSolutions kk = none)
    (hjfAll : ∀ kk c, c ∈ kit.constraints kk → c.rhs.isJoin = false) :
    ∃ PS kitF, kit.greatestSolution (k0 :: rest) = some (PS, kitF) ∧
      MSolModelsGreatest PS
        ((k0 :: rest).foldr (fun kk acc => kit.constraints kk ++ acc) []) := by
  have hstep : Kit.greatestSolutionLoop kit (k0 :: rest) none =
      Kit.greatestSolutionLoop
        (Kit.freeUnneededConstraints
          { kit with
            lockedConstraintKinds := k0 :: kit.lockedConstraintKinds,
            greatestSolutions := fun k =>
              if k = k0 then some (PartialSolutionOf true (kit.constraints k0))
              else kit.greatestSolutions k } k0)
        rest
        (some ((PartialSolutionOf true (kit.constraints k0)).copy)) := by
    rw [Kit.greatestSolutionLoop, hgs k0]
  have hfree : Kit.freeUnneededConstraints
      { kit with
        lockedConstraintKinds := k0 :: kit.lockedConstraintKinds,
        greatestSolutions := fun k =>
          if k = k0 then some (PartialSolutionOf true (kit.constraints k0))
          else kit.greatestSolutions k } k0 =
      { kit with
        lockedConstraintKinds := k0 :: kit.lockedConstraintKinds,
        greatestSolutions := fun k =>
          if k = k0 then some (PartialSolutionOf true (kit.constraints k0))
          else kit.greatestSolutions k } := by
    rw [Kit.freeUnneededConstraints, if_neg]
    simp [hls k0]
  have hrest := greatestSolutionLoop_models_aux rest
    { kit with
      lockedConstraintKinds := k0 :: kit.lockedConstraintKinds,
      greatestSolutions := fun k =>
        if k = k0 then some (PartialSolutionOf true (kit.constraints k0))
        else kit.greatestSolutions k }
    ((PartialSolutionOf true (kit.constraints k0)).copy)
    (kit.constraints k0)
    ((List.nodup_cons.mp hnd).2)
    (by intro kk; exact hls kk)
    (by
      intro kk hkk
      have hne : kk ≠ k0 := by
        intro hcon
        exact (List.nodup_cons.mp hnd).1 (hcon ▸ hkk)
      simp only [if_neg hne]
      exact hgs kk)
    (by intro kk c hc; exact hjfAll kk c hc)
    (fun c hc => hjfAll k0 c hc)
    (ModelsGreatest_copy
      (ModelsGreatest_atomic (kit.constraints k0) (fun c hc => hjfAll k0 c hc)))
  rcases hrest with ⟨PS, kitF, hrun, hmod⟩
  rw [Kit.greatestSolution, hstep, hfree, hrun]
  exact ⟨PS, kitF, rfl, by rw [List.foldr_cons]; exact hmod⟩

theorem c4_st2 (k : String) (v ctx : Nat) (hk1 : k ≠ "default") :
    ∃ st2 : IState,
      IState.getOrCreateConsElem
        ⟨⟨fun kk => if kk = k then [⟨.const .high, .var 0⟩] else [],
          [], fun _ => none, fun _ => none, [], 1⟩,
         fun w => if w = v then some 0 else none,
         fun _ => none, fun _ => none, fun _ => none,
         fun _ _ => none, fun _ _ => none⟩ ctx v = some (1, st2) ∧
      st2.kit.lockedConstraintKinds = [] ∧
      (∀ kk, st2.kit.leastSolutions kk = none) ∧
      (∀ kk, st2.kit.greatestSolutions kk = none) ∧
      st2.kit.constraints k = [⟨.const .high, .var 0⟩] ∧
      st2.kit.constraints "default" = [⟨.var 0, .var 1⟩, ⟨.var 1, .var 2⟩] ∧
      st2.summarySinkValueConstraintMap v = some 2 := by
  refine ⟨((IState.getOrCreateConsElem
      ⟨⟨fun kk => if kk = k then [⟨.const .high, .var 0⟩] else [],
        [], fun _ => none, fun _ => none, [], 1⟩,
       fun w => if w = v then some 0 else none,
       fun _ => none, fun _ => none, fun _ => none,
       fun _ _ => none, fun _ _ => none⟩ ctx v).getD (0, IState.start)).2,
    ?_, ?_, ?_, ?_, ?_, ?_, ?_⟩
  · simp [IState.getOrCreateConsElem, IState.getOrCreateConsElemSummarySource,
      IState.getOrCreateConsElemSummarySink, IState.putOrConstrainConsElemSummarySink,
      IState.addK, Kit.addConstraint, Kit.newVar, expandLhs, ConsElem.isJoin]
  · simp [IState.getOrCreateConsElem, IState.getOrCreateConsElemSummarySource,
      IState.getOrCreateConsElemSummarySink, IState.putOrConstrainConsElemSummarySink,
      IState.addK, Kit.addConstraint, Kit.newVar, expandLhs, ConsElem.isJoin]
  · simp [IState.getOrCreateConsElem, IState.getOrCreateConsElemSummarySource,
      IState.getOrCreateConsElemSummarySink, IState.putOrConstrainConsElemSummarySink,
      IState.addK, Kit.addConstraint, Kit.newVar, expandLhs, ConsElem.isJoin]
  · simp [IState.getOrCreateConsElem, IState.getOrCreateConsElemSummarySource,
      IState.getOrCreateConsElemSummarySink, IState.putOrConstrainConsElemSummarySink,
      IState.addK, Kit.addConstraint, Kit.newVar, expandLhs, ConsElem.isJoin]
  · simp [IState.getOrCreateConsElem, IState.getOrCreateConsElemSummarySource,
      IState.getOrCreateConsElemSummarySink, IState.putOrConstrainConsElemSummarySink,
      IState.addK, Kit.addConstraint, Kit.newVar, expandLhs, ConsElem.isJoin, hk1]
  · simp [IState.getOrCreateConsElem, IState.getOrCreateConsElemSummarySource,
      IState.getOrCreateConsElemSummarySink, IState.putOrConstrainConsElemSummarySink,
      IState.addK, Kit.addConstraint, Kit.newVar, expandLhs, ConsElem.isJoin,
      Ne.symm hk1]
  · simp [IState.getOrCreateConsElem, IState.getOrCreateConsElemSummarySource,
      IState.getOrCreateConsElemSummarySink, IState.putOrConstrainConsElemSummarySink,
      IState.addK, Kit.addConstraint, Kit.newVar, expandLhs, ConsElem.isJoin]

theorem c4_least (st : IState) (k : String) (v : Nat)
    (hk1 : k ≠ "default")
    (hls : ∀ kk, st.kit.leastSolutions kk = none)
    (hgs : ∀ kk, st.kit.greatestSolutions kk = none)
    (hck : st.kit.constraints k = [⟨.const .high, .var 0⟩])
    (hcd : st.kit.constraints "default" = [⟨.var 0, .var 1⟩, ⟨.var 1, .var 2⟩])
    (hsink : st.summarySinkValueConstraintMap v = some 2) :
    ∃ sol st3, Infoflow.leastSolution st [k] false false = some (sol, st3) ∧
      sol.isTainted v = true := by
  obtain ⟨PS, kitF, hsol, hmod⟩ :=
    kitLeastSolution_models st.kit k ["default"] (by simp [hk1]) hls hgs
  have hK : ([k, "default"].foldr (fun kk acc => st.kit.constraints kk ++ acc) [])
      = [⟨.const .high, .var 0⟩, ⟨.var 0, .var 1⟩, ⟨.var 1, .var 2⟩] := by
    simp [hck, hcd]
  rw [hK] at hmod
  obtain ⟨hinit, hedges, hunion⟩ := hmod
  have hlfp0 : LfpL [⟨.const .high, .var 0⟩, ⟨.var 0, .var 1⟩, ⟨.var 1, .var 2⟩] 0 :=
    LfpL.seed ⟨.const .high, .var 0⟩ (by simp) rfl 0 (by simp [ConsElem.variables])
  have hlfp1 : LfpL [⟨.const .high, .var 0⟩, ⟨.var 0, .var 1⟩, ⟨.var 1, .var 2⟩] 1 :=
    LfpL.step 0 ⟨.var 0, .var 1⟩ hlfp0 (by simp) (by simp [ConsElem.variables]) 1
      (by simp [ConsElem.variables])
  have hlfp2 : LfpL [⟨.const .high, .var 0⟩, ⟨.var 0, .var 1⟩, ⟨.var 1, .var 2⟩] 2 :=
    LfpL.step 1 ⟨.var 1, .var 2⟩ hlfp1 (by simp) (by simp [ConsElem.variables]) 2
      (by simp [ConsElem.variables])
  have hmem2 : 2 ∈ PS.unionV := (hunion 2).mpr hlfp2
  have hsubst : PS.subst (.var 2) = .high := by
    rw [MSol.subst, hinit]
    simp [substP, hmem2]
  have hks : (([k] ++ ["default"] ++ (if false then ["default-sinks"] else [])
      ++ (if false then ["implicit"] else [])
      ++ (if false && false then ["implicit-sinks"] else [])).dedup) = [k, "default"] := by
    simp [List.dedup_cons_of_not_mem, hk1]
  refine ⟨⟨PS, false, st.summarySinkValueConstraintMap,
    st.summarySinkVargConstraintMap⟩, { st with kit := kitF }, ?_, ?_⟩
  · simp only [Infoflow.leastSolution, hks, hsol]
  · simp only [InfoflowSolution.isTainted, hsink, hsubst]
    simp

theorem c4u_st1 (k : String) (v : Nat) (hk1 : k ≠ "default")
    (hk2 : k ≠ "implicit") :
    IState.setUntainted IState.start k v = some
      ⟨⟨fun kk => if kk = k then [⟨.var 0, .const .low⟩] else [],
        [], fun _ => none, fun _ => none, [], 1⟩,
       fun _ => none,
       fun w => if w = v then some 0 else none,
       fun _ => none, fun _ => none,
       fun _ _ => none, fun _ _ => none⟩ := by
  rw [IState.setUntainted, if_neg (by simp [hk1, hk2])]
  rfl

theorem c4u_st2 (k : String) (v ctx : Nat) (hk1 : k ≠ "default") :
    ∃ st2 : IState,
      IState.getOrCreateConsElem
        ⟨⟨fun kk => if kk = k then [⟨.var 0, .const .low⟩] else [],
          [], fun _ => none, fun _ => none, [], 1⟩,
         fun _ => none,
         fun w => if w = v then some 0 else none,
         fun _ => none, fun _ => none,
         fun _ _ => none, fun _ _ => none⟩ ctx v = some (1, st2) ∧
      st2.kit.lockedConstraintKinds = [] ∧
      (∀ kk, st2.kit.leastSolutions kk = none) ∧
      (∀ kk, st2.kit.greatestSolutions kk = none) ∧
      (st2.kit.constraints = fun kk =>
        if kk = "default" then [⟨.var 2, .var 1⟩, ⟨.var 1, .var 0⟩]
        else if kk = k then [⟨.var 0, .const .low⟩] else []) ∧
      st2.summarySourceValueConstraintMap v = some 2 := by
  refine ⟨((IState.getOrCreateConsElem
      ⟨⟨fun kk => if kk = k then [⟨.var 0, .const .low⟩] else [],
        [], fun _ => none, fun _ => none, [], 1⟩,
       fun _ => none,
       fun w => if w = v then some 0 else none,
       fun _ => none, fun _ => none,
       fun _ _ => none, fun _ _ => none⟩ ctx v).getD (0, IState.start)).2,
    ?_, ?_, ?_, ?_, ?_, ?_⟩
  · simp [IState.getOrCreateConsElem, IState.getOrCreateConsElemSummarySource,
      IState.getOrCreateConsElemSummarySink, IState.putOrConstrainConsElemSummarySink,
      IState.addK, Kit.addConstraint, Kit.newVar, expandLhs, ConsElem.isJoin]
  · simp [IState.getOrCreateConsElem, IState.getOrCreateConsElemSummarySource,
      IState.getOrCreateConsElemSummarySink, IState.putOrConstrainConsElemSummarySink,
      IState.addK, Kit.addConstraint, Kit.newVar, expandLhs, ConsElem.isJoin]
  · simp [IState.getOrCreateConsElem, IState.getOrCreateConsElemSummarySource,
      IState.getOrCreateConsElemSummarySink, IState.putOrConstrainConsElemSummarySink,
      IState.addK, Kit.addConstraint, Kit.newVar, expandLhs, ConsElem.isJoin]
  · simp [IState.getOrCreateConsElem, IState.getOrCreateConsElemSummarySource,
      IState.getOrCreateConsElemSummarySink, IState.putOrConstrainConsElemSummarySink,
      IState.addK, Kit.addConstraint, Kit.newVar, expandLhs, ConsElem.isJoin]
  · funext kk
    by_cases h1 : kk = "default"
    · subst h1
      simp [IState.getOrCreateConsElem, IState.getOrCreateConsElemSummarySource,
        IState.getOrCreateConsElemSummarySink, IState.putOrConstrainConsElemSummarySink,
        IState.addK, Kit.addConstraint, Kit.newVar, expandLhs, ConsElem.isJoin,
        Ne.symm hk1]
    · by_cases h2 : kk = k
      · subst h2
        simp [IState.getOrCreateConsElem, IState.getOrCreateConsElemSummarySource,
          IState.getOrCreateConsElemSummarySink, IState.putOrConstrainConsElemSummarySink,
          IState.addK, Kit.addConstraint, Kit.newVar, expandLhs, ConsElem.isJoin, h1]
      · simp [IState.getOrCreateConsElem, IState.getOrCreateConsElemSummarySource,
          IState.getOrCreateConsElemSummarySink, IState.putOrConstrainConsElemSummarySink,
          IState.addK, Kit.addConstraint, Kit.newVar, expandLhs, ConsElem.isJoin, h1, h2]
  · simp [IState.getOrCreateConsElem, IState.getOrCreateConsElemSummarySource,
      IState.getOrCreateConsElemSummarySink, IState.putOrConstrainConsElemSummarySink,
      IState.addK, Kit.addConstraint, Kit.newVar, expandLhs, ConsElem.isJoin]

theorem c4_greatest (st : IState) (k : String) (v : Nat)
    (hk1 : k ≠ "default") (hk3 : k ≠ "default-sinks")
    (hls : ∀ kk, st.kit.leastSolutions kk = none)
    (hgs : ∀ kk, st.kit.greatestSolutions kk = none)
    (hcons : st.kit.constraints = fun kk =>
      if kk = "default" then [⟨.var 2, .var 1⟩, ⟨.var 1, .var 0⟩]
      else if kk = k then [⟨.var 0, .const .low⟩] else [])
    (hsource : st.summarySourceValueConstraintMap v = some 2) :
    ∃ sol st3, Infoflow.greatestSolution st [k] false = some (sol, st3) ∧
      sol.isTainted v = false := by
  have hjfAll : ∀ kk c, c ∈ st.kit.constraints kk → c.rhs.isJoin = false := by
    intro kk c hc
    rw [hcons] at hc
    by_cases h1 : kk = "default"
    · simp [h1] at hc
      rcases hc with rfl | rfl <;> rfl
    · by_cases h2 : kk = k
      · subst h2
        simp [h1, hk1] at hc
        subst hc
        rfl
      · simp [h1, h2] at hc
  obtain ⟨PS, kitF, hsol, hmod⟩ :=
    kitGreatestSolution_models st.kit k ["default", "default-sinks"]
      (by simp [hk1, hk3]) hls hgs hjfAll
  have hK : ([k, "default", "default-sinks"].foldr
      (fun kk acc => st.kit.constraints kk ++ acc) [])
      = [⟨.var 0, .const .low⟩, ⟨.var 2, .var 1⟩, ⟨.var 1, .var 0⟩] := by
    rw [hcons]
    simp [hk1, hk3, Ne.symm hk1, Ne.symm hk3]
  rw [hK] at hmod
  obtain ⟨hinit, hedges, hunion⟩ := hmod
  have hlfp0 : LfpG [⟨.var 0, .const .low⟩, ⟨.var 2, .var 1⟩, ⟨.var 1, .var 0⟩] 0 :=
    LfpG.seed ⟨.var 0, .const .low⟩ (by simp) rfl 0 (by simp [ConsElem.variables])
  have hlfp1 : LfpG [⟨.var 0, .const .low⟩, ⟨.var 2, .var 1⟩, ⟨.var 1, .var 0⟩] 1 :=
    LfpG.step 0 ⟨.var 1, .var 0⟩ hlfp0 (by simp) rfl 1 (by simp [ConsElem.variables])
  have hlfp2 : LfpG [⟨.var 0, .const .low⟩, ⟨.var 2, .var 1⟩, ⟨.var 1, .var 0⟩] 2 :=
    LfpG.step 1 ⟨.var 2, .var 1⟩ hlfp1 (by simp) rfl 2 (by simp [ConsElem.variables])
  have hmem2 : 2 ∈ PS.unionV := (hunion 2).mpr hlfp2
  have hsubst : PS.subst (.var 2) = .low := by
    rw [MSol.subst, hinit]
    simp [substP, hmem2]
  have hks : (([k] ++ ["default", "default-sinks"]
      ++ (if false then ["implicit", "implicit-sinks"] else [])).dedup)
      = [k, "default", "default-sinks"] := by
    simp [List.dedup_cons_of_not_mem, hk1, hk3]
  refine ⟨⟨PS, true, st.summarySourceValueConstraintMap,
    st.summarySourceVargConstraintMap⟩, { st with kit := kitF }, ?_, ?_⟩
  · simp only [Infoflow.greatestSolution, hks, hsol]
  · simp only [InfoflowSolution.isTainted, hsource, hsubst]
    simp

/-- C4: the claimed round trip holds once the value's context-sensitive
constraint element has been created (which links
`summary-source ⊑ element ⊑ summary-sink` in the `"default"` kind): on a
fresh pass, after `setTainted(k, v)` and `getOrCreateConsElem(ctx, v)`, the
least solution over `{k}` reports `isTainted(v) = true`; dually, after
`setUntainted(k, v)` and `getOrCreateConsElem(ctx, v)`, the greatest
solution over `{k}` reports `isTainted(v) = false`.  Without the context
element the round trip fails — see the counterexample: the least
`InfoflowSolution` queries the summary-**sink** value map, which has no
entry for a value only seen by `setTainted`, and falls back to
`defaultTainted = false`. -/
theorem set_tainted_roundtrip_with_context_element (k : String) (v ctx : Nat)
    (hk1 : k ≠ "default") (hk2 : k ≠ "implicit") (hk3 : k ≠ "default-sinks") :
    (∃ st1 st2 sol st3,
      IState.setTainted IState.start k v = some st1 ∧
      st1.getOrCreateConsElem ctx v = some (1, st2) ∧
      Infoflow.leastSolution st2 [k] false false = some (sol, st3) ∧
      sol.isTainted v = true) ∧
    (∃ st1 st2 sol st3,
      IState.setUntainted IState.start k v = some st1 ∧
      st1.getOrCreateConsElem ctx v = some (1, st2) ∧
      Infoflow.greatestSolution st2 [k] false = some (sol, st3) ∧
      sol.isTainted v = false) := by
  constructor
  · obtain ⟨st2, hget, hlock, hls, hgs, hck, hcd, hsink⟩ := c4_st2 k v ctx hk1
    obtain ⟨sol, st3, hsol, htaint⟩ := c4_least st2 k v hk1 hls hgs hck hcd hsink
    exact ⟨_, st2, sol, st3, c4_st1 k v hk1 hk2, hget, hsol, htaint⟩
  · obtain ⟨st2, hget, hlock, hls, hgs, hcons, hsource⟩ := c4u_st2 k v ctx hk1
    obtain ⟨sol, st3, hsol, htaint⟩ :=
      c4_greatest st2 k v hk1 hk3 hls hgs hcons hsource
    exact ⟨_, st2, sol, st3, c4u_st1 k v hk1 hk2, hget, hsol, htaint⟩

theorem set_tainted_roundtrip_with_context_element_witness :
    (("k" : String) ≠ "default" ∧ ("k" : String) ≠ "implicit" ∧
      ("k" : String) ≠ "default-sinks") ∧
    (∃ st1 st2 sol st3,
      IState.setTainted IState.start "k" 7 = some st1 ∧
      st1.getOrCreateConsElem 0 7 = some (1, st2) ∧
      Infoflow.leastSolution st2 ["k"] false false = some (sol, st3) ∧
      sol.isTainted 7 = true) :=
  ⟨⟨by decide, by decide, by decide⟩,
   (set_tainted_roundtrip_with_context_element "k" 7 0 (by decide) (by decide)
     (by decide)).1⟩

/-- C4 counterexample: on a fresh pass, `setTainted("k", 7)` alone followed
by the least solution over `{"k"}` reports `isTainted(7) = false`, not
`true` as the claim states: the least `InfoflowSolution` wraps the
summary-**sink** value map, which never saw value `7`, and the fallback
`defaultTainted` of the least solution is `false`. -/
theorem set_tainted_roundtrip_counterexample : c4Run = some false := by
  rfl

/-- C6: `addConstraint(kind, lhs, rhs)` is fatal when `kind` is already
locked; otherwise a join `rhs` is fatal (so no stored constraint ever has a
join on its right-hand side — the no-join property is preserved); a join
`lhs` over members `S` appends one constraint per member, each with the
same `rhs`; a non-join `lhs` appends the single constraint `(lhs, rhs)`;
other kinds' vectors are untouched. -/
theorem addConstraint_spec (kit : Kit) (kind : String) (lhs rhs : ConsElem) :
    (kind ∈ kit.lockedConstraintKinds →
      kit.addConstraint kind lhs rhs = .error .lockedKind) ∧
    (kind ∉ kit.lockedConstraintKinds → rhs.isJoin = true →
      kit.addConstraint kind lhs rhs = .error .joinOnRhs) ∧
    (kind ∉ kit.lockedConstraintKinds → rhs.isJoin = false →
      ∃ kit', kit.addConstraint kind lhs rhs = .ok kit' ∧
        (∀ l, lhs = .join l →
          kit'.constraints kind =
            kit.constraints kind ++ l.map (fun e => ⟨e, rhs⟩)) ∧
        (lhs.isJoin = false →
          kit'.constraints kind = kit.constraints kind ++ [⟨lhs, rhs⟩]) ∧
        (∀ kk, kk ≠ kind → kit'.constraints kk = kit.constraints kk) ∧
        ((∀ kk c, c ∈ kit.constraints kk → c.rhs.isJoin = false) →
          ∀ kk c, c ∈ kit'.constraints kk → c.rhs.isJoin = false)) := by
  refine ⟨?_, ?_, ?_⟩
  · intro hlock
    rw [Kit.addConstraint, if_pos hlock]
  · intro hlock hjoin
    rw [Kit.addConstraint, if_neg hlock, if_pos hjoin]
  · intro hlock hjoin
    refine ⟨_, by rw [Kit.addConstraint, if_neg hlock, if_neg (by simp [hjoin])], ?_, ?_, ?_, ?_⟩
    · intro l hl
      simp [hl, expandLhs]
    · intro hnj
      match lhs with
      | .join l => simp [ConsElem.isJoin] at hnj
      | .const c => simp [expandLhs]
      | .var w => simp [expandLhs]
    · intro kk hkk
      simp [hkk]
    · intro hold kk c hc
      simp only at hc
      by_cases hkk : kk = kind
      · subst hkk
        simp only [if_pos rfl] at hc
        rcases List.mem_append.mp hc with hc | hc
        · exact hold kk c hc
        · match lhs with
          | .join l =>
              simp only [expandLhs, List.mem_map] at hc
              rcases hc with ⟨e, _, rfl⟩
              simpa [ConsElem.isJoin] using hjoin
          | .const c0 =>
              simp only [expandLhs, List.mem_singleton] at hc
              subst hc
              simpa [ConsElem.isJoin] using hjoin
          | .var w =>
              simp only [expandLhs, List.mem_singleton] at hc
              subst hc
              simpa [ConsElem.isJoin] using hjoin
      · rw [if_neg hkk] at hc
        exact hold kk c hc

theorem addConstraint_spec_witness :
    ("a" ∉ Kit.start.lockedConstraintKinds) ∧
    (ConsElem.var 0).isJoin = false ∧
    ∃ kit', Kit.start.addConstraint "a" (.join [.var 1, .var 2]) (.var 0) = .ok kit' ∧
      kit'.constraints "a" = [⟨.var 1, .var 0⟩, ⟨.var 2, .var 0⟩] := by
  refine ⟨by simp [Kit.start], rfl, ?_⟩
  obtain ⟨kit', hok, hjoin, _, _, _⟩ :=
    (addConstraint_spec Kit.start "a" (.join [.var 1, .var 2]) (.var 0)).2.2
      (by simp [Kit.start]) rfl
  refine ⟨kit', hok, ?_⟩
  rw [hjoin [.var 1, .var 2] rfl]
  rfl

/-! ## The multithreaded bulk solve -/

theorem solveLeastMTLoop_spec :
    ∀ (kinds : List String) (kit : Kit) (acc : List MSol),
    kinds.Nodup →
    (∀ k ∈ kinds, k ∉ kit.lockedConstraintKinds) →
    (∀ k ∈ kinds, kit.leastSolutions k = none) →
    ∃ kit', Kit.solveLeastMTLoop kit kinds acc =
      .ok (acc ++ kinds.map (fun k =>
        (PartialSolutionOf false (kit.constraints k)).copy), kit') ∧
      kit'.constraints = kit.constraints ∧
      (∀ k, k ∈ kit.lockedConstraintKinds → k ∈ kit'.lockedConstraintKinds) ∧
      (∀ k, k ∉ kinds → kit'.leastSolutions k = kit.leastSolutions k) ∧
      (∀ k ∈ kinds, k ∈ kit'.lockedConstraintKinds ∧
        kit'.leastSolutions k = some (PartialSolutionOf false (kit.constraints k))) := by
  intro kinds
  induction kinds with
  | nil =>
      intro kit acc _ _ _
      exact ⟨kit, by simp [Kit.solveLeastMTLoop], rfl, fun _ h => h,
        fun _ _ => rfl, by simp⟩
  | cons k0 rest ih =>
      intro kit acc hnd hl1 hl2
      rw [Kit.solveLeastMTLoop,
        if_neg (hl1 k0 (by simp)), if_neg (by simp [hl2 k0 (by simp)])]
      obtain ⟨kit', hrun, hcons, hlockmono, hlspres, hrest⟩ := ih
        { kit with
          lockedConstraintKinds := k0 :: kit.lockedConstraintKinds,
          leastSolutions := fun k =>
            if k = k0 then some (PartialSolutionOf false (kit.constraints k0))
            else kit.leastSolutions k }
        (acc ++ [(PartialSolutionOf false (kit.constraints k0)).copy])
        ((List.nodup_cons.mp hnd).2)
        (by
          intro k hk
          have hne : k ≠ k0 := by
            intro hcon
            exact (List.nodup_cons.mp hnd).1 (hcon ▸ hk)
          simp only [List.mem_cons]
          push_neg
          exact ⟨hne, hl1 k (by simp [hk])⟩)
        (by
          intro k hk
          have hne : k ≠ k0 := by
            intro hcon
            exact (List.nodup_cons.mp hnd).1 (hcon ▸ hk)
          simp only [if_neg hne]
          exact hl2 k (by simp [hk]))
      refine ⟨kit', ?_, by rw [hcons], ?_, ?_, ?_⟩
      · rw [hrun]
        simp
      · intro k hk
        exact hlockmono k (by simp [hk])
      · intro k hk
        have hk0 : k ≠ k0 := by simp at hk; exact hk.1
        have hkr : k ∉ rest := by simp at hk; exact hk.2
        rw [hlspres k hkr]
        simp [if_neg hk0]
      · intro k hk
        rcases List.mem_cons.mp hk with rfl | hk
        · have hk0 : k ∉ rest := (List.nodup_cons.mp hnd).1
          refine ⟨hlockmono k (by simp), ?_⟩
          rw [hlspres k hk0]
          simp
        · have := hrest k hk
          exact ⟨this.1, this.2⟩

theorem mapM_loop_ok {f : MSol → Except MTErr MSol} {g : MSol → MSol}
    (hf : ∀ M, f M = .ok (g M)) :
    ∀ (l acc : List MSol),
      List.mapM.loop f l acc = .ok (acc.reverse ++ l.map g) := by
  intro l
  induction l with
  | nil =>
      intro acc
      rw [List.mapM.loop]
      show (Except.ok acc.reverse : Except MTErr (List MSol)) =
        .ok (acc.reverse ++ [].map (fun M => g M))
      simp
  | cons M Ms ih =>
      intro acc
      rw [List.mapM.loop, hf M]
      show List.mapM.loop f Ms (g M :: acc) = .ok (acc.reverse ++ (M :: Ms).map g)
      rw [ih]
      simp

theorem mapM_mergeWorker_ok {f : MSol → Except MTErr MSol} {g : MSol → MSol}
    (hf : ∀ M, f M = .ok (g M)) :
    ∀ l : List MSol, l.mapM f = .ok (l.map g) := by
  intro l
  show List.mapM.loop f l [] = .ok (l.map g)
  rw [mapM_loop_ok hf l []]
  simp

theorem mapM_loop_error {f : MSol → Except MTErr MSol} {e : MTErr}
    (hf : ∀ M, f M = .error e) :
    ∀ (l acc : List MSol), l ≠ [] → List.mapM.loop f l acc = .error e := by
  intro l
  match l with
  | [] => intro acc h; exact absurd rfl h
  | M :: Ms =>
      intro acc _
      rw [List.mapM.loop, hf M]
      rfl

theorem mapM_mergeWorker_error {f : MSol → Except MTErr MSol} {e : MTErr}
    (hf : ∀ M, f M = .error e) :
    ∀ l : List MSol, l ≠ [] → l.mapM f = .error e := by
  intro l hl
  show List.mapM.loop f l [] = .error e
  exact mapM_loop_error hf l [] hl

/-- C5: `solveLeastMT` checks only that the `"default"` least baseline
exists (its absence is the fatal `assert`); a missing `"default-sinks"`
baseline with `useDefaultSinks` set is **not** checked up front — the
merge workers dereference the null pointer that
`leastSolutions["default-sinks"]` default-constructed (modelled as the
distinguished outcome `.nullDefaultSinks`), after every requested kind has
already been locked and its solution cached.  On success each requested
kind is locked, its partial solution is built from that kind's constraints
alone and cached, a fresh copy is merged with the `"default"` baseline (and
the `"default-sinks"` baseline when requested), and the merged solutions
come back in input order. -/
theorem solveLeastMT_spec (kit : Kit) (kinds : List String) (uds : Bool)
    (hnd : kinds.Nodup)
    (hfresh1 : ∀ k ∈ kinds, k ∉ kit.lockedConstraintKinds)
    (hfresh2 : ∀ k ∈ kinds, kit.leastSolutions k = none) :
    (kit.leastSolutions "default" = none →
      kit.solveLeastMT kinds uds = .error .noDefaultBaseline) ∧
    (∀ P, kit.leastSolutions "default" = some P →
      (uds = true → kit.leastSolutions "default-sinks" = none → kinds ≠ [] →
        kit.solveLeastMT kinds uds = .error .nullDefaultSinks) ∧
      (uds = false →
        ∃ kit', kit.solveLeastMT kinds uds =
          .ok (kinds.map (fun k =>
            ((PartialSolutionOf false (kit.constraints k)).copy).mergeIn P), kit') ∧
          ∀ k ∈ kinds, k ∈ kit'.lockedConstraintKinds ∧
            kit'.leastSolutions k =
              some (PartialSolutionOf false (kit.constraints k))) ∧
      (∀ D, uds = true → kit.leastSolutions "default-sinks" = some D →
        ∃ kit', kit.solveLeastMT kinds uds =
          .ok (kinds.map (fun k =>
            (((PartialSolutionOf false (kit.constraints k)).copy).mergeIn P).mergeIn D),
            kit') ∧
          ∀ k ∈ kinds, k ∈ kit'.lockedConstraintKinds ∧
            kit'.leastSolutions k =
              some (PartialSolutionOf false (kit.constraints k)))) := by
  constructor
  · intro hdef
    rw [Kit.solveLeastMT, hdef]
  · intro P hdef
    obtain ⟨kit', hrun, hcons, _, _, hdone⟩ :=
      solveLeastMTLoop_spec kinds kit [] hnd hfresh1 hfresh2
    refine ⟨?_, ?_, ?_⟩
    · intro huds hds hne
      subst huds
      rw [Kit.solveLeastMT, hdef, hrun, hds]
      have hmw := mapM_mergeWorker_error (f := mergeWorker P none true)
        (e := .nullDefaultSinks) (fun M => rfl)
        (kinds.map (fun k => (PartialSolutionOf false (kit.constraints k)).copy))
        (by simpa using hne)
      simp only [List.nil_append, hmw]
    · intro huds
      subst huds
      rw [Kit.solveLeastMT, hdef, hrun]
      have hmw := mapM_mergeWorker_ok
        (f := mergeWorker P (kit.leastSolutions "default-sinks") false)
        (g := fun M => M.mergeIn P) (fun M => rfl)
        (kinds.map (fun k => (PartialSolutionOf false (kit.constraints k)).copy))
      refine ⟨kit', ?_, hdone⟩
      simp only [List.nil_append, hmw, List.map_map]
      rfl
    · intro D huds hds
      subst huds
      rw [Kit.solveLeastMT, hdef, hrun, hds]
      have hmw := mapM_mergeWorker_ok (f := mergeWorker P (some D) true)
        (g := fun M => (M.mergeIn P).mergeIn D) (fun M => rfl)
        (kinds.map (fun k => (PartialSolutionOf false (kit.constraints k)).copy))
      refine ⟨kit', ?_, hdone⟩
      simp only [List.nil_append, hmw, List.map_map]
      rfl

theorem solveLeastMT_spec_witness :
    (["a"].Nodup ∧ (∀ k ∈ ["a"], k ∉ c5Kit.lockedConstraintKinds) ∧
      (∀ k ∈ ["a"], c5Kit.leastSolutions k = none) ∧
      c5Kit.leastSolutions "default" = some (PartialSolutionOf false []) ∧
      c5Kit.leastSolutions "default-sinks" = none ∧ (["a"] : List String) ≠ []) ∧
    c5Kit.solveLeastMT ["a"] true = .error .nullDefaultSinks := by
  refine ⟨⟨by decide, ?_, ?_, rfl, rfl, by simp⟩, ?_⟩
  · intro k hk
    have hk' : k = "a" := by simpa using hk
    subst hk'
    simp [c5Kit, Kit.start]
  · intro k hk
    have hk' : k = "a" := by simpa using hk
    subst hk'
    rfl
  · exact (((solveLeastMT_spec c5Kit ["a"] true (by decide)
      (by
        intro k hk
        have hk' : k = "a" := by simpa using hk
        subst hk'
        simp [c5Kit, Kit.start])
      (by
        intro k hk
        have hk' : k = "a" := by simpa using hk
        subst hk'
        rfl)).2 (PartialSolutionOf false []) rfl).1) rfl rfl (by simp)

/-- C5 counterexample: with the `"default"` least baseline solved but no
`"default-sinks"` baseline, `solveLeastMT(["a"], true)` does not fail an
up-front existence requirement for `"default-sinks"` as the claim states:
the per-kind preparation loop runs to completion (locking `"a"` and caching
its solution) and the failure is the dereference of the null pointer that
`leastSolutions["default-sinks"]` default-constructed, inside the merge
worker — modelled as the distinguished outcome `.nullDefaultSinks`,
different from the checked fatal `.noDefaultBaseline`. -/
theorem solveLeastMT_missing_default_sinks_counterexample :
    c5Kit.solveLeastMT ["a"] true = .error .nullDefaultSinks ∧
    MTErr.nullDefaultSinks ≠ MTErr.noDefaultBaseline := by
  constructor
  · rfl
  · decide

/-! ## Effect lemmas for the `Infoflow` state operations -/

theorem addK_spec {st : IState} {kind : String} {lhs rhs : ConsElem} {st' : IState}
    (h : st.addK kind lhs rhs = some st') :
    st'.kit.lockedConstraintKinds = st.kit.lockedConstraintKinds ∧
    st'.kit.leastSolutions = st.kit.leastSolutions ∧
    st'.kit.greatestSolutions = st.kit.greatestSolutions ∧
    st'.kit.nextVar = st.kit.nextVar ∧
    rhs.isJoin = false ∧
    (∀ kk, st'.kit.constraints kk =
      if kk = kind then st.kit.constraints kind ++ expandLhs lhs rhs
      else st.kit.constraints kk) ∧
    st'.summarySourceValueConstraintMap = st.summarySourceValueConstraintMap ∧
    st'.summarySinkValueConstraintMap = st.summarySinkValueConstraintMap ∧
    st'.summarySourceVargConstraintMap = st.summarySourceVargConstraintMap ∧
    st'.summarySinkVargConstraintMap = st.summarySinkVargConstraintMap ∧
    st'.valueConstraintMap = st.valueConstraintMap ∧
    st'.vargConstraintMap = st.vargConstraintMap := by
  rw [IState.addK, Kit.addConstraint] at h
  by_cases h1 : kind ∈ st.kit.lockedConstraintKinds
  · rw [if_pos h1] at h
    exact absurd h (by simp)
  · rw [if_neg h1] at h
    by_cases h2 : rhs.isJoin = true
    · rw [if_pos h2] at h
      exact absurd h (by simp)
    · rw [if_neg h2] at h
      simp only [Option.some.injEq] at h
      subst h
      refine ⟨rfl, rfl, rfl, rfl, by simpa using h2, ?_, rfl, rfl, rfl, rfl, rfl, rfl⟩
      intro kk
      rfl

theorem gocSSV_spec {st : IState} {v x : Nat} {st' : IState}
    (h : st.getOrCreateConsElemSummarySource v = (x, st')) :
    st'.kit.lockedConstraintKinds = st.kit.lockedConstraintKinds ∧
    st'.kit.leastSolutions = st.kit.leastSolutions ∧
    st'.kit.greatestSolutions = st.kit.greatestSolutions ∧
    st'.kit.constraints = st.kit.constraints ∧
    st'.summarySinkValueConstraintMap = st.summarySinkValueConstraintMap ∧
    st'.summarySourceVargConstraintMap = st.summarySourceVargConstraintMap ∧
    st'.summarySinkVargConstraintMap = st.summarySinkVargConstraintMap ∧
    st'.valueConstraintMap = st.valueConstraintMap ∧
    st'.vargConstraintMap = st.vargConstraintMap ∧
    st'.summarySourceValueConstraintMap v = some x ∧
    (∀ w, w ≠ v →
      st'.summarySourceValueConstraintMap w = st.summarySourceValueConstraintMap w) ∧
    ((st' = st ∧ st.summarySourceValueConstraintMap v = some x) ∨
     (st.summarySourceValueConstraintMap v = none ∧ x = st.kit.nextVar ∧
      st'.kit.nextVar = st.kit.nextVar + 1)) := by
  cases hm : st.summarySourceValueConstraintMap v with
  | some e =>
      simp only [IState.getOrCreateConsElemSummarySource, hm] at h
      rcases h with ⟨rfl, rfl⟩
      exact ⟨rfl, rfl, rfl, rfl, rfl, rfl, rfl, rfl, rfl, hm, fun _ _ => rfl,
        Or.inl ⟨rfl, rfl⟩⟩
  | none =>
      simp only [IState.getOrCreateConsElemSummarySource, hm, Kit.newVar] at h
      rcases h with ⟨rfl, rfl⟩
      refine ⟨rfl, rfl, rfl, rfl, rfl, rfl, rfl, rfl, rfl, by simp, ?_,
        Or.inr ⟨rfl, rfl, rfl⟩⟩
      intro w hw
      simp [hw]

theorem gocSKV_spec {st : IState} {v x : Nat} {st' : IState}
    (h : st.getOrCreateConsElemSummarySink v = (x, st')) :
    st'.kit.lockedConstraintKinds = st.kit.lockedConstraintKinds ∧
    st'.kit.leastSolutions = st.kit.leastSolutions ∧
    st'.kit.greatestSolutions = st.kit.greatestSolutions ∧
    st'.kit.constraints = st.kit.constraints ∧
    st'.summarySourceValueConstraintMap = st.summarySourceValueConstraintMap ∧
    st'.summarySourceVargConstraintMap = st.summarySourceVargConstraintMap ∧
    st'.summarySinkVargConstraintMap = st.summarySinkVargConstraintMap ∧
    st'.valueConstraintMap = st.valueConstraintMap ∧
    st'.vargConstraintMap = st.vargConstraintMap ∧
    st'.summarySinkValueConstraintMap v = some x ∧
    (∀ w, w ≠ v →
      st'.summarySinkValueConstraintMap w = st.summarySinkValueConstraintMap w) ∧
    ((st' = st ∧ st.summarySinkValueConstraintMap v = some x) ∨
     (st.summarySinkValueConstraintMap v = none ∧ x = st.kit.nextVar ∧
      st'.kit.nextVar = st.kit.nextVar + 1)) := by
  cases hm : st.summarySinkValueConstraintMap v with
  | some e =>
      simp only [IState.getOrCreateConsElemSummarySink, hm] at h
      rcases h with ⟨rfl, rfl⟩
      exact ⟨rfl, rfl, rfl, rfl, rfl, rfl, rfl, rfl, rfl, hm, fun _ _ => rfl,
        Or.inl ⟨rfl, rfl⟩⟩
  | none =>
      simp only [IState.getOrCreateConsElemSummarySink, hm, Kit.newVar] at h
      rcases h with ⟨rfl, rfl⟩
      refine ⟨rfl, rfl, rfl, rfl, rfl, rfl, rfl, rfl, rfl, by simp, ?_,
        Or.inr ⟨rfl, rfl, rfl⟩⟩
      intro w hw
      simp [hw]

theorem gocSSVg_spec {st : IState} {f x : Nat} {st' : IState}
    (h : st.getOrCreateVargConsElemSummarySource f = (x, st')) :
    st'.kit.lockedConstraintKinds = st.kit.lockedConstraintKinds ∧
    st'.kit.leastSolutions = st.kit.leastSolutions ∧
    st'.kit.greatestSolutions = st.kit.greatestSolutions ∧
    st'.kit.constraints = st.kit.constraints ∧
    st'.summarySourceValueConstraintMap = st.summarySourceValueConstraintMap ∧
    st'.summarySinkValueConstraintMap = st.summarySinkValueConstraintMap ∧
    st'.summarySinkVargConstraintMap = st.summarySinkVargConstraintMap ∧
    st'.valueConstraintMap = st.valueConstraintMap ∧
    st'.vargConstraintMap = st.vargConstraintMap ∧
    st'.summarySourceVargConstraintMap f = some x ∧
    (∀ w, w ≠ f →
      st'.summarySourceVargConstraintMap w = st.summarySourceVargConstraintMap w) ∧
    ((st' = st ∧ st.summarySourceVargConstraintMap f = some x) ∨
     (st.summarySourceVargConstraintMap f = none ∧ x = st.kit.nextVar ∧
      st'.kit.nextVar = st.kit.nextVar + 1)) := by
  cases hm : st.summarySourceVargConstraintMap f with
  | some e =>
      simp only [IState.getOrCreateVargConsElemSummarySource, hm] at h
      rcases h with ⟨rfl, rfl⟩
      exact ⟨rfl, rfl, rfl, rfl, rfl, rfl, rfl, rfl, rfl, hm, fun _ _ => rfl,
        Or.inl ⟨rfl, rfl⟩⟩
  | none =>
      simp only [IState.getOrCreateVargConsElemSummarySource, hm, Kit.newVar] at h
      rcases h with ⟨rfl, rfl⟩
      refine ⟨rfl, rfl, rfl, rfl, rfl, rfl, rfl, rfl, rfl, by simp, ?_,
        Or.inr ⟨rfl, rfl, rfl⟩⟩
      intro w hw
      simp [hw]

theorem gocSKVg_spec {st : IState} {f x : Nat} {st' : IState}
    (h : st.getOrCreateVargConsElemSummarySink f = (x, st')) :
    st'.kit.lockedConstraintKinds = st.kit.lockedConstraintKinds ∧
    st'.kit.leastSolutions = st.kit.leastSolutions ∧
    st'.kit.greatestSolutions = st.kit.greatestSolutions ∧
    st'.kit.constraints = st.kit.constraints ∧
    st'.summarySourceValueConstraintMap = st.summarySourceValueConstraintMap ∧
    st'.summarySinkValueConstraintMap = st.summarySinkValueConstraintMap ∧
    st'.summarySourceVargConstraintMap = st.summarySourceVargConstraintMap ∧
    st'.valueConstraintMap = st.valueConstraintMap ∧
    st'.vargConstraintMap = st.vargConstraintMap ∧
    st'.summarySinkVargConstraintMap f = some x ∧
    (∀ w, w ≠ f →
      st'.summarySinkVargConstraintMap w = st.summarySinkVargConstraintMap w) ∧
    ((st' = st ∧ st.summarySinkVargConstraintMap f = some x) ∨
     (st.summarySinkVargConstraintMap f = none ∧ x = st.kit.nextVar ∧
      st'.kit.nextVar = st.kit.nextVar + 1)) := by
  cases hm : st.summarySinkVargConstraintMap f with
  | some e =>
      simp only [IState.getOrCreateVargConsElemSummarySink, hm] at h
      rcases h with ⟨rfl, rfl⟩
      exact ⟨rfl, rfl, rfl, rfl, rfl, rfl, rfl, rfl, rfl, hm, fun _ _ => rfl,
        Or.inl ⟨rfl, rfl⟩⟩
  | none =>
      simp only [IState.getOrCreateVargConsElemSummarySink, hm, Kit.newVar] at h
      rcases h with ⟨rfl, rfl⟩
      refine ⟨rfl, rfl, rfl, rfl, rfl, rfl, rfl, rfl, rfl, by simp, ?_,
        Or.inr ⟨rfl, rfl, rfl⟩⟩
      intro w hw
      simp [hw]

theorem getOrCreateConsElem_spec {st : IState} {ctxt v e : Nat} {st' : IState}
    (h : st.getOrCreateConsElem ctxt v = some (e, st')) :
    st'.kit.lockedConstraintKinds = st.kit.lockedConstraintKinds ∧
    st'.kit.leastSolutions = st.kit.leastSolutions ∧
    st'.kit.greatestSolutions = st.kit.greatestSolutions ∧
    st'.summarySourceVargConstraintMap = st.summarySourceVargConstraintMap ∧
    st'.summarySinkVargConstraintMap = st.summarySinkVargConstraintMap ∧
    st'.vargConstraintMap = st.vargConstraintMap ∧
    ((st' = st ∧ st.valueConstraintMap ctxt v = some e) ∨
     (st.valueConstraintMap ctxt v = none ∧ e = st.kit.nextVar ∧
      st.kit.nextVar < st'.kit.nextVar ∧
      ∃ s t,
        (st.summarySourceValueConstraintMap v = some s ∨
          (st.summarySourceValueConstraintMap v = none ∧
            st.kit.nextVar ≤ s ∧ s < st'.kit.nextVar)) ∧
        (st.summarySinkValueConstraintMap v = some t ∨
          (st.summarySinkValueConstraintMap v = none ∧
            st.kit.nextVar ≤ t ∧ t < st'.kit.nextVar)) ∧
        st'.summarySourceValueConstraintMap v = some s ∧
        (∀ w, w ≠ v → st'.summarySourceValueConstraintMap w =
          st.summarySourceValueConstraintMap w) ∧
        st'.summarySinkValueConstraintMap v = some t ∧
        (∀ w, w ≠ v → st'.summarySinkValueConstraintMap w =
          st.summarySinkValueConstraintMap w) ∧
        (∀ c w, st'.valueConstraintMap c w =
          if c = ctxt ∧ w = v then some e else st.valueConstraintMap c w) ∧
        (∀ kk, st'.kit.constraints kk =
          if kk = "default" then
            st.kit.constraints "default" ++ [⟨.var s, .var e⟩, ⟨.var e, .var t⟩]
          else st.kit.constraints kk))) := by
  cases hvm : st.valueConstraintMap ctxt v with
  | some e0 =>
      simp only [IState.getOrCreateConsElem, hvm] at h
      rcases h with ⟨rfl, rfl⟩
      exact ⟨rfl, rfl, rfl, rfl, rfl, rfl, Or.inl ⟨rfl, rfl⟩⟩
  | none =>
      simp only [IState.getOrCreateConsElem, hvm] at h
      rcases hss : IState.getOrCreateConsElemSummarySource
        { st with
          kit := st.kit.newVar.2,
          valueConstraintMap := fun c w =>
            if c = ctxt ∧ w = v then some st.kit.newVar.1
            else st.valueConstraintMap c w } v with ⟨s, st2⟩
      simp only [hss] at h
      obtain ⟨A1, A2, A3, A4, A5, A6, A7, A8, A9, A10, A11, A12⟩ := gocSSV_spec hss
      cases haddk : st2.addK "default" (.var s) (.var st.kit.newVar.1) with
      | none => simp [haddk] at h
      | some st3 =>
          simp only [haddk] at h
          obtain ⟨B1, B2, B3, B4, _, B6, B7, B8, B9, B10, B11, B12⟩ := addK_spec haddk
          simp only [IState.putOrConstrainConsElemSummarySink] at h
          rcases hsk : IState.getOrCreateConsElemSummarySink st3 v with ⟨t, st4⟩
          simp only [hsk] at h
          obtain ⟨C1, C2, C3, C4, C5, C6, C7, C8, C9, C10, C11, C12⟩ := gocSKV_spec hsk
          cases haddk2 : st4.addK "default" (.var st.kit.newVar.1) (.var t) with
          | none => simp [haddk2] at h
          | some st5 =>
              simp only [haddk2, Option.some.injEq, Prod.mk.injEq] at h
              obtain ⟨rfl, rfl⟩ := h
              obtain ⟨D1, D2, D3, D4, _, D6, D7, D8, D9, D10, D11, D12⟩ :=
                addK_spec haddk2
              have hsv : st.summarySourceValueConstraintMap v = some s ∨
                  (st.summarySourceValueConstraintMap v = none ∧
                    s = st.kit.nextVar + 1 ∧
                    st2.kit.nextVar = st.kit.nextVar + 2) := by
                rcases A12 with ⟨heq, hv⟩ | ⟨hv, hs2, hn2⟩
                · exact Or.inl hv
                · exact Or.inr ⟨hv, hs2, hn2⟩
              have hn2 : st2.kit.nextVar = st.kit.nextVar + 1 ∨
                  st2.kit.nextVar = st.kit.nextVar + 2 := by
                rcases A12 with ⟨heq, _⟩ | ⟨_, _, hn2⟩
                · rw [heq]
                  exact Or.inl rfl
                · exact Or.inr hn2
              have hskv3 : st3.summarySinkValueConstraintMap v =
                  st.summarySinkValueConstraintMap v := by
                rw [B8, A5]
              have hn3 : st3.kit.nextVar = st2.kit.nextVar := B4
              have htv : st.summarySinkValueConstraintMap v = some t ∨
                  (st.summarySinkValueConstraintMap v = none ∧
                    t = st3.kit.nextVar ∧
                    st4.kit.nextVar = st3.kit.nextVar + 1) := by
                rcases C12 with ⟨heq, hv⟩ | ⟨hv, ht2, hn4⟩
                · rw [hskv3] at hv
                  exact Or.inl hv
                · rw [hskv3] at hv
                  exact Or.inr ⟨hv, ht2, hn4⟩
              have hn4 : st4.kit.nextVar = st3.kit.nextVar ∨
                  st4.kit.nextVar = st3.kit.nextVar + 1 := by
                rcases C12 with ⟨heq, _⟩ | ⟨_, _, hn4⟩
                · rw [heq]
                  exact Or.inl rfl
                · exact Or.inr hn4
              have hn5 : st5.kit.nextVar = st4.kit.nextVar := D4
              have hlt : st.kit.nextVar < st5.kit.nextVar := by
                rcases hn2 with h2 | h2 <;> rcases hn4 with h4 | h4 <;> omega
              refine ⟨?_, ?_, ?_, ?_, ?_, ?_, Or.inr ⟨rfl, rfl, hlt, s, t, ?_, ?_,
                ?_, ?_, ?_, ?_, ?_, ?_⟩⟩
              · rw [D1, C1, B1, A1]
                rfl
              · rw [D2, C2, B2, A2]
                rfl
              · rw [D3, C3, B3, A3]
                rfl
              · rw [D9, C6, B9, A6]
              · rw [D10, C7, B10, A7]
              · rw [D12, C9, B12, A9]
              · rcases hsv with hv | ⟨hv, hs2, _⟩
                · exact Or.inl hv
                · refine Or.inr ⟨hv, by omega, ?_⟩
                  rcases hn2 with h2 | h2 <;> rcases hn4 with h4 | h4 <;> omega
              · rcases htv with hv | ⟨hv, ht2, hn4'⟩
                · exact Or.inl hv
                · refine Or.inr ⟨hv, ?_, ?_⟩
                  · rcases hn2 with h2 | h2 <;> omega
                  · omega
              · rw [D7, C5, B7, A10]
              · intro w hw
                rw [D7, C5, B7, A11 w hw]
              · rw [D8, C10]
              · intro w hw
                rw [D8, C11 w hw, B8, A5]
              · intro c w
                rw [D11, C8, B11, A8]
              · intro kk
                rw [D6, C4]
                by_cases hd : kk = "default"
                · subst hd
                  rw [if_pos rfl, if_pos rfl, B6, if_pos rfl, A4]
                  simp [expandLhs, Kit.newVar, List.append_assoc]
                · rw [if_neg hd, if_neg hd, B6, if_neg hd, A4]
                  rfl

theorem getOrCreateVargConsElem_spec {st : IState} {ctxt f e : Nat} {st' : IState}
    (h : st.getOrCreateVargConsElem ctxt f = some (e, st')) :
    st'.kit.lockedConstraintKinds = st.kit.lockedConstraintKinds ∧
    st'.kit.leastSolutions = st.kit.leastSolutions ∧
    st'.kit.greatestSolutions = st.kit.greatestSolutions ∧
    st'.summarySourceVargConstraintMap = st.summarySourceVargConstraintMap ∧
    st'.valueConstraintMap = st.valueConstraintMap ∧
    ((st' = st ∧ st.vargConstraintMap ctxt f = some e) ∨
     (st.vargConstraintMap ctxt f = none ∧ e = st.kit.nextVar ∧
      st.kit.nextVar < st'.kit.nextVar ∧
      ∃ s t,
        (st.summarySourceValueConstraintMap f = some s ∨
          (st.summarySourceValueConstraintMap f = none ∧
            st.kit.nextVar ≤ s ∧ s < st'.kit.nextVar)) ∧
        (st.summarySinkVargConstraintMap f = some t ∨
          (st.summarySinkVargConstraintMap f = none ∧
            st.kit.nextVar ≤ t ∧ t < st'.kit.nextVar)) ∧
        st'.summarySourceValueConstraintMap f = some s ∧
        (∀ w, w ≠ f → st'.summarySourceValueConstraintMap w =
          st.summarySourceValueConstraintMap w) ∧
        st'.summarySinkValueConstraintMap = st.summarySinkValueConstraintMap ∧
        st'.summarySinkVargConstraintMap f = some t ∧
        (∀ w, w ≠ f → st'.summarySinkVargConstraintMap w =
          st.summarySinkVargConstraintMap w) ∧
        (∀ c w, st'.vargConstraintMap c w =
          if c = ctxt ∧ w = f then some e else st.vargConstraintMap c w) ∧
        (∀ kk, st'.kit.constraints kk =
          if kk = "default" then
            st.kit.constraints "default" ++ [⟨.var s, .var e⟩, ⟨.var e, .var t⟩]
          else st.kit.constraints kk))) := by
  cases hvm : st.vargConstraintMap ctxt f with
  | some e0 =>
      simp only [IState.getOrCreateVargConsElem, hvm] at h
      rcases h with ⟨rfl, rfl⟩
      exact ⟨rfl, rfl, rfl, rfl, rfl, Or.inl ⟨rfl, rfl⟩⟩
  | none =>
      simp only [IState.getOrCreateVargConsElem, hvm] at h
      rcases hss : IState.getOrCreateConsElemSummarySource
        { st with
          kit := st.kit.newVar.2,
          vargConstraintMap := fun c w =>
            if c = ctxt ∧ w = f then some st.kit.newVar.1
            else st.vargConstraintMap c w } f with ⟨s, st2⟩
      simp only [hss] at h
      obtain ⟨A1, A2, A3, A4, A5, A6, A7, A8, A9, A10, A11, A12⟩ := gocSSV_spec hss
      cases haddk : st2.addK "default" (.var s) (.var st.kit.newVar.1) with
      | none => simp [haddk] at h
      | some st3 =>
          simp only [haddk] at h
          obtain ⟨B1, B2, B3, B4, _, B6, B7, B8, B9, B10, B11, B12⟩ := addK_spec haddk
          simp only [IState.putOrConstrainVargConsElemSummarySink] at h
          rcases hsk : IState.getOrCreateVargConsElemSummarySink st3 f with ⟨t, st4⟩
          simp only [hsk] at h
          obtain ⟨C1, C2, C3, C4, C5, C6, C7, C8, C9, C10, C11, C12⟩ := gocSKVg_spec hsk
          cases haddk2 : st4.addK "default" (.var st.kit.newVar.1) (.var t) with
          | none => simp [haddk2] at h
          | some st5 =>
              simp only [haddk2, Option.some.injEq, Prod.mk.injEq] at h
              obtain ⟨rfl, rfl⟩ := h
              obtain ⟨D1, D2, D3, D4, _, D6, D7, D8, D9, D10, D11, D12⟩ :=
                addK_spec haddk2
              have hsv : st.summarySourceValueConstraintMap f = some s ∨
                  (st.summarySourceValueConstraintMap f = none ∧
                    s = st.kit.nextVar + 1 ∧
                    st2.kit.nextVar = st.kit.nextVar + 2) := by
                rcases A12 with ⟨heq, hv⟩ | ⟨hv, hs2, hn2⟩
                · exact Or.inl hv
                · exact Or.inr ⟨hv, hs2, hn2⟩
              have hn2 : st2.kit.nextVar = st.kit.nextVar + 1 ∨
                  st2.kit.nextVar = st.kit.nextVar + 2 := by
                rcases A12 with ⟨heq, _⟩ | ⟨_, _, hn2⟩
                · rw [heq]
                  exact Or.inl rfl
                · exact Or.inr hn2
              have hskv3 : st3.summarySinkVargConstraintMap f =
                  st.summarySinkVargConstraintMap f := by
                rw [B10, A7]
              have hn3 : st3.kit.nextVar = st2.kit.nextVar := B4
              have htv : st.summarySinkVargConstraintMap f = some t ∨
                  (st.summarySinkVargConstraintMap f = none ∧
                    t = st3.kit.nextVar ∧
                    st4.kit.nextVar = st3.kit.nextVar + 1) := by
                rcases C12 with ⟨heq, hv⟩ | ⟨hv, ht2, hn4⟩
                · rw [hskv3] at hv
                  exact Or.inl hv
                · rw [hskv3] at hv
                  exact Or.inr ⟨hv, ht2, hn4⟩
              have hn4 : st4.kit.nextVar = st3.kit.nextVar ∨
                  st4.kit.nextVar = st3.kit.nextVar + 1 := by
                rcases C12 with ⟨heq, _⟩ | ⟨_, _, hn4⟩
                · rw [heq]
                  exact Or.inl rfl
                · exact Or.inr hn4
              have hn5 : st5.kit.nextVar = st4.kit.nextVar := D4
              have hlt : st.kit.nextVar < st5.kit.nextVar := by
                rcases hn2 with h2 | h2 <;> rcases hn4 with h4 | h4 <;> omega
              refine ⟨?_, ?_, ?_, ?_, ?_, Or.inr ⟨rfl, rfl, hlt, s, t, ?_, ?_,
                ?_, ?_, ?_, ?_, ?_, ?_, ?_⟩⟩
              · rw [D1, C1, B1, A1]
                rfl
              · rw [D2, C2, B2, A2]
                rfl
              · rw [D3, C3, B3, A3]
                rfl
              · rw [D9, C7, B9, A6]
              · rw [D11, C8, B11, A8]
              · rcases hsv with hv | ⟨hv, hs2, _⟩
                · exact Or.inl hv
                · refine Or.inr ⟨hv, by omega, ?_⟩
                  rcases hn2 with h2 | h2 <;> rcases hn4 with h4 | h4 <;> omega
              · rcases htv with hv | ⟨hv, ht2, hn4'⟩
                · exact Or.inl hv
                · refine Or.inr ⟨hv, ?_, ?_⟩
                  · rcases hn2 with h2 | h2 <;> omega
                  · omega
              · rw [D7, C5, B7, A10]
              · intro w hw
                rw [D7, C5, B7, A11 w hw]
              · rw [D8, C6, B8, A5]
              · rw [D10, C10]
              · intro w hw
                rw [D10, C11 w hw, B10, A7]
              · intro c w
                rw [D12, C9, B12, A9]
              · intro kk
                rw [D6, C4]
                by_cases hd : kk = "default"
                · subst hd
                  rw [if_pos rfl, if_pos rfl, B6, if_pos rfl, A4]
                  simp [expandLhs, Kit.newVar, List.append_assoc]
                · rw [if_neg hd, if_neg hd, B6, if_neg hd, A4]
                  rfl

theorem setTainted_spec {st : IState} {kind : String} {v : Nat} {st' : IState}
    (h : st.setTainted kind v = some st') :
    st'.kit.lockedConstraintKinds = st.kit.lockedConstraintKinds ∧
    st'.kit.leastSolutions = st.kit.leastSolutions ∧
    st'.kit.greatestSolutions = st.kit.greatestSolutions ∧
    st'.summarySinkValueConstraintMap = st.summarySinkValueConstraintMap ∧
    st'.summarySourceVargConstraintMap = st.summarySourceVargConstraintMap ∧
    st'.summarySinkVargConstraintMap = st.summarySinkVargConstraintMap ∧
    st'.valueConstraintMap = st.valueConstraintMap ∧
    st'.vargConstraintMap = st.vargConstraintMap ∧
    ∃ s, st'.summarySourceValueConstraintMap v = some s ∧
      (∀ w, w ≠ v → st'.summarySourceValueConstraintMap w =
        st.summarySourceValueConstraintMap w) ∧
      ((st.summarySourceValueConstraintMap v = some s ∧
        st'.kit.nextVar = st.kit.nextVar) ∨
       (st.summarySourceValueConstraintMap v = none ∧ s = st.kit.nextVar ∧
        st'.kit.nextVar = st.kit.nextVar + 1)) ∧
      (∀ kk, st'.kit.constraints kk =
        if kk = kind then st.kit.constraints kind ++ [⟨.const .high, .var s⟩]
        else st.kit.constraints kk) := by
  rw [IState.setTainted] at h
  by_cases hg : kind = "default" ∨ kind = "implicit"
  · rw [if_pos hg] at h
    exact absurd h (by simp)
  · rw [if_neg hg] at h
    rcases hss : IState.getOrCreateConsElemSummarySource st v with ⟨s, st1⟩
    simp only [IState.putOrConstrainConsElemSummarySource, hss] at h
    obtain ⟨A1, A2, A3, A4, A5, A6, A7, A8, A9, A10, A11, A12⟩ := gocSSV_spec hss
    obtain ⟨B1, B2, B3, B4, _, B6, B7, B8, B9, B10, B11, B12⟩ := addK_spec h
    refine ⟨by rw [B1, A1], by rw [B2, A2], by rw [B3, A3], by rw [B8, A5],
      by rw [B9, A6], by rw [B10, A7], by rw [B11, A8], by rw [B12, A9],
      s, by rw [B7, A10], ?_, ?_, ?_⟩
    · intro w hw
      rw [B7, A11 w hw]
    · rcases A12 with ⟨heq, hv⟩ | ⟨hv, hs2, hn2⟩
      · refine Or.inl ⟨hv, ?_⟩
        rw [B4, heq]
      · refine Or.inr ⟨hv, hs2, ?_⟩
        rw [B4, hn2]
    · intro kk
      rw [B6, A4]
      rfl

theorem setUntainted_spec {st : IState} {kind : String} {v : Nat} {st' : IState}
    (h : st.setUntainted kind v = some st') :
    st'.kit.lockedConstraintKinds = st.kit.lockedConstraintKinds ∧
    st'.kit.leastSolutions = st.kit.leastSolutions ∧
    st'.kit.greatestSolutions = st.kit.greatestSolutions ∧
    st'.summarySourceValueConstraintMap = st.summarySourceValueConstraintMap ∧
    st'.summarySourceVargConstraintMap = st.summarySourceVargConstraintMap ∧
    st'.summarySinkVargConstraintMap = st.summarySinkVargConstraintMap ∧
    st'.valueConstraintMap = st.valueConstraintMap ∧
    st'.vargConstraintMap = st.vargConstraintMap ∧
    ∃ t, st'.summarySinkValueConstraintMap v = some t ∧
      (∀ w, w ≠ v → st'.summarySinkValueConstraintMap w =
        st.summarySinkValueConstraintMap w) ∧
      ((st.summarySinkValueConstraintMap v = some t ∧
        st'.kit.nextVar = st.kit.nextVar) ∨
       (st.summarySinkValueConstraintMap v = none ∧ t = st.kit.nextVar ∧
        st'.kit.nextVar = st.kit.nextVar + 1)) ∧
      (∀ kk, st'.kit.constraints kk =
        if kk = kind then st.kit.constraints kind ++ [⟨.var t, .const .low⟩]
        else st.kit.constraints kk) := by
  rw [IState.setUntainted] at h
  by_cases hg : kind = "default" ∨ kind = "implicit"
  · rw [if_pos hg] at h
    exact absurd h (by simp)
  · rw [if_neg hg] at h
    rcases hss : IState.getOrCreateConsElemSummarySink st v with ⟨t, st1⟩
    simp only [hss] at h
    obtain ⟨A1, A2, A3, A4, A5, A6, A7, A8, A9, A10, A11, A12⟩ := gocSKV_spec hss
    obtain ⟨B1, B2, B3, B4, _, B6, B7, B8, B9, B10, B11, B12⟩ := addK_spec h
    refine ⟨by rw [B1, A1], by rw [B2, A2], by rw [B3, A3], by rw [B7, A5],
      by rw [B9, A6], by rw [B10, A7], by rw [B11, A8], by rw [B12, A9],
      t, by rw [B8, A10], ?_, ?_, ?_⟩
    · intro w hw
      rw [B8, A11 w hw]
    · rcases A12 with ⟨heq, hv⟩ | ⟨hv, hs2, hn2⟩
      · refine Or.inl ⟨hv, ?_⟩
        rw [B4, heq]
      · refine Or.inr ⟨hv, hs2, ?_⟩
        rw [B4, hn2]
    · intro kk
      rw [B6, A4]
      rfl

theorem setVargTainted_spec {st : IState} {kind : String} {f : Nat} {st' : IState}
    (h : st.setVargTainted kind f = some st') :
    st'.kit.lockedConstraintKinds = st.kit.lockedConstraintKinds ∧
    st'.kit.leastSolutions = st.kit.leastSolutions ∧
    st'.kit.greatestSolutions = st.kit.greatestSolutions ∧
    st'.summarySourceValueConstraintMap = st.summarySourceValueConstraintMap ∧
    st'.summarySinkValueConstraintMap = st.summarySinkValueConstraintMap ∧
    st'.summarySinkVargConstraintMap = st.summarySinkVargConstraintMap ∧
    st'.valueConstraintMap = st.valueConstraintMap ∧
    st'.vargConstraintMap = st.vargConstraintMap ∧
    ∃ s, st'.summarySourceVargConstraintMap f = some s ∧
      (∀ w, w ≠ f → st'.summarySourceVargConstraintMap w =
        st.summarySourceVargConstraintMap w) ∧
      ((st.summarySourceVargConstraintMap f = some s ∧
        st'.kit.nextVar = st.kit.nextVar) ∨
       (st.summarySourceVargConstraintMap f = none ∧ s = st.kit.nextVar ∧
        st'.kit.nextVar = st.kit.nextVar + 1)) ∧
      (∀ kk, st'.kit.constraints kk =
        if kk = kind then st.kit.constraints kind ++ [⟨.const .high, .var s⟩]
        else st.kit.constraints kk) := by
  rw [IState.setVargTainted] at h
  by_cases hg : kind = "default" ∨ kind = "implicit"
  · rw [if_pos hg] at h
    exact absurd h (by simp)
  · rw [if_neg hg] at h
    rcases hss : IState.getOrCreateVargConsElemSummarySource st f with ⟨s, st1⟩
    simp only [IState.putOrConstrainVargConsElemSummarySource, hss] at h
    obtain ⟨A1, A2, A3, A4, A5, A6, A7, A8, A9, A10, A11, A12⟩ := gocSSVg_spec hss
    obtain ⟨B1, B2, B3, B4, _, B6, B7, B8, B9, B10, B11, B12⟩ := addK_spec h
    refine ⟨by rw [B1, A1], by rw [B2, A2], by rw [B3, A3], by rw [B7, A5],
      by rw [B8, A6], by rw [B10, A7], by rw [B11, A8], by rw [B12, A9],
      s, by rw [B9, A10], ?_, ?_, ?_⟩
    · intro w hw
      rw [B9, A11 w hw]
    · rcases A12 with ⟨heq, hv⟩ | ⟨hv, hs2, hn2⟩
      · refine Or.inl ⟨hv, ?_⟩
        rw [B4, heq]
      · refine Or.inr ⟨hv, hs2, ?_⟩
        rw [B4, hn2]
    · intro kk
      rw [B6, A4]
      rfl

theorem setVargUntainted_spec {st : IState} {kind : String} {f : Nat} {st' : IState}
    (h : st.setVargUntainted kind f = some st') :
    st'.kit.lockedConstraintKinds = st.kit.lockedConstraintKinds ∧
    st'.kit.leastSolutions = st.kit.leastSolutions ∧
    st'.kit.greatestSolutions = st.kit.greatestSolutions ∧
    st'.summarySourceValueConstraintMap = st.summarySourceValueConstraintMap ∧
    st'.summarySinkValueConstraintMap = st.summarySinkValueConstraintMap ∧
    st'.summarySourceVargConstraintMap = st.summarySourceVargConstraintMap ∧
    st'.valueConstraintMap = st.valueConstraintMap ∧
    st'.vargConstraintMap = st.vargConstraintMap ∧
    ∃ t, st'.summarySinkVargConstraintMap f = some t ∧
      (∀ w, w ≠ f → st'.summarySinkVargConstraintMap w =
        st.summarySinkVargConstraintMap w) ∧
      ((st.summarySinkVargConstraintMap f = some t ∧
        st'.kit.nextVar = st.kit.nextVar) ∨
       (st.summarySinkVargConstraintMap f = none ∧ t = st.kit.nextVar ∧
        st'.kit.nextVar = st.kit.nextVar + 1)) ∧
      (∀ kk, st'.kit.constraints kk =
        if kk = kind then st.kit.constraints kind ++ [⟨.var t, .const .low⟩]
        else st.kit.constraints kk) := by
  rw [IState.setVargUntainted] at h
  by_cases hg : kind = "default" ∨ kind = "implicit"
  · rw [if_pos hg] at h
    exact absurd h (by simp)
  · rw [if_neg hg] at h
    rcases hss : IState.getOrCreateVargConsElemSummarySink st f with ⟨t, st1⟩
    simp only [hss] at h
    obtain ⟨A1, A2, A3, A4, A5, A6, A7, A8, A9, A10, A11, A12⟩ := gocSKVg_spec hss
    obtain ⟨B1, B2, B3, B4, _, B6, B7, B8, B9, B10, B11, B12⟩ := addK_spec h
    refine ⟨by rw [B1, A1], by rw [B2, A2], by rw [B3, A3], by rw [B7, A5],
      by rw [B8, A6], by rw [B9, A7], by rw [B11, A8], by rw [B12, A9],
      t, by rw [B10, A10], ?_, ?_, ?_⟩
    · intro w hw
      rw [B10, A11 w hw]
    · rcases A12 with ⟨heq, hv⟩ | ⟨hv, hs2, hn2⟩
      · refine Or.inl ⟨hv, ?_⟩
        rw [B4, heq]
      · refine Or.inr ⟨hv, hs2, ?_⟩
        rw [B4, hn2]
    · intro kk
      rw [B6, A4]
      rfl

/-! ## Preservation of the varg-source invariant -/

theorem C9Inv_setTainted {st st' : IState} {kind : String} {v : Nat}
    (h : IState.setTainted st kind v = some st') (hInv : C9Inv st) : C9Inv st' := by
  obtain ⟨hA, hB, hC, hD, hE⟩ := hInv
  obtain ⟨E1, E2, E3, E4, E5, E6, E7, E8, s, F1, F2, F3, F4⟩ := setTainted_spec h
  have hnv : st.kit.nextVar ≤ st'.kit.nextVar := by
    rcases F3 with ⟨_, hn⟩ | ⟨_, _, hn⟩ <;> omega
  have hs_lt : s < st'.kit.nextVar := by
    rcases F3 with ⟨hv, hn⟩ | ⟨hv, hs2, hn⟩
    · have := hB s (Or.inl ⟨v, hv⟩)
      omega
    · omega
  have hsvarg_eq : ∀ w, IsSvargId st' w ↔ IsSvargId st w := by
    intro w
    rw [IsSvargId, IsSvargId, E5]
  have hother : ∀ w, OtherRangeId st' w → OtherRangeId st w ∨ w = s := by
    intro w hw
    rcases hw with ⟨v', hv'⟩ | ⟨v', hv'⟩ | ⟨f', hf'⟩ | ⟨c', v', hv'⟩ | ⟨c', f', hf'⟩
    · by_cases hvv : v' = v
      · subst hvv
        rw [F1] at hv'
        exact Or.inr (Option.some.inj hv').symm
      · exact Or.inl (Or.inl ⟨v', by rw [← F2 v' hvv]; exact hv'⟩)
    · exact Or.inl (Or.inr (Or.inl ⟨v', by rw [← E4]; exact hv'⟩))
    · exact Or.inl (Or.inr (Or.inr (Or.inl ⟨f', by rw [← E6]; exact hf'⟩)))
    · exact Or.inl (Or.inr (Or.inr (Or.inr (Or.inl ⟨c', v', by rw [← E7]; exact hv'⟩))))
    · exact Or.inl (Or.inr (Or.inr (Or.inr (Or.inr ⟨c', f', by rw [← E8]; exact hf'⟩))))
  refine ⟨?_, ?_, ?_, ?_, ?_⟩
  · intro w hw
    have := hA w ((hsvarg_eq w).mp hw)
    omega
  · intro w hw
    rcases hother w hw with hw | rfl
    · have := hB w hw
      omega
    · exact hs_lt
  · intro w hw hwo
    have hw' := (hsvarg_eq w).mp hw
    rcases hother w hwo with hwo | rfl
    · exact hC w hw' hwo
    · rcases F3 with ⟨hv, _⟩ | ⟨hv, hs2, _⟩
      · exact hC w hw' (Or.inl ⟨v, hv⟩)
      · have := hA w hw'
        omega
  · intro kind' c hc w hwc
    rw [F4 kind'] at hc
    by_cases hk : kind' = kind
    · rw [if_pos hk] at hc
      rcases List.mem_append.mp hc with hc | hc
      · have := hD kind c hc w hwc
        omega
      · have hc' : c = ⟨.const .high, .var s⟩ := by simpa using hc
        subst hc'
        have hw' : w = s := by
          simpa [ConsElem.variables] using hwc
        subst hw'
        exact hs_lt
    · rw [if_neg hk] at hc
      have := hD kind' c hc w hwc
      omega
  · intro kind' c hc w hwl
    rw [F4 kind'] at hc
    intro hsv
    have hsv' := (hsvarg_eq w).mp hsv
    by_cases hk : kind' = kind
    · rw [if_pos hk] at hc
      rcases List.mem_append.mp hc with hc | hc
      · exact hE kind c hc w hwl hsv'
      · have hc' : c = ⟨.const .high, .var s⟩ := by simpa using hc
        subst hc'
        simp [ConsElem.variables] at hwl
    · rw [if_neg hk] at hc
      exact hE kind' c hc w hwl hsv'

theorem C9Inv_setUntainted {st st' : IState} {kind : String} {v : Nat}
    (h : IState.setUntainted st kind v = some st') (hInv : C9Inv st) : C9Inv st' := by
  obtain ⟨hA, hB, hC, hD, hE⟩ := hInv
  obtain ⟨E1, E2, E3, E4, E5, E6, E7, E8, t, F1, F2, F3, F4⟩ := setUntainted_spec h
  have hnv : st.kit.nextVar ≤ st'.kit.nextVar := by
    rcases F3 with ⟨_, hn⟩ | ⟨_, _, hn⟩ <;> omega
  have ht_lt : t < st'.kit.nextVar := by
    rcases F3 with ⟨hv, hn⟩ | ⟨hv, hs2, hn⟩
    · have := hB t (Or.inr (Or.inl ⟨v, hv⟩))
      omega
    · omega
  have ht_nsv : ¬ IsSvargId st t := by
    rcases F3 with ⟨hv, _⟩ | ⟨hv, ht2, _⟩
    · exact fun hsv => hC t hsv (Or.inr (Or.inl ⟨v, hv⟩))
    · intro hsv
      have := hA t hsv
      omega
  have hsvarg_eq : ∀ w, IsSvargId st' w ↔ IsSvargId st w := by
    intro w
    rw [IsSvargId, IsSvargId, E5]
  have hother : ∀ w, OtherRangeId st' w → OtherRangeId st w ∨ w = t := by
    intro w hw
    rcases hw with ⟨v', hv'⟩ | ⟨v', hv'⟩ | ⟨f', hf'⟩ | ⟨c', v', hv'⟩ | ⟨c', f', hf'⟩
    · exact Or.inl (Or.inl ⟨v', by rw [← E4]; exact hv'⟩)
    · by_cases hvv : v' = v
      · subst hvv
        rw [F1] at hv'
        exact Or.inr (Option.some.inj hv').symm
      · exact Or.inl (Or.inr (Or.inl ⟨v', by rw [← F2 v' hvv]; exact hv'⟩))
    · exact Or.inl (Or.inr (Or.inr (Or.inl ⟨f', by rw [← E6]; exact hf'⟩)))
    · exact Or.inl (Or.inr (Or.inr (Or.inr (Or.inl ⟨c', v', by rw [← E7]; exact hv'⟩))))
    · exact Or.inl (Or.inr (Or.inr (Or.inr (Or.inr ⟨c', f', by rw [← E8]; exact hf'⟩))))
  refine ⟨?_, ?_, ?_, ?_, ?_⟩
  · intro w hw
    have := hA w ((hsvarg_eq w).mp hw)
    omega
  · intro w hw
    rcases hother w hw with hw | rfl
    · have := hB w hw
      omega
    · exact ht_lt
  · intro w hw hwo
    have hw' := (hsvarg_eq w).mp hw
    rcases hother w hwo with hwo | rfl
    · exact hC w hw' hwo
    · exact ht_nsv hw'
  · intro kind' c hc w hwc
    rw [F4 kind'] at hc
    by_cases hk : kind' = kind
    · rw [if_pos hk] at hc
      rcases List.mem_append.mp hc with hc | hc
      · have := hD kind c hc w hwc
        omega
      · have hc' : c = ⟨.var t, .const .low⟩ := by simpa using hc
        subst hc'
        have hw' : w = t := by
          simpa [ConsElem.variables] using hwc
        subst hw'
        exact ht_lt
    · rw [if_neg hk] at hc
      have := hD kind' c hc w hwc
      omega
  · intro kind' c hc w hwl
    rw [F4 kind'] at hc
    intro hsv
    have hsv' := (hsvarg_eq w).mp hsv
    by_cases hk : kind' = kind
    · rw [if_pos hk] at hc
      rcases List.mem_append.mp hc with hc | hc
      · exact hE kind c hc w hwl hsv'
      · have hc' : c = ⟨.var t, .const .low⟩ := by simpa using hc
        subst hc'
        have hw' : w = t := by
          simpa [ConsElem.variables] using hwl
        subst hw'
        exact ht_nsv hsv'
    · rw [if_neg hk] at hc
      exact hE kind' c hc w hwl hsv'

theorem C9Inv_setVargTainted {st st' : IState} {kind : String} {f : Nat}
    (h : IState.setVargTainted st kind f = some st') (hInv : C9Inv st) : C9Inv st' := by
  obtain ⟨hA, hB, hC, hD, hE⟩ := hInv
  obtain ⟨E1, E2, E3, E4, E5, E6, E7, E8, s, F1, F2, F3, F4⟩ := setVargTainted_spec h
  have hnv : st.kit.nextVar ≤ st'.kit.nextVar := by
    rcases F3 with ⟨_, hn⟩ | ⟨_, _, hn⟩ <;> omega
  have hs_lt : s < st'.kit.nextVar := by
    rcases F3 with ⟨hv, hn⟩ | ⟨hv, hs2, hn⟩
    · have := hA s ⟨f, hv⟩
      omega
    · omega
  have hother_eq : ∀ w, OtherRangeId st' w ↔ OtherRangeId st w := by
    intro w
    rw [OtherRangeId, OtherRangeId, E4, E5, E6, E7, E8]
  have hsvarg : ∀ w, IsSvargId st' w → IsSvargId st w ∨ w = s := by
    intro w hw
    rcases hw with ⟨f', hf'⟩
    by_cases hff : f' = f
    · subst hff
      rw [F1] at hf'
      exact Or.inr (Option.some.inj hf').symm
    · exact Or.inl ⟨f', by rw [← F2 f' hff]; exact hf'⟩
  have hs_nsv : ∀ w, OtherRangeId st w → w ≠ s := by
    intro w hw hws
    subst hws
    rcases F3 with ⟨hv, _⟩ | ⟨hv, hs2, _⟩
    · exact hC w ⟨f, hv⟩ hw
    · have := hB w hw
      omega
  refine ⟨?_, ?_, ?_, ?_, ?_⟩
  · intro w hw
    rcases hsvarg w hw with hw | rfl
    · have := hA w hw
      omega
    · exact hs_lt
  · intro w hw
    have := hB w ((hother_eq w).mp hw)
    omega
  · intro w hw hwo
    have hwo' := (hother_eq w).mp hwo
    rcases hsvarg w hw with hw | rfl
    · exact hC w hw hwo'
    · exact hs_nsv w hwo' rfl
  · intro kind' c hc w hwc
    rw [F4 kind'] at hc
    by_cases hk : kind' = kind
    · rw [if_pos hk] at hc
      rcases List.mem_append.mp hc with hc | hc
      · have := hD kind c hc w hwc
        omega
      · have hc' : c = ⟨.const .high, .var s⟩ := by simpa using hc
        subst hc'
        have hw' : w = s := by
          simpa [ConsElem.variables] using hwc
        subst hw'
        exact hs_lt
    · rw [if_neg hk] at hc
      have := hD kind' c hc w hwc
      omega
  · intro kind' c hc w hwl
    rw [F4 kind'] at hc
    intro hsv
    have hold : c ∈ st.kit.constraints kind' ∨
        (kind' = kind ∧ c = ⟨.const .high, .var s⟩) := by
      by_cases hk : kind' = kind
      · rw [if_pos hk] at hc
        rcases List.mem_append.mp hc with hc | hc
        · exact Or.inl (hk ▸ hc)
        · exact Or.inr ⟨hk, by simpa using hc⟩
      · rw [if_neg hk] at hc
        exact Or.inl hc
    rcases hold with hc' | ⟨_, hc'⟩
    · rcases hsvarg w hsv with hsv' | rfl
      · exact hE kind' c hc' w hwl hsv'
      · have := hD kind' c hc' w (Finset.mem_union_left _ hwl)
        rcases F3 with ⟨hv, _⟩ | ⟨hv, hs2, hn⟩
        · exact hE kind' c hc' w hwl ⟨f, hv⟩
        · omega
    · subst hc'
      simp [ConsElem.variables] at hwl

theorem C9Inv_setVargUntainted {st st' : IState} {kind : String} {f : Nat}
    (h : IState.setVargUntainted st kind f = some st') (hInv : C9Inv st) :
    C9Inv st' := by
  obtain ⟨hA, hB, hC, hD, hE⟩ := hInv
  obtain ⟨E1, E2, E3, E4, E5, E6, E7, E8, t, F1, F2, F3, F4⟩ :=
    setVargUntainted_spec h
  have hnv : st.kit.nextVar ≤ st'.kit.nextVar := by
    rcases F3 with ⟨_, hn⟩ | ⟨_, _, hn⟩ <;> omega
  have ht_lt : t < st'.kit.nextVar := by
    rcases F3 with ⟨hv, hn⟩ | ⟨hv, hs2, hn⟩
    · have := hB t (Or.inr (Or.inr (Or.inl ⟨f, hv⟩)))
      omega
    · omega
  have ht_nsv : ¬ IsSvargId st t := by
    rcases F3 with ⟨hv, _⟩ | ⟨hv, ht2, _⟩
    · exact fun hsv => hC t hsv (Or.inr (Or.inr (Or.inl ⟨f, hv⟩)))
    · intro hsv
      have := hA t hsv
      omega
  have hsvarg_eq : ∀ w, IsSvargId st' w ↔ IsSvargId st w := by
    intro w
    rw [IsSvargId, IsSvargId, E6]
  have hother : ∀ w, OtherRangeId st' w → OtherRangeId st w ∨ w = t := by
    intro w hw
    rcases hw with ⟨v', hv'⟩ | ⟨v', hv'⟩ | ⟨f', hf'⟩ | ⟨c', v', hv'⟩ | ⟨c', f', hf'⟩
    · exact Or.inl (Or.inl ⟨v', by rw [← E4]; exact hv'⟩)
    · exact Or.inl (Or.inr (Or.inl ⟨v', by rw [← E5]; exact hv'⟩))
    · by_cases hff : f' = f
      · subst hff
        rw [F1] at hf'
        exact Or.inr (Option.some.inj hf').symm
      · exact Or.inl (Or.inr (Or.inr (Or.inl ⟨f', by rw [← F2 f' hff]; exact hf'⟩)))
    · exact Or.inl (Or.inr (Or.inr (Or.inr (Or.inl ⟨c', v', by rw [← E7]; exact hv'⟩))))
    · exact Or.inl (Or.inr (Or.inr (Or.inr (Or.inr ⟨c', f', by rw [← E8]; exact hf'⟩))))
  refine ⟨?_, ?_, ?_, ?_, ?_⟩
  · intro w hw
    have := hA w ((hsvarg_eq w).mp hw)
    omega
  · intro w hw
    rcases hother w hw with hw | rfl
    · have := hB w hw
      omega
    · exact ht_lt
  · intro w hw hwo
    have hw' := (hsvarg_eq w).mp hw
    rcases hother w hwo with hwo | rfl
    · exact hC w hw' hwo
    · exact ht_nsv hw'
  · intro kind' c hc w hwc
    rw [F4 kind'] at hc
    by_cases hk : kind' = kind
    · rw [if_pos hk] at hc
      rcases List.mem_append.mp hc with hc | hc
      · have := hD kind c hc w hwc
        omega
      · have hc' : c = ⟨.var t, .const .low⟩ := by simpa using hc
        subst hc'
        have hw' : w = t := by
          simpa [ConsElem.variables] using hwc
        subst hw'
        exact ht_lt
    · rw [if_neg hk] at hc
      have := hD kind' c hc w hwc
      omega
  · intro kind' c hc w hwl
    rw [F4 kind'] at hc
    intro hsv
    have hsv' := (hsvarg_eq w).mp hsv
    by_cases hk : kind' = kind
    · rw [if_pos hk] at hc
      rcases List.mem_append.mp hc with hc | hc
      · exact hE kind c hc w hwl hsv'
      · have hc' : c = ⟨.var t, .const .low⟩ := by simpa using hc
        subst hc'
        have hw' : w = t := by
          simpa [ConsElem.variables] using hwl
        subst hw'
        exact ht_nsv hsv'
    · rw [if_neg hk] at hc
      exact hE kind' c hc w hwl hsv'

theorem C9Inv_createValue {st st' : IState} {ctxt v e : Nat}
    (h : IState.getOrCreateConsElem st ctxt v = some (e, st')) (hInv : C9Inv st) :
    C9Inv st' := by
  obtain ⟨hA, hB, hC, hD, hE⟩ := hInv
  obtain ⟨E1, E2, E3, E4, E5, E6, G⟩ := getOrCreateConsElem_spec h
  rcases G with ⟨rfl, _⟩ | ⟨hvm, he, hlt, s, t, hs_alt, ht_alt, hsv1, hsv2,
    hkv1, hkv2, hvcm, hcons⟩
  · exact ⟨hA, hB, hC, hD, hE⟩
  · have hs_lt : s < st'.kit.nextVar := by
      rcases hs_alt with hv | ⟨_, _, hb⟩
      · have := hB s (Or.inl ⟨v, hv⟩)
        omega
      · exact hb
    have ht_lt : t < st'.kit.nextVar := by
      rcases ht_alt with hv | ⟨_, _, hb⟩
      · have := hB t (Or.inr (Or.inl ⟨v, hv⟩))
        omega
      · exact hb
    have hs_nsv : ¬ IsSvargId st s := by
      rcases hs_alt with hv | ⟨_, hge, _⟩
      · exact fun hsv => hC s hsv (Or.inl ⟨v, hv⟩)
      · intro hsv
        have := hA s hsv
        omega
    have ht_nsv : ¬ IsSvargId st t := by
      rcases ht_alt with hv | ⟨_, hge, _⟩
      · exact fun hsv => hC t hsv (Or.inr (Or.inl ⟨v, hv⟩))
      · intro hsv
        have := hA t hsv
        omega
    have he_nsv : ¬ IsSvargId st e := by
      intro hsv
      have := hA e hsv
      omega
    have hsvarg_eq : ∀ w, IsSvargId st' w ↔ IsSvargId st w := by
      intro w
      rw [IsSvargId, IsSvargId, E4]
    have hother : ∀ w, OtherRangeId st' w →
        OtherRangeId st w ∨ w = s ∨ w = t ∨ w = e := by
      intro w hw
      rcases hw with ⟨v', hv'⟩ | ⟨v', hv'⟩ | ⟨f', hf'⟩ | ⟨c', v', hv'⟩ | ⟨c', f', hf'⟩
      · by_cases hvv : v' = v
        · subst hvv
          rw [hsv1] at hv'
          exact Or.inr (Or.inl (Option.some.inj hv').symm)
        · exact Or.inl (Or.inl ⟨v', by rw [← hsv2 v' hvv]; exact hv'⟩)
      · by_cases hvv : v' = v
        · subst hvv
          rw [hkv1] at hv'
          exact Or.inr (Or.inr (Or.inl (Option.some.inj hv').symm))
        · exact Or.inl (Or.inr (Or.inl ⟨v', by rw [← hkv2 v' hvv]; exact hv'⟩))
      · exact Or.inl (Or.inr (Or.inr (Or.inl ⟨f', by rw [← E5]; exact hf'⟩)))
      · rw [hvcm c' v'] at hv'
        by_cases hcv : c' = ctxt ∧ v' = v
        · rw [if_pos hcv] at hv'
          exact Or.inr (Or.inr (Or.inr (Option.some.inj hv').symm))
        · rw [if_neg hcv] at hv'
          exact Or.inl (Or.inr (Or.inr (Or.inr (Or.inl ⟨c', v', hv'⟩))))
      · exact Or.inl (Or.inr (Or.inr (Or.inr (Or.inr ⟨c', f', by rw [← E6]; exact hf'⟩))))
    refine ⟨?_, ?_, ?_, ?_, ?_⟩
    · intro w hw
      have := hA w ((hsvarg_eq w).mp hw)
      omega
    · intro w hw
      rcases hother w hw with hw | rfl | rfl | rfl
      · have := hB w hw
        omega
      · exact hs_lt
      · exact ht_lt
      · omega
    · intro w hw hwo
      have hw' := (hsvarg_eq w).mp hw
      rcases hother w hwo with hwo | rfl | rfl | rfl
      · exact hC w hw' hwo
      · exact hs_nsv hw'
      · exact ht_nsv hw'
      · exact he_nsv hw'
    · intro kind' c hc w hwc
      rw [hcons kind'] at hc
      by_cases hk : kind' = "default"
      · rw [if_pos hk] at hc
        rcases List.mem_append.mp hc with hc | hc
        · have := hD "default" c hc w hwc
          omega
        · rcases List.mem_cons.mp hc with rfl | hc
          · have hw' : w = s ∨ w = e := by
              simpa [ConsElem.variables] using hwc
            rcases hw' with rfl | rfl
            · exact hs_lt
            · omega
          · have hc' : c = ⟨.var e, .var t⟩ := by simpa using hc
            subst hc'
            have hw' : w = e ∨ w = t := by
              simpa [ConsElem.variables] using hwc
            rcases hw' with rfl | rfl
            · omega
            · exact ht_lt
      · rw [if_neg hk] at hc
        have := hD kind' c hc w hwc
        omega
    · intro kind' c hc w hwl
      rw [hcons kind'] at hc
      intro hsv
      have hsv' := (hsvarg_eq w).mp hsv
      by_cases hk : kind' = "default"
      · rw [if_pos hk] at hc
        rcases List.mem_append.mp hc with hc | hc
        · exact hE "default" c hc w hwl hsv'
        · rcases List.mem_cons.mp hc with rfl | hc
          · have hw' : w = s := by
              simpa [ConsElem.variables] using hwl
            subst hw'
            exact hs_nsv hsv'
          · have hc' : c = ⟨.var e, .var t⟩ := by simpa using hc
            subst hc'
            have hw' : w = e := by
              simpa [ConsElem.variables] using hwl
            subst hw'
            exact he_nsv hsv'
      · rw [if_neg hk] at hc
        exact hE kind' c hc w hwl hsv'

theorem C9Inv_createVarg {st st' : IState} {ctxt f e : Nat}
    (h : IState.getOrCreateVargConsElem st ctxt f = some (e, st')) (hInv : C9Inv st) :
    C9Inv st' := by
  obtain ⟨hA, hB, hC, hD, hE⟩ := hInv
  obtain ⟨E1, E2, E3, E4, E5, G⟩ := getOrCreateVargConsElem_spec h
  rcases G with ⟨rfl, _⟩ | ⟨hvm, he, hlt, s, t, hs_alt, ht_alt, hsv1, hsv2,
    hskv_eq, hkt1, hkt2, hvargm, hcons⟩
  · exact ⟨hA, hB, hC, hD, hE⟩
  · have hs_lt : s < st'.kit.nextVar := by
      rcases hs_alt with hv | ⟨_, _, hb⟩
      · have := hB s (Or.inl ⟨f, hv⟩)
        omega
      · exact hb
    have ht_lt : t < st'.kit.nextVar := by
      rcases ht_alt with hv | ⟨_, _, hb⟩
      · have := hB t (Or.inr (Or.inr (Or.inl ⟨f, hv⟩)))
        omega
      · exact hb
    have hs_nsv : ¬ IsSvargId st s := by
      rcases hs_alt with hv | ⟨_, hge, _⟩
      · exact fun hsv => hC s hsv (Or.inl ⟨f, hv⟩)
      · intro hsv
        have := hA s hsv
        omega
    have ht_nsv : ¬ IsSvargId st t := by
      rcases ht_alt with hv | ⟨_, hge, _⟩
      · exact fun hsv => hC t hsv (Or.inr (Or.inr (Or.inl ⟨f, hv⟩)))
      · intro hsv
        have := hA t hsv
        omega
    have he_nsv : ¬ IsSvargId st e := by
      intro hsv
      have := hA e hsv
      omega
    have hsvarg_eq : ∀ w, IsSvargId st' w ↔ IsSvargId st w := by
      intro w
      rw [IsSvargId, IsSvargId, E4]
    have hother : ∀ w, OtherRangeId st' w →
        OtherRangeId st w ∨ w = s ∨ w = t ∨ w = e := by
      intro w hw
      rcases hw with ⟨v', hv'⟩ | ⟨v', hv'⟩ | ⟨f', hf'⟩ | ⟨c', v', hv'⟩ | ⟨c', f', hf'⟩
      · by_cases hvv : v' = f
        · subst hvv
          rw [hsv1] at hv'
          exact Or.inr (Or.inl (Option.some.inj hv').symm)
        · exact Or.inl (Or.inl ⟨v', by rw [← hsv2 v' hvv]; exact hv'⟩)
      · exact Or.inl (Or.inr (Or.inl ⟨v', by rw [← hskv_eq]; exact hv'⟩))
      · by_cases hff : f' = f
        · subst hff
          rw [hkt1] at hf'
          exact Or.inr (Or.inr (Or.inl (Option.some.inj hf').symm))
        · exact Or.inl (Or.inr (Or.inr (Or.inl ⟨f', by rw [← hkt2 f' hff]; exact hf'⟩)))
      · exact Or.inl (Or.inr (Or.inr (Or.inr (Or.inl ⟨c', v', by rw [← E5]; exact hv'⟩))))
      · rw [hvargm c' f'] at hf'
        by_cases hcf : c' = ctxt ∧ f' = f
        · rw [if_pos hcf] at hf'
          exact Or.inr (Or.inr (Or.inr (Option.some.inj hf').symm))
        · rw [if_neg hcf] at hf'
          exact Or.inl (Or.inr (Or.inr (Or.inr (Or.inr ⟨c', f', hf'⟩))))
    refine ⟨?_, ?_, ?_, ?_, ?_⟩
    · intro w hw
      have := hA w ((hsvarg_eq w).mp hw)
      omega
    · intro w hw
      rcases hother w hw with hw | rfl | rfl | rfl
      · have := hB w hw
        omega
      · exact hs_lt
      · exact ht_lt
      · omega
    · intro w hw hwo
      have hw' := (hsvarg_eq w).mp hw
      rcases hother w hwo with hwo | rfl | rfl | rfl
      · exact hC w hw' hwo
      · exact hs_nsv hw'
      · exact ht_nsv hw'
      · exact he_nsv hw'
    · intro kind' c hc w hwc
      rw [hcons kind'] at hc
      by_cases hk : kind' = "default"
      · rw [if_pos hk] at hc
        rcases List.mem_append.mp hc with hc | hc
        · have := hD "default" c hc w hwc
          omega
        · rcases List.mem_cons.mp hc with rfl | hc
          · have hw' : w = s ∨ w = e := by
              simpa [ConsElem.variables] using hwc
            rcases hw' with rfl | rfl
            · exact hs_lt
            · omega
          · have hc' : c = ⟨.var e, .var t⟩ := by simpa using hc
            subst hc'
            have hw' : w = e ∨ w = t := by
              simpa [ConsElem.variables] using hwc
            rcases hw' with rfl | rfl
            · omega
            · exact ht_lt
      · rw [if_neg hk] at hc
        have := hD kind' c hc w hwc
        omega
    · intro kind' c hc w hwl
      rw [hcons kind'] at hc
      intro hsv
      have hsv' := (hsvarg_eq w).mp hsv
      by_cases hk : kind' = "default"
      · rw [if_pos hk] at hc
        rcases List.mem_append.mp hc with hc | hc
        · exact hE "default" c hc w hwl hsv'
        · rcases List.mem_cons.mp hc with rfl | hc
          · have hw' : w = s := by
              simpa [ConsElem.variables] using hwl
            subst hw'
            exact hs_nsv hsv'
          · have hc' : c = ⟨.var e, .var t⟩ := by simpa using hc
            subst hc'
            have hw' : w = e := by
              simpa [ConsElem.variables] using hwl
            subst hw'
            exact he_nsv hsv'
      · rw [if_neg hk] at hc
        exact hE kind' c hc w hwl hsv'

theorem expandLhs_mem {lhs rhs : ConsElem} {c : LHConstraint}
    (hc : c ∈ expandLhs lhs rhs) :
    c.rhs = rhs ∧ (∀ w ∈ c.lhs.variables, w ∈ lhs.variables) := by
  match lhs with
  | .join l =>
      simp only [expandLhs, List.mem_map] at hc
      rcases hc with ⟨e0, he0, rfl⟩
      refine ⟨rfl, ?_⟩
      intro w hw
      show w ∈ ConsElem.variablesList l
      rw [mem_variablesList]
      exact ⟨e0, he0, hw⟩
  | .const c0 =>
      simp only [expandLhs, List.mem_singleton] at hc
      subst hc
      exact ⟨rfl, fun w hw => hw⟩
  | .var w0 =>
      simp only [expandLhs, List.mem_singleton] at hc
      subst hc
      exact ⟨rfl, fun w hw => hw⟩

theorem C9Inv_addK {st st' : IState} {kind : String} {lhs rhs : ConsElem}
    (h : st.addK kind lhs rhs = some st') (hInv : C9Inv st)
    (hbound : ∀ w ∈ lhs.variables ∪ rhs.variables, w < st.kit.nextVar)
    (hlhs : ∀ w ∈ lhs.variables, ¬ IsSvargId st w) : C9Inv st' := by
  obtain ⟨hA, hB, hC, hD, hE⟩ := hInv
  obtain ⟨B1, B2, B3, B4, _, B6, B7, B8, B9, B10, B11, B12⟩ := addK_spec h
  have hsvarg_eq : ∀ w, IsSvargId st' w ↔ IsSvargId st w := by
    intro w
    rw [IsSvargId, IsSvargId, B9]
  have hother_eq : ∀ w, OtherRangeId st' w ↔ OtherRangeId st w := by
    intro w
    rw [OtherRangeId, OtherRangeId, B7, B8, B10, B11, B12]
  refine ⟨?_, ?_, ?_, ?_, ?_⟩
  · intro w hw
    rw [B4]
    exact hA w ((hsvarg_eq w).mp hw)
  · intro w hw
    rw [B4]
    exact hB w ((hother_eq w).mp hw)
  · intro w hw hwo
    exact hC w ((hsvarg_eq w).mp hw) ((hother_eq w).mp hwo)
  · intro kind' c hc w hwc
    rw [B6 kind'] at hc
    rw [B4]
    by_cases hk : kind' = kind
    · rw [if_pos hk] at hc
      rcases List.mem_append.mp hc with hc | hc
      · exact hD kind c hc w hwc
      · obtain ⟨hr, hl⟩ := expandLhs_mem hc
        rcases Finset.mem_union.mp hwc with hw | hw
        · exact hbound w (Finset.mem_union_left _ (hl w hw))
        · rw [hr] at hw
          exact hbound w (Finset.mem_union_right _ hw)
    · rw [if_neg hk] at hc
      exact hD kind' c hc w hwc
  · intro kind' c hc w hwl
    rw [B6 kind'] at hc
    intro hsv
    have hsv' := (hsvarg_eq w).mp hsv
    by_cases hk : kind' = kind
    · rw [if_pos hk] at hc
      rcases List.mem_append.mp hc with hc | hc
      · exact hE kind c hc w hwl hsv'
      · obtain ⟨hr, hl⟩ := expandLhs_mem hc
        exact hlhs w (hl w hwl) hsv'
    · rw [if_neg hk] at hc
      exact hE kind' c hc w hwl hsv'

theorem isCtxVarId_other {st : IState} {w : Nat} (h : st.isCtxVarId w) :
    OtherRangeId st w := by
  rcases h with ⟨c, v, hv⟩ | ⟨c, f, hf⟩
  · exact Or.inr (Or.inr (Or.inr (Or.inl ⟨c, v, hv⟩)))
  · exact Or.inr (Or.inr (Or.inr (Or.inr ⟨c, f, hf⟩)))

theorem C9Inv_flowValue {st st' : IState} {imp sink : Bool} {ctxt v : Nat}
    {lub : ConsElem}
    (hlub : ∀ w ∈ lub.variables, st.isCtxVarId w)
    (h : IState.putOrConstrainConsElem st imp sink ctxt v lub = some st')
    (hInv : C9Inv st) : C9Inv st' := by
  rw [IState.putOrConstrainConsElem] at h
  cases hc : st.getOrCreateConsElem ctxt v with
  | none =>
      rw [hc] at h
      exact absurd h (by simp)
  | some p =>
      rcases p with ⟨e, st1⟩
      rw [hc] at h
      have hInv1 : C9Inv st1 := C9Inv_createValue hc hInv
      obtain ⟨E1, E2, E3, E4, E5, E6, G⟩ := getOrCreateConsElem_spec hc
      have hnv1 : st.kit.nextVar ≤ st1.kit.nextVar := by
        rcases G with ⟨rfl, _⟩ | ⟨_, _, hlt, _⟩
        · exact le_refl _
        · omega
      have he_lt : e < st1.kit.nextVar := by
        rcases G with ⟨rfl, hv⟩ | ⟨_, he, hlt, _⟩
        · exact hInv.2.1 e (Or.inr (Or.inr (Or.inr (Or.inl ⟨ctxt, v, hv⟩))))
        · omega
      have he_nsv : ¬ IsSvargId st1 e := by
        have hq : ∀ w, IsSvargId st1 w ↔ IsSvargId st w := by
          intro w
          rw [IsSvargId, IsSvargId, E4]
        rw [hq]
        rcases G with ⟨rfl, hv⟩ | ⟨_, he, hlt, _⟩
        · exact fun hsv =>
            hInv.2.2.1 e hsv (Or.inr (Or.inr (Or.inr (Or.inl ⟨ctxt, v, hv⟩))))
        · intro hsv
          have := hInv.1 e hsv
          omega
      apply C9Inv_addK h hInv1
      · intro w hw
        rcases Finset.mem_union.mp hw with hw | hw
        · have hb2 : w < st.kit.nextVar := hInv.2.1 w (isCtxVarId_other (hlub w hw))
          exact lt_of_lt_of_le hb2 hnv1
        · have hw' : w = e := by simpa [ConsElem.variables] using hw
          subst hw'
          exact he_lt
      · intro w hw hsv
        have hq : IsSvargId st w := by
          have : IsSvargId st1 w := hsv
          rw [IsSvargId, E4] at this
          exact this
        exact hInv.2.2.1 w hq (isCtxVarId_other (hlub w hw))

theorem C9Inv_flowVarg {st st' : IState} {imp sink : Bool} {ctxt f : Nat}
    {lub : ConsElem}
    (hlub : ∀ w ∈ lub.variables, st.isCtxVarId w)
    (h : IState.putOrConstrainVargConsElem st imp sink ctxt f lub = some st')
    (hInv : C9Inv st) : C9Inv st' := by
  rw [IState.putOrConstrainVargConsElem] at h
  cases hc : st.getOrCreateVargConsElem ctxt f with
  | none =>
      rw [hc] at h
      exact absurd h (by simp)
  | some p =>
      rcases p with ⟨e, st1⟩
      rw [hc] at h
      have hInv1 : C9Inv st1 := C9Inv_createVarg hc hInv
      obtain ⟨E1, E2, E3, E4, E5, G⟩ := getOrCreateVargConsElem_spec hc
      have hnv1 : st.kit.nextVar ≤ st1.kit.nextVar := by
        rcases G with ⟨rfl, _⟩ | ⟨_, _, hlt, _⟩
        · exact le_refl _
        · omega
      have he_lt : e < st1.kit.nextVar := by
        rcases G with ⟨rfl, hv⟩ | ⟨_, he, hlt, _⟩
        · exact hInv.2.1 e (Or.inr (Or.inr (Or.inr (Or.inr ⟨ctxt, f, hv⟩))))
        · omega
      have he_nsv : ¬ IsSvargId st1 e := by
        have hq : ∀ w, IsSvargId st1 w ↔ IsSvargId st w := by
          intro w
          rw [IsSvargId, IsSvargId, E4]
        rw [hq]
        rcases G with ⟨rfl, hv⟩ | ⟨_, he, hlt, _⟩
        · exact fun hsv =>
            hInv.2.2.1 e hsv (Or.inr (Or.inr (Or.inr (Or.inr ⟨ctxt, f, hv⟩))))
        · intro hsv
          have := hInv.1 e hsv
          omega
      apply C9Inv_addK h hInv1
      · intro w hw
        rcases Finset.mem_union.mp hw with hw | hw
        · have hb2 : w < st.kit.nextVar := hInv.2.1 w (isCtxVarId_other (hlub w hw))
          exact lt_of_lt_of_le hb2 hnv1
        · have hw' : w = e := by simpa [ConsElem.variables] using hw
          subst hw'
          exact he_lt
      · intro w hw hsv
        have hq : IsSvargId st w := by
          have hx : IsSvargId st1 w := hsv
          rw [IsSvargId, E4] at hx
          exact hx
        exact hInv.2.2.1 w hq (isCtxVarId_other (hlub w hw))

theorem IStep_C9Inv {st st' : IState} (h : IStep st st') (hInv : C9Inv st) :
    C9Inv st' := by
  cases h with
  | createValue ctxt v e st2 hc => exact C9Inv_createValue hc hInv
  | createVarg ctxt f e st2 hc => exact C9Inv_createVarg hc hInv
  | setTaintedStep kind v st2 hc => exact C9Inv_setTainted hc hInv
  | setUntaintedStep kind v st2 hc => exact C9Inv_setUntainted hc hInv
  | setVargTaintedStep kind f st2 hc => exact C9Inv_setVargTainted hc hInv
  | setVargUntaintedStep kind f st2 hc => exact C9Inv_setVargUntainted hc hInv
  | flowValue imp sink ctxt v lub st2 hh hctx hc =>
      exact C9Inv_flowValue hctx hc hInv
  | flowVarg imp sink ctxt f lub st2 hh hctx hc =>
      exact C9Inv_flowVarg hctx hc hInv

theorem C9Inv_start : C9Inv IState.start := by
  refine ⟨?_, ?_, ?_, ?_, ?_⟩
  · intro w hw
    rcases hw with ⟨f, hf⟩
    exact absurd hf (by simp [IState.start])
  · intro w hw
    rcases hw with ⟨v, hv⟩ | ⟨v, hv⟩ | ⟨f, hf⟩ | ⟨c, v, hv⟩ | ⟨c, f, hf⟩ <;>
      first
      | exact absurd hv (by simp [IState.start])
      | exact absurd hf (by simp [IState.start])
  · intro w hw
    rcases hw with ⟨f, hf⟩
    exact absurd hf (by simp [IState.start])
  · intro kind c hc
    exact absurd hc (by simp [IState.start, Kit.start])
  · intro kind c hc
    exact absurd hc (by simp [IState.start, Kit.start])

theorem IReachable_C9Inv {st : IState} (h : IReachable st) : C9Inv st := by
  induction h with
  | refl => exact C9Inv_start
  | tail _ hstep ih => exact IStep_C9Inv hstep ih

theorem IStep_pure {st st' : IState} (h : IStep st st')
    (hp : st.kit.lockedConstraintKinds = [] ∧
      (∀ kk, st.kit.leastSolutions kk = none) ∧
      (∀ kk, st.kit.greatestSolutions kk = none)) :
    st'.kit.lockedConstraintKinds = [] ∧
    (∀ kk, st'.kit.leastSolutions kk = none) ∧
    (∀ kk, st'.kit.greatestSolutions kk = none) := by
  obtain ⟨hl, hls, hgs⟩ := hp
  cases h with
  | createValue ctxt v e st2 hc =>
      obtain ⟨E1, E2, E3, _⟩ := getOrCreateConsElem_spec hc
      exact ⟨by rw [E1, hl], fun kk => by rw [E2]; exact hls kk,
        fun kk => by rw [E3]; exact hgs kk⟩
  | createVarg ctxt f e st2 hc =>
      obtain ⟨E1, E2, E3, _⟩ := getOrCreateVargConsElem_spec hc
      exact ⟨by rw [E1, hl], fun kk => by rw [E2]; exact hls kk,
        fun kk => by rw [E3]; exact hgs kk⟩
  | setTaintedStep kind v st2 hc =>
      obtain ⟨E1, E2, E3, _⟩ := setTainted_spec hc
      exact ⟨by rw [E1, hl], fun kk => by rw [E2]; exact hls kk,
        fun kk => by rw [E3]; exact hgs kk⟩
  | setUntaintedStep kind v st2 hc =>
      obtain ⟨E1, E2, E3, _⟩ := setUntainted_spec hc
      exact ⟨by rw [E1, hl], fun kk => by rw [E2]; exact hls kk,
        fun kk => by rw [E3]; exact hgs kk⟩
  | setVargTaintedStep kind f st2 hc =>
      obtain ⟨E1, E2, E3, _⟩ := setVargTainted_spec hc
      exact ⟨by rw [E1, hl], fun kk => by rw [E2]; exact hls kk,
        fun kk => by rw [E3]; exact hgs kk⟩
  | setVargUntaintedStep kind f st2 hc =>
      obtain ⟨E1, E2, E3, _⟩ := setVargUntainted_spec hc
      exact ⟨by rw [E1, hl], fun kk => by rw [E2]; exact hls kk,
        fun kk => by rw [E3]; exact hgs kk⟩
  | flowValue imp sink ctxt v lub st2 hh hctx hc =>
      rw [IState.putOrConstrainConsElem] at hc
      cases hg : st.getOrCreateConsElem ctxt v with
      | none => rw [hg] at hc; exact absurd hc (by simp)
      | some p =>
          rcases p with ⟨e, st1⟩
          rw [hg] at hc
          obtain ⟨E1, E2, E3, _⟩ := getOrCreateConsElem_spec hg
          obtain ⟨B1, B2, B3, _⟩ := addK_spec hc
          exact ⟨by rw [B1, E1, hl], fun kk => by rw [B2, E2]; exact hls kk,
            fun kk => by rw [B3, E3]; exact hgs kk⟩
  | flowVarg imp sink ctxt f lub st2 hh hctx hc =>
      rw [IState.putOrConstrainVargConsElem] at hc
      cases hg : st.getOrCreateVargConsElem ctxt f with
      | none => rw [hg] at hc; exact absurd hc (by simp)
      | some p =>
          rcases p with ⟨e, st1⟩
          rw [hg] at hc
          obtain ⟨E1, E2, E3, _⟩ := getOrCreateVargConsElem_spec hg
          obtain ⟨B1, B2, B3, _⟩ := addK_spec hc
          exact ⟨by rw [B1, E1, hl], fun kk => by rw [B2, E2]; exact hls kk,
            fun kk => by rw [B3, E3]; exact hgs kk⟩

theorem IReachable_pure {st : IState} (h : IReachable st) :
    st.kit.lockedConstraintKinds = [] ∧
    (∀ kk, st.kit.leastSolutions kk = none) ∧
    (∀ kk, st.kit.greatestSolutions kk = none) := by
  induction h with
  | refl => exact ⟨rfl, fun _ => rfl, fun _ => rfl⟩
  | tail _ hstep ih => exact IStep_pure hstep ih

theorem mem_constr_foldr (kit : Kit) :
    ∀ (ks : List String) (c : LHConstraint),
    c ∈ ks.foldr (fun kk acc => kit.constraints kk ++ acc) [] ↔
      ∃ kk ∈ ks, c ∈ kit.constraints kk := by
  intro ks
  induction ks with
  | nil => simp
  | cons k0 rest ih => intro c; simp [List.foldr_cons, ih]

theorem LfpL_svarg {st : IState} {K : List LHConstraint}
    (hseed : ∀ c ∈ K, c.lhs.hasHigh = true →
      c.lhs = .const .high ∧ ∃ f w, c.rhs = .var w ∧
        st.summarySourceVargConstraintMap f = some w)
    (hlhs : ∀ c ∈ K, ∀ w ∈ c.lhs.variables, ¬ IsSvargId st w) :
    ∀ v, LfpL K v → IsSvargId st v := by
  intro v hv
  induction hv with
  | seed c hc hh v hvr =>
      obtain ⟨_, f, w, hrhs, hmap⟩ := hseed c hc hh
      have hvw : v = w := by
        rw [hrhs] at hvr
        simpa [ConsElem.variables] using hvr
      rw [hvw]
      exact ⟨f, hmap⟩
  | step w c hw hc hwl v hvr ihw =>
      exact absurd ihw (hlhs c hc w hwl)

/-- C9: when the context-sensitive varargs element of a function `f` is
first created, the `"default"` linking constraint places `f`'s **value**
summary-source variable below the new varargs variable — not `f`'s varg
summary-source variable, which is never on the left-hand side of any stored
constraint of a reachable state; consequently, when the only `H` seeds of
the state are those installed by `setVargTainted` (`HSeedsVargOnly`), the
least solution over any kind set assigns `L` to every context-sensitive
varargs variable: the taint never propagates there. -/
theorem varg_summary_source_isolated (st : IState) (h : IReachable st) :
    (∀ ctx f e st', st.vargConstraintMap ctx f = none →
      IState.getOrCreateVargConsElem st ctx f = some (e, st') →
      ∃ s, st'.summarySourceValueConstraintMap f = some s ∧
        (⟨.var s, .var e⟩ : LHConstraint) ∈ st'.kit.constraints "default" ∧
        ∀ w, st.summarySourceVargConstraintMap f = some w →
          (⟨.var w, .var e⟩ : LHConstraint) ∉ st'.kit.constraints "default") ∧
    (∀ kind c, c ∈ st.kit.constraints kind →
      ∀ w ∈ c.lhs.variables, ¬ IsSvargId st w) ∧
    (HSeedsVargOnly st →
      ∀ kinds sol st2,
        Infoflow.leastSolution st kinds false false = some (sol, st2) →
      ∀ ctx f e, st.vargConstraintMap ctx f = some e →
        sol.soln.subst (.var e) = .low) := by
  have hInv := IReachable_C9Inv h
  obtain ⟨hpl, hpls, hpgs⟩ := IReachable_pure h
  refine ⟨?_, hInv.2.2.2.2, ?_⟩
  · intro ctx f e st' hnone hc
    have hre' : IReachable st' :=
      Relation.ReflTransGen.tail h (IStep.createVarg st ctx f e st' hc)
    have hInv' := IReachable_C9Inv hre'
    obtain ⟨E1, E2, E3, E4, E5, G⟩ := getOrCreateVargConsElem_spec hc
    rcases G with ⟨_, hvm⟩ | ⟨hvm, he, hlt, s, t, hs_alt, ht_alt, hsv1, hsv2,
      hskv, hkt1, hkt2, hvargm, hcons⟩
    · rw [hnone] at hvm
      exact absurd hvm (by simp)
    · refine ⟨s, hsv1, ?_, ?_⟩
      · rw [hcons "default", if_pos rfl]
        simp
      · intro w hw hmem
        have hsv : IsSvargId st' w := ⟨f, by rw [E4]; exact hw⟩
        exact hInv'.2.2.2.2 "default" ⟨.var w, .var e⟩ hmem w
          (by simp [ConsElem.variables]) hsv
  · intro hseeds kinds sol st2 hsol ctx f e hctx
    cases hk : (kinds ++ ["default"] ++ (if false then ["default-sinks"] else [])
        ++ (if false then ["implicit"] else [])
        ++ (if false && false then ["implicit-sinks"] else [])).dedup with
    | nil =>
        have hdm : "default" ∈ (kinds ++ ["default"]
            ++ (if false then ["default-sinks"] else [])
            ++ (if false then ["implicit"] else [])
            ++ (if false && false then ["implicit-sinks"] else [])).dedup := by
          rw [List.mem_dedup]
          simp
        rw [hk] at hdm
        exact absurd hdm (List.not_mem_nil _)
    | cons k0 rest =>
        have hnd : (k0 :: rest).Nodup := by
          rw [← hk]
          exact List.nodup_dedup _
        obtain ⟨PS, kitF, hkit, hmod⟩ :=
          kitLeastSolution_models st.kit k0 rest hnd hpls hpgs
        simp only [Infoflow.leastSolution, hk, hkit, Option.some.injEq,
          Prod.mk.injEq] at hsol
        obtain ⟨h1, h2⟩ := hsol
        rw [← h1]
        show PS.subst (.var e) = .low
        have hK := hmod.2.2
        have hne : e ∉ PS.unionV := by
          intro hmem
          have hlfp := (hK e).mp hmem
          have hsvarg : IsSvargId st e := by
            refine LfpL_svarg ?_ ?_ e hlfp
            · intro c hc hh
              rcases (mem_constr_foldr st.kit (k0 :: rest) c).mp hc with ⟨kk, _, hck⟩
              exact hseeds kk c hck hh
            · intro c hc w hwl
              rcases (mem_constr_foldr st.kit (k0 :: rest) c).mp hc with ⟨kk, _, hck⟩
              exact hInv.2.2.2.2 kk c hck w hwl
          exact hInv.2.2.1 e hsvarg
            (Or.inr (Or.inr (Or.inr (Or.inr ⟨ctx, f, hctx⟩))))
        rw [MSol.subst, hmod.1]
        simp [substP, hne]

theorem varg_summary_source_isolated_witness :
    IReachable c9StB ∧
    (∀ kind c, c ∈ c9StB.kit.constraints kind →
      ∀ w ∈ c.lhs.variables, ¬ IsSvargId c9StB w) := by
  have h1 : IState.setVargTainted IState.start "k" 5 = some c9StA := rfl
  have h2 : IState.getOrCreateVargConsElem c9StA 0 5 = some (1, c9StB) := rfl
  have hre : IReachable c9StB :=
    Relation.ReflTransGen.tail
      (Relation.ReflTransGen.tail Relation.ReflTransGen.refl
        (IStep.setVargTaintedStep IState.start "k" 5 c9StA h1))
      (IStep.createVarg c9StA 0 5 1 c9StB h2)
  exact ⟨hre, (varg_summary_source_isolated c9StB hre).2.1⟩

theorem fence_constraint_generation_aborts_witness :
    Instruction.fenceInst ∈
      [Instruction.binaryOperator 1 [2] 3, Instruction.fenceInst] ∧
    generateBasicBlockConstraints 0
      [Instruction.binaryOperator 1 [2] 3, Instruction.fenceInst] [] = none :=
  ⟨by simp,
   fence_constraint_generation_aborts.2.2 0 []
     [Instruction.binaryOperator 1 [2] 3, Instruction.fenceInst] (by simp)⟩
